import Mathlib

/-!
# Nexium ORM — formal model of the query-builder / model-lifecycle core

Shallow embedding of the JavaScript source of the Nexium ORM (the
`QueryBuilder`, relation and `Model` classes of the large bundled module,
plus the operator allow-list of `index.js`).  Every definition below is a
direct translation of a source function; the theorems at the end of the
file settle the frozen specification claims against these definitions.

Conventions used throughout the embedding:
* JavaScript values that can appear as query bindings or attribute values
  are modelled by `Value` (numbers as `Int`, `Date` objects as their
  millisecond timestamp, plain objects as association lists).
* JavaScript exceptions are modelled with `Except String`.
* Mutable builder state is modelled functionally: each fluent method maps
  the receiver to the updated builder.  (A separate heap-based model is
  used for the clone-independence claim, where aliasing matters.)
-/

namespace Nexium

/-- JavaScript runtime values as they occur in bindings and attributes.
`vundef` is JavaScript `undefined`, `vdate` a `Date` (by timestamp),
`vobj` a plain object (used when a whole row object ends up in a binding
list, which `BelongsToMany.attach` actually does). -/
inductive Value where
  | vnull
  | vundef
  | vbool (b : Bool)
  | vnum (n : Int)
  | vstr (s : String)
  | vdate (ms : Nat)
  | vobj (fields : List (String × Value))

mutual
/-- Structural equality on `Value`, playing the role of the JavaScript
`===`/`!==` comparisons the source performs on attribute values.  (The
source only ever compares primitive attribute values, for which JS
strict equality is value equality.) -/
def Value.beq : Value → Value → Bool
  | .vnull, .vnull => true
  | .vundef, .vundef => true
  | .vbool a, .vbool b => a == b
  | .vnum a, .vnum b => a == b
  | .vstr a, .vstr b => a == b
  | .vdate a, .vdate b => a == b
  | .vobj a, .vobj b => Value.beqFields a b
  | _, _ => false

def Value.beqFields : List (String × Value) → List (String × Value) → Bool
  | [], [] => true
  | (k, v) :: rest, (k', v') :: rest' =>
      k == k' && Value.beq v v' && Value.beqFields rest rest'
  | _, _ => false
end

instance : BEq Value := ⟨Value.beq⟩

/-! Character-list implementations of the string operations the source
uses (`toUpperCase`, `toLowerCase`, `trim`, regex tests, `replace`), kept
fully computable for the kernel. -/

/-- `s.toUpperCase()` (ASCII; the source only ever compares against
ASCII keywords). -/
def strToUpper (s : String) : String := ⟨s.data.map Char.toUpper⟩

/-- `s.toLowerCase()` (ASCII). -/
def strToLower (s : String) : String := ⟨s.data.map Char.toLower⟩

/-- `s.trim()`. -/
def strTrim (s : String) : String :=
  ⟨((s.data.dropWhile Char.isWhitespace).reverse.dropWhile Char.isWhitespace).reverse⟩

/-- `Array.prototype.join(sep)`. -/
def strJoin (sep : String) : List String → String
  | [] => ""
  | [s] => s
  | s :: rest => s ++ sep ++ strJoin sep rest

/-- Substring containment on character lists. -/
def listContainsSub (sub : List Char) : List Char → Bool
  | [] => sub.isEmpty
  | c :: t => sub.isPrefixOf (c :: t) || listContainsSub sub t

mutual
/-- Decidable equality for `Value` (hand-rolled: the nested `vobj`
payload defeats the deriving handler). -/
def Value.decEq : (a b : Value) → Decidable (a = b)
  | .vnull, .vnull => isTrue rfl
  | .vnull, .vundef => isFalse (fun hc => Value.noConfusion hc)
  | .vnull, .vbool _ => isFalse (fun hc => Value.noConfusion hc)
  | .vnull, .vnum _ => isFalse (fun hc => Value.noConfusion hc)
  | .vnull, .vstr _ => isFalse (fun hc => Value.noConfusion hc)
  | .vnull, .vdate _ => isFalse (fun hc => Value.noConfusion hc)
  | .vnull, .vobj _ => isFalse (fun hc => Value.noConfusion hc)
  | .vundef, .vnull => isFalse (fun hc => Value.noConfusion hc)
  | .vundef, .vundef => isTrue rfl
  | .vundef, .vbool _ => isFalse (fun hc => Value.noConfusion hc)
  | .vundef, .vnum _ => isFalse (fun hc => Value.noConfusion hc)
  | .vundef, .vstr _ => isFalse (fun hc => Value.noConfusion hc)
  | .vundef, .vdate _ => isFalse (fun hc => Value.noConfusion hc)
  | .vundef, .vobj _ => isFalse (fun hc => Value.noConfusion hc)
  | .vbool _, .vnull => isFalse (fun hc => Value.noConfusion hc)
  | .vbool _, .vundef => isFalse (fun hc => Value.noConfusion hc)
  | .vbool x, .vbool y =>
      if h : x = y then isTrue (h ▸ rfl)
      else isFalse (fun hc => h (Value.vbool.inj hc))
  | .vbool _, .vnum _ => isFalse (fun hc => Value.noConfusion hc)
  | .vbool _, .vstr _ => isFalse (fun hc => Value.noConfusion hc)
  | .vbool _, .vdate _ => isFalse (fun hc => Value.noConfusion hc)
  | .vbool _, .vobj _ => isFalse (fun hc => Value.noConfusion hc)
  | .vnum _, .vnull => isFalse (fun hc => Value.noConfusion hc)
  | .vnum _, .vundef => isFalse (fun hc => Value.noConfusion hc)
  | .vnum _, .vbool _ => isFalse (fun hc => Value.noConfusion hc)
  | .vnum x, .vnum y =>
      if h : x = y then isTrue (h ▸ rfl)
      else isFalse (fun hc => h (Value.vnum.inj hc))
  | .vnum _, .vstr _ => isFalse (fun hc => Value.noConfusion hc)
  | .vnum _, .vdate _ => isFalse (fun hc => Value.noConfusion hc)
  | .vnum _, .vobj _ => isFalse (fun hc => Value.noConfusion hc)
  | .vstr _, .vnull => isFalse (fun hc => Value.noConfusion hc)
  | .vstr _, .vundef => isFalse (fun hc => Value.noConfusion hc)
  | .vstr _, .vbool _ => isFalse (fun hc => Value.noConfusion hc)
  | .vstr _, .vnum _ => isFalse (fun hc => Value.noConfusion hc)
  | .vstr x, .vstr y =>
      if h : x = y then isTrue (h ▸ rfl)
      else isFalse (fun hc => h (Value.vstr.inj hc))
  | .vstr _, .vdate _ => isFalse (fun hc => Value.noConfusion hc)
  | .vstr _, .vobj _ => isFalse (fun hc => Value.noConfusion hc)
  | .vdate _, .vnull => isFalse (fun hc => Value.noConfusion hc)
  | .vdate _, .vundef => isFalse (fun hc => Value.noConfusion hc)
  | .vdate _, .vbool _ => isFalse (fun hc => Value.noConfusion hc)
  | .vdate _, .vnum _ => isFalse (fun hc => Value.noConfusion hc)
  | .vdate _, .vstr _ => isFalse (fun hc => Value.noConfusion hc)
  | .vdate x, .vdate y =>
      if h : x = y then isTrue (h ▸ rfl)
      else isFalse (fun hc => h (Value.vdate.inj hc))
  | .vdate _, .vobj _ => isFalse (fun hc => Value.noConfusion hc)
  | .vobj _, .vnull => isFalse (fun hc => Value.noConfusion hc)
  | .vobj _, .vundef => isFalse (fun hc => Value.noConfusion hc)
  | .vobj _, .vbool _ => isFalse (fun hc => Value.noConfusion hc)
  | .vobj _, .vnum _ => isFalse (fun hc => Value.noConfusion hc)
  | .vobj _, .vstr _ => isFalse (fun hc => Value.noConfusion hc)
  | .vobj _, .vdate _ => isFalse (fun hc => Value.noConfusion hc)
  | .vobj x, .vobj y =>
      match Value.decEqFields x y with
      | isTrue h => isTrue (h ▸ rfl)
      | isFalse h => isFalse (fun hc => h (Value.vobj.inj hc))

def Value.decEqFields : (fs gs : List (String × Value)) → Decidable (fs = gs)
  | [], [] => isTrue rfl
  | [], _ :: _ => isFalse (fun hc => List.noConfusion hc)
  | _ :: _, [] => isFalse (fun hc => List.noConfusion hc)
  | (k, v) :: r, (k', v') :: r' =>
      if hk : k = k' then
        match Value.decEq v v' with
        | isTrue hv =>
          match Value.decEqFields r r' with
          | isTrue hr => isTrue (by rw [hk, hv, hr])
          | isFalse hr => isFalse (fun hc => hr (by injection hc))
        | isFalse hv =>
          isFalse (fun hc => by
            injection hc with h1 h2
            exact hv (congrArg Prod.snd h1))
      else isFalse (fun hc => by
        injection hc with h1 h2
        exact hk (congrArg Prod.fst h1))
end

instance : DecidableEq Value := Value.decEq

mutual
/-- `Value.beq` is sound for propositional equality. -/
theorem Value.eq_of_beq : ∀ (a b : Value), Value.beq a b = true → a = b
  | .vnull, .vnull, _ => rfl
  | .vnull, .vundef, h => by simp [Value.beq] at h
  | .vnull, .vbool y, h => by simp [Value.beq] at h
  | .vnull, .vnum y, h => by simp [Value.beq] at h
  | .vnull, .vstr y, h => by simp [Value.beq] at h
  | .vnull, .vdate y, h => by simp [Value.beq] at h
  | .vnull, .vobj y, h => by simp [Value.beq] at h
  | .vundef, .vnull, h => by simp [Value.beq] at h
  | .vundef, .vundef, _ => rfl
  | .vundef, .vbool y, h => by simp [Value.beq] at h
  | .vundef, .vnum y, h => by simp [Value.beq] at h
  | .vundef, .vstr y, h => by simp [Value.beq] at h
  | .vundef, .vdate y, h => by simp [Value.beq] at h
  | .vundef, .vobj y, h => by simp [Value.beq] at h
  | .vbool x, .vnull, h => by simp [Value.beq] at h
  | .vbool x, .vundef, h => by simp [Value.beq] at h
  | .vbool x, .vbool y, h => congrArg Value.vbool (by simpa [Value.beq] using h)
  | .vbool x, .vnum y, h => by simp [Value.beq] at h
  | .vbool x, .vstr y, h => by simp [Value.beq] at h
  | .vbool x, .vdate y, h => by simp [Value.beq] at h
  | .vbool x, .vobj y, h => by simp [Value.beq] at h
  | .vnum x, .vnull, h => by simp [Value.beq] at h
  | .vnum x, .vundef, h => by simp [Value.beq] at h
  | .vnum x, .vbool y, h => by simp [Value.beq] at h
  | .vnum x, .vnum y, h => congrArg Value.vnum (by simpa [Value.beq] using h)
  | .vnum x, .vstr y, h => by simp [Value.beq] at h
  | .vnum x, .vdate y, h => by simp [Value.beq] at h
  | .vnum x, .vobj y, h => by simp [Value.beq] at h
  | .vstr x, .vnull, h => by simp [Value.beq] at h
  | .vstr x, .vundef, h => by simp [Value.beq] at h
  | .vstr x, .vbool y, h => by simp [Value.beq] at h
  | .vstr x, .vnum y, h => by simp [Value.beq] at h
  | .vstr x, .vstr y, h => congrArg Value.vstr (by simpa [Value.beq] using h)
  | .vstr x, .vdate y, h => by simp [Value.beq] at h
  | .vstr x, .vobj y, h => by simp [Value.beq] at h
  | .vdate x, .vnull, h => by simp [Value.beq] at h
  | .vdate x, .vundef, h => by simp [Value.beq] at h
  | .vdate x, .vbool y, h => by simp [Value.beq] at h
  | .vdate x, .vnum y, h => by simp [Value.beq] at h
  | .vdate x, .vstr y, h => by simp [Value.beq] at h
  | .vdate x, .vdate y, h => congrArg Value.vdate (by simpa [Value.beq] using h)
  | .vdate x, .vobj y, h => by simp [Value.beq] at h
  | .vobj x, .vnull, h => by simp [Value.beq] at h
  | .vobj x, .vundef, h => by simp [Value.beq] at h
  | .vobj x, .vbool y, h => by simp [Value.beq] at h
  | .vobj x, .vnum y, h => by simp [Value.beq] at h
  | .vobj x, .vstr y, h => by simp [Value.beq] at h
  | .vobj x, .vdate y, h => by simp [Value.beq] at h
  | .vobj x, .vobj y, h => congrArg Value.vobj (Value.eqFields_of_beqFields x y (by simpa [Value.beq] using h))

theorem Value.eqFields_of_beqFields :
    ∀ (fs gs : List (String × Value)), Value.beqFields fs gs = true → fs = gs
  | [], [], _ => rfl
  | [], _ :: _, h => by simp [Value.beqFields] at h
  | _ :: _, [], h => by simp [Value.beqFields] at h
  | (k, v) :: rest, (k', v') :: rest', h => by
      simp only [Value.beqFields, Bool.and_eq_true, beq_iff_eq] at h
      obtain ⟨⟨hk, hv⟩, hr⟩ := h
      subst hk
      rw [Value.eq_of_beq v v' hv, Value.eqFields_of_beqFields rest rest' hr]
end

mutual
/-- `Value.beq` is reflexive. -/
theorem Value.beq_refl : ∀ (a : Value), Value.beq a a = true
  | .vnull => rfl
  | .vundef => rfl
  | .vbool _ => by simp [Value.beq]
  | .vnum _ => by simp [Value.beq]
  | .vstr _ => by simp [Value.beq]
  | .vdate _ => by simp [Value.beq]
  | .vobj fs => by simpa [Value.beq] using Value.beqFields_refl fs

theorem Value.beqFields_refl : ∀ (fs : List (String × Value)), Value.beqFields fs fs = true
  | [] => rfl
  | (_, v) :: rest => by
      simp [Value.beqFields, Value.beq_refl v, Value.beqFields_refl rest]
end

/-- `Value.beq` decides propositional equality. -/
theorem Value.beq_iff_eq (a b : Value) : Value.beq a b = true ↔ a = b :=
  ⟨Value.eq_of_beq a b, fun h => h ▸ Value.beq_refl a⟩

/-- `Model.isBadValue`: `null`, `undefined`, `''` and whitespace-only
strings are "bad" (dropped by sanitisation / dirty diffing). -/
def isBadValue : Value → Bool
  | .vnull => true
  | .vundef => true
  | .vstr s => s.isEmpty || (strTrim s).isEmpty
  | _ => false

/-- JavaScript truthiness (`Boolean(v)`), used by `Array.prototype.filter(Boolean)`. -/
def valueTruthy : Value → Bool
  | .vnull => false
  | .vundef => false
  | .vbool b => b
  | .vnum n => n != 0
  | .vstr s => !s.isEmpty
  | .vdate _ => true
  | .vobj _ => true

/-- Case-insensitive substring test for `" as "`, mirroring the
`/ as /i` regex test in `DB.escapeId`. -/
def containsAsKeyword (s : String) : Bool :=
  listContainsSub " as ".data (strToLower s).data

/-- `DB.escapeId` for the default (MySQL/SQLite) driver: `*` passes
through, anything containing whitespace, parentheses or an ` AS ` alias
is treated as an expression and passed through unescaped, and everything
else is backtick-quoted with embedded backticks doubled. -/
def escapeId (id : String) : String :=
  if id == "*" then "*"
  else if id.data.any (fun c => c == ' ' || c == '\t' || c == '\n' || c == '\r')
      || id.data.contains '(' || id.data.contains ')' || containsAsKeyword id then id
  else "`" ++ ⟨(id.data.map (fun c => if c == '`' then ['`', '`'] else [c])).flatten⟩ ++ "`"

/-- One entry of `QueryBuilder._joins`. -/
structure Join where
  type : String
  table : String
  first : String
  operator : String
  second : String
deriving DecidableEq, Repr, BEq

/-- One entry of `QueryBuilder._having` (pushed by `_pushHaving`). -/
structure Having where
  column : String
  operator : String
  value : Value
  boolean : String
  bindings : List Value

mutual
/-- The mutable state of the large-module `QueryBuilder`, field for field:
table, `tableAlias`, `_select`, `_joins`, `_wheres`, `_group`, `_having`,
`_orders`, `_limit`, `_offset`, `_forUpdate`, `_distinct`, `_ctes`,
`_unions`, `_fromRaw`. -/
inductive Query where
  | mk
      (table : String)
      (tableAlias : Option String)
      (selects : List String)
      (joins : List Join)
      (wheres : List WhereNode)
      (groups : List String)
      (havings : List Having)
      (orders : List (String × String))
      (limitOpt : Option Int)
      (offsetOpt : Option Int)
      (forUpdateFlag : Bool)
      (distinctFlag : Bool)
      (ctes : List Cte)
      (unions : List UnionItem)
      (fromRawOpt : Option String)

/-- One entry of `QueryBuilder._wheres`.  Constructors correspond to the
`type` tags switched on by `_compileWheres`; `untyped` models an object
pushed into `_wheres` without any `type` field (which is what
`Model.query`'s soft-delete scope does), whose `type` reads back as
`undefined`. -/
inductive WhereNode where
  | basic (boolean : String) (column : String) (operator : String)
      (value : Value) (bindings : List Value)
  | raw (boolean : String) (rawSql : String) (bindings : List Value)
  | columns (boolean : String) (first : String) (operator : String) (second : String)
  | nested (boolean : String) (query : Query) (bindings : List Value)
  | inW (boolean : String) (column : String) (values : List Value) (bindings : List Value)
  | notInW (boolean : String) (column : String) (values : List Value) (bindings : List Value)
  | nullW (boolean : String) (column : String) (negated : Bool)
  | between (boolean : String) (column : String) (lo hi : Value) (negated : Bool)
      (bindings : List Value)
  | existsW (boolean : String) (query : Query) (bindings : List Value)
  | notExistsW (boolean : String) (query : Query) (bindings : List Value)
  | rawExists (boolean : String) (rawSql : String)
  | rawNotExists (boolean : String) (rawSql : String)
  | untyped (rawSql : String)

/-- One entry of `QueryBuilder._ctes`: name, `recursive` flag and the
sub-query (a builder or a raw string). -/
inductive Cte where
  | mk (name : String) (recursive : Bool) (query : SubQ)

/-- One entry of `QueryBuilder._unions`: `'UNION'`/`'UNION ALL'` plus the
sub-query. -/
inductive UnionItem where
  | mk (utype : String) (query : SubQ)

/-- A sub-query position that holds either a `QueryBuilder` instance or a
raw string (`instanceof QueryBuilder` dispatch in the compiler). -/
inductive SubQ where
  | qb (q : Query)
  | raw (s : String)
end

namespace Query

def table : Query → String | .mk t _ _ _ _ _ _ _ _ _ _ _ _ _ _ => t
def tableAlias : Query → Option String | .mk _ a _ _ _ _ _ _ _ _ _ _ _ _ _ => a
def selects : Query → List String | .mk _ _ s _ _ _ _ _ _ _ _ _ _ _ _ => s
def joins : Query → List Join | .mk _ _ _ j _ _ _ _ _ _ _ _ _ _ _ => j
def wheres : Query → List WhereNode | .mk _ _ _ _ w _ _ _ _ _ _ _ _ _ _ => w
def groups : Query → List String | .mk _ _ _ _ _ g _ _ _ _ _ _ _ _ _ => g
def havings : Query → List Having | .mk _ _ _ _ _ _ h _ _ _ _ _ _ _ _ => h
def orders : Query → List (String × String) | .mk _ _ _ _ _ _ _ o _ _ _ _ _ _ _ => o
def limitOpt : Query → Option Int | .mk _ _ _ _ _ _ _ _ l _ _ _ _ _ _ => l
def offsetOpt : Query → Option Int | .mk _ _ _ _ _ _ _ _ _ o _ _ _ _ _ => o
def forUpdateFlag : Query → Bool | .mk _ _ _ _ _ _ _ _ _ _ f _ _ _ _ => f
def distinctFlag : Query → Bool | .mk _ _ _ _ _ _ _ _ _ _ _ d _ _ _ => d
def ctes : Query → List Cte | .mk _ _ _ _ _ _ _ _ _ _ _ _ c _ _ => c
def unions : Query → List UnionItem | .mk _ _ _ _ _ _ _ _ _ _ _ _ _ u _ => u
def fromRawOpt : Query → Option String | .mk _ _ _ _ _ _ _ _ _ _ _ _ _ _ f => f

end Query

/-- `new QueryBuilder(table)`: the constructor defaults. -/
def mkQuery (table : String) : Query :=
  .mk table none ["*"] [] [] [] [] [] none none false false [] [] none

/-- The `boolean` field read back from a where node (`_pushWhere` defaults
it to `"AND"`; the untyped scope node never went through `_pushWhere`, so
its `boolean` is `undefined` and string-coerces to `"undefined"`). -/
def WhereNode.boolOf : WhereNode → String
  | .basic b .. => b
  | .raw b .. => b
  | .columns b .. => b
  | .nested b .. => b
  | .inW b .. => b
  | .notInW b .. => b
  | .nullW b .. => b
  | .between b .. => b
  | .existsW b .. => b
  | .notExistsW b .. => b
  | .rawExists b .. => b
  | .rawNotExists b .. => b
  | .untyped _ => "undefined"

/-- The `bindings` field read back from a where node.  Every node built by
`_pushWhere` carries an explicit (possibly empty) `bindings` array; the
untyped scope node has none (`w.bindings?.length` is `undefined`), so it
contributes nothing to `_gatherBindings`. -/
def WhereNode.bindingsOf : WhereNode → List Value
  | .basic _ _ _ _ bs => bs
  | .raw _ _ bs => bs
  | .columns .. => []
  | .nested _ _ bs => bs
  | .inW _ _ _ bs => bs
  | .notInW _ _ _ bs => bs
  | .nullW .. => []
  | .between _ _ _ _ _ bs => bs
  | .existsW _ _ bs => bs
  | .notExistsW _ _ bs => bs
  | .rawExists .. => []
  | .rawNotExists .. => []
  | .untyped _ => []

/-- `inner.replace(/^WHERE\s*/i, '')` in the `nested` compile branch:
drop a leading case-insensitive `WHERE` and any whitespace after it. -/
def stripWhereKeyword (s : String) : String :=
  if "where".data.isPrefixOf (strToLower s).data then
    ⟨(s.data.drop 5).dropWhile Char.isWhitespace⟩
  else s

mutual

/-- `QueryBuilder._gatherBindings()`: CTE sub-builders first, then the
`bindings` of every where node, then having bindings, then union
sub-builders. -/
def gatherBindings : Query → List Value
  | .mk _ _ _ _ ws _ hs _ _ _ _ _ cs us _ =>
    gatherCtes cs ++ gatherWheres ws
      ++ (hs.map Having.bindings).flatten ++ gatherUnions us

def gatherCtes : List Cte → List Value
  | [] => []
  | .mk _ _ (.qb q) :: rest => gatherBindings q ++ gatherCtes rest
  | .mk _ _ (.raw _) :: rest => gatherCtes rest

def gatherWheres : List WhereNode → List Value
  | [] => []
  | w :: rest => w.bindingsOf ++ gatherWheres rest

def gatherUnions : List UnionItem → List Value
  | [] => []
  | .mk _ (.qb q) :: rest => gatherBindings q ++ gatherUnions rest
  | .mk _ (.raw _) :: rest => gatherUnions rest

end

mutual

/-- `QueryBuilder._compileSelect()`.  Fails (like the JS `throw`) exactly
when `_compileWheres` meets an unknown `type` tag. -/
def compileSelect : Query → Except String String
  | .mk table al sel joins ws groups hs orders lim off fu dist cs us fromRaw => do
    let cteParts : List String ←
      if cs.isEmpty then pure []
      else do
        let recPrefix :=
          if cs.any (fun c => match c with | .mk _ r _ => r) then "WITH RECURSIVE "
          else "WITH "
        let frags ← compileCteList cs
        pure [recPrefix ++ strJoin ", " frags]
    let selParts :=
      ["SELECT"] ++ (if dist then ["DISTINCT"] else [])
        ++ [if sel.isEmpty then "*" else strJoin ", " sel]
    let fromPart :=
      match fromRaw with
      | some fr => ["FROM " ++ fr]
      | none =>
        ["FROM " ++ escapeId table
          ++ (match al with | some a => " AS " ++ escapeId a | none => "")]
    let joinParts := joins.map (fun j =>
      if j.type == "CROSS" then "CROSS JOIN " ++ escapeId j.table
      else j.type ++ " JOIN " ++ escapeId j.table ++ " ON "
        ++ escapeId j.first ++ " " ++ j.operator ++ " " ++ escapeId j.second)
    let whereSql ←
      if ws.isEmpty then pure ""
      else do
        let parts ← compileWheresGo 0 ws
        pure (strJoin " " parts)
    let whereParts := if whereSql == "" then [] else [whereSql]
    let groupParts :=
      if groups.isEmpty then []
      else ["GROUP BY " ++ strJoin ", " (groups.map escapeId)]
    let havingParts :=
      if hs.isEmpty then []
      else
        [strJoin " "
          ((hs.enum).map (fun p =>
            (if p.1 == 0 then "HAVING " else p.2.boolean ++ " ")
              ++ escapeId p.2.column ++ " " ++ p.2.operator ++ " ?"))]
    let orderParts :=
      if orders.isEmpty then []
      else ["ORDER BY " ++ strJoin ", "
        (orders.map (fun o => escapeId o.1 ++ " " ++ o.2))]
    let limitParts := match lim with | some n => ["LIMIT " ++ toString n] | none => []
    let offsetParts := match off with | some n => ["OFFSET " ++ toString n] | none => []
    let fuParts := if fu then ["FOR UPDATE"] else []
    let base := strJoin " "
      (cteParts ++ selParts ++ fromPart ++ joinParts ++ whereParts
        ++ groupParts ++ havingParts ++ orderParts ++ limitParts ++ offsetParts ++ fuParts)
    wrapUnions base us

def compileCteList : List Cte → Except String (List String)
  | [] => pure []
  | .mk name _ sub :: rest => do
    let inner ←
      match sub with
      | .qb q => do
          let s ← compileSelect q
          pure ("(" ++ s ++ ")")
      | .raw s => pure ("(" ++ s ++ ")")
    let tail ← compileCteList rest
    pure ((escapeId name ++ " AS " ++ inner) :: tail)

def wrapUnions : String → List UnionItem → Except String String
  | sql, [] => pure sql
  | sql, .mk utype sub :: rest => do
    let other ←
      match sub with
      | .qb q => compileSelect q
      | .raw s => pure s
    wrapUnions ("(" ++ sql ++ ") " ++ utype ++ " (" ++ other ++ ")") rest

def compileWheresGo (i : Nat) : List WhereNode → Except String (List String)
  | [] => pure []
  | w :: rest => do
    let pre := if i == 0 then "WHERE " else w.boolOf ++ " "
    let body ← compileWhereBody w
    let tail ← compileWheresGo (i + 1) rest
    pure ((pre ++ body) :: tail)

def compileWhereBody : WhereNode → Except String String
  | .raw _ r _ => pure r
  | .basic _ col op _ _ => pure (escapeId col ++ " " ++ op ++ " ?")
  | .columns _ first op second =>
      pure (escapeId first ++ " " ++ op ++ " " ++ escapeId second)
  | .nested _ (.mk _ _ _ _ ws _ _ _ _ _ _ _ _ _ _) _ => do
      let inner ←
        if ws.isEmpty then pure ""
        else do
          let parts ← compileWheresGo 0 ws
          pure (strJoin " " parts)
      pure ("(" ++ stripWhereKeyword inner ++ ")")
  | .inW _ col vals _ =>
      pure (escapeId col ++ " IN ("
        ++ strJoin ", " (vals.map (fun _ => "?")) ++ ")")
  | .notInW _ col vals _ =>
      pure (escapeId col ++ " NOT IN ("
        ++ strJoin ", " (vals.map (fun _ => "?")) ++ ")")
  | .nullW _ col neg =>
      pure (escapeId col ++ " IS " ++ (if neg then "NOT " else "") ++ "NULL")
  | .between _ col _ _ neg _ =>
      pure (escapeId col ++ " " ++ (if neg then "NOT BETWEEN" else "BETWEEN") ++ " ? AND ?")
  | .existsW _ q _ => do
      let sub ← compileSelect q
      pure ("EXISTS (" ++ sub ++ ")")
  | .notExistsW _ q _ => do
      let sub ← compileSelect q
      pure ("NOT EXISTS (" ++ sub ++ ")")
  | .rawExists _ r => pure ("EXISTS (" ++ r ++ ")")
  | .rawNotExists _ r => pure ("NOT EXISTS (" ++ r ++ ")")
  | .untyped _ => .error "Unknown where type: undefined"

end

/-- `QueryBuilder._compileWheres()` (the empty list yields `''`). -/
def compileWheres (ws : List WhereNode) : Except String String :=
  if ws.isEmpty then pure ""
  else do
    let parts ← compileWheresGo 0 ws
    pure (strJoin " " parts)

/-- `_compileWheres` used on its own for write statements
(`_compileWhereOnly`). -/
def compileWhereOnly (q : Query) : Except String String :=
  compileWheres q.wheres

namespace Query

/-- `_pushWhere`: append a node to `_wheres` (connector/bindings defaults
are baked into the node constructors at each call site, as in the JS). -/
def pushWhere : Query → WhereNode → Query
  | .mk t a s j w g h o l off fu d c u fr, n =>
    .mk t a s j (w ++ [n]) g h o l off fu d c u fr

/-- `where(col, value)` (two-argument form, operator defaults to `'='`). -/
def where2 (q : Query) (col : String) (v : Value) : Query :=
  q.pushWhere (.basic "AND" col "=" v [v])

/-- `where(col, operator, value)` (three-argument form; note: no operator
validation of any kind in this builder). -/
def where3 (q : Query) (col op : String) (v : Value) : Query :=
  q.pushWhere (.basic "AND" col op v [v])

/-- `orWhere(col, value)`. -/
def orWhere2 (q : Query) (col : String) (v : Value) : Query :=
  q.pushWhere (.basic "OR" col "=" v [v])

/-- `orWhere(col, operator, value)`. -/
def orWhere3 (q : Query) (col op : String) (v : Value) : Query :=
  q.pushWhere (.basic "OR" col op v [v])

/-- `whereRaw(sql, bindings)`. -/
def whereRaw (q : Query) (sql : String) (bs : List Value) : Query :=
  q.pushWhere (.raw "AND" sql bs)

/-- `whereColumn(a, op, b)` (three-argument form; two-argument form uses
`'='`).  No bindings: column-to-column comparison. -/
def whereColumn3 (q : Query) (a op b : String) : Query :=
  q.pushWhere (.columns "AND" a op b)

def whereColumn2 (q : Query) (a b : String) : Query :=
  q.pushWhere (.columns "AND" a "=" b)

/-- `whereNested(cb)`: `sub` is the dedicated sub-builder after the
callback ran; its gathered bindings are recorded on the node. -/
def whereNested (q : Query) (sub : Query) : Query :=
  q.pushWhere (.nested "AND" sub (gatherBindings sub))

/-- `whereIn(column, values)`: an empty array degenerates to the raw
always-false predicate `0 = 1` with no bindings. -/
def whereIn (q : Query) (col : String) (vals : List Value) : Query :=
  if vals.isEmpty then q.pushWhere (.raw "AND" "0 = 1" [])
  else q.pushWhere (.inW "AND" col vals vals)

/-- `whereNotIn(column, values)`: an empty array degenerates to the raw
always-true predicate `1 = 1` with no bindings. -/
def whereNotIn (q : Query) (col : String) (vals : List Value) : Query :=
  if vals.isEmpty then q.pushWhere (.raw "AND" "1 = 1" [])
  else q.pushWhere (.notInW "AND" col vals vals)

/-- `whereNot(col, op, value)` — operator `'='` becomes `'!='`, `'IN'`
becomes `'NOT IN'`; otherwise the operator passes through untouched. -/
def whereNot3 (q : Query) (col op : String) (v : Value) : Query :=
  let op' := if op == "=" then "!=" else if strToUpper op == "IN" then "NOT IN" else op
  q.pushWhere (.basic "AND" col op' v [v])

def whereNull (q : Query) (col : String) : Query :=
  q.pushWhere (.nullW "AND" col false)

def whereNotNull (q : Query) (col : String) : Query :=
  q.pushWhere (.nullW "AND" col true)

def whereBetween (q : Query) (col : String) (a b : Value) : Query :=
  q.pushWhere (.between "AND" col a b false [a, b])

def whereNotBetween (q : Query) (col : String) (a b : Value) : Query :=
  q.pushWhere (.between "AND" col a b true [a, b])

/-- `whereExists` with a callback/builder argument. -/
def whereExistsQ (q : Query) (sub : Query) : Query :=
  q.pushWhere (.existsW "AND" sub (gatherBindings sub))

def whereNotExistsQ (q : Query) (sub : Query) : Query :=
  q.pushWhere (.notExistsW "AND" sub (gatherBindings sub))

/-- `whereExists` with a raw-string argument. -/
def whereExistsRaw (q : Query) (sql : String) : Query :=
  q.pushWhere (.rawExists "AND" sql)

def groupByCols : Query → List String → Query
  | .mk t a s j w g h o l off fu d c u fr, cols =>
    .mk t a s j w (g ++ cols) h o l off fu d c u fr

/-- `_pushHaving(column, op, value, bool)`. -/
def pushHaving : Query → String → String → Value → String → Query
  | .mk t a s j w g h o l off fu d c u fr, col, op, v, b =>
    .mk t a s j w g (h ++ [⟨col, op, v, b, [v]⟩]) o l off fu d c u fr

/-- `having(col, value)` / `having(col, op, value)` / `orHaving(...)`. -/
def having2 (q : Query) (col : String) (v : Value) : Query := q.pushHaving col "=" v "AND"
def having3 (q : Query) (col op : String) (v : Value) : Query := q.pushHaving col op v "AND"
def orHaving2 (q : Query) (col : String) (v : Value) : Query := q.pushHaving col "=" v "OR"
def orHaving3 (q : Query) (col op : String) (v : Value) : Query := q.pushHaving col op v "OR"

/-- `orderBy(col, dir = 'ASC')`: the stored direction is `'DESC'` exactly
when the argument upper-cases to `'DESC'`, otherwise `'ASC'`. -/
def orderBy (q : Query) (col : String) (dir : String) : Query :=
  match q with
  | .mk t a s j w g h o l off fu d c u fr =>
    .mk t a s j w g h (o ++ [(col, if strToUpper dir == "DESC" then "DESC" else "ASC")])
      l off fu d c u fr

/-- `limit(n)`. -/
def limit : Query → Int → Query
  | .mk t a s j w g h o _ off fu d c u fr, n => .mk t a s j w g h o (some n) off fu d c u fr

/-- `offset(n)`. -/
def offset : Query → Int → Query
  | .mk t a s j w g h o l _ fu d c u fr, n => .mk t a s j w g h o l (some n) fu d c u fr

def forUpdateQ : Query → Query
  | .mk t a s j w g h o l off _ d c u fr => .mk t a s j w g h o l off true d c u fr

def distinctQ : Query → Query
  | .mk t a s j w g h o l off fu _ c u fr => .mk t a s j w g h o l off fu true c u fr

/-- `withCTE(name, query, { recursive })`. -/
def withCTE : Query → String → SubQ → Bool → Query
  | .mk t a s j w g h o l off fu d c u fr, name, sub, r =>
    .mk t a s j w g h o l off fu d (c ++ [.mk name r sub]) u fr

/-- `union(q)` / `unionAll(q)`. -/
def unionQ : Query → SubQ → Query
  | .mk t a s j w g h o l off fu d c u fr, sub =>
    .mk t a s j w g h o l off fu d c (u ++ [.mk "UNION" sub]) fr

def unionAllQ : Query → SubQ → Query
  | .mk t a s j w g h o l off fu d c u fr, sub =>
    .mk t a s j w g h o l off fu d c (u ++ [.mk "UNION ALL" sub]) fr

/-- `fromRaw(raw)`. -/
def fromRawQ : Query → String → Query
  | .mk t a s j w g h o l off fu d c u _, r => .mk t a s j w g h o l off fu d c u (some r)

/-- `join(type, table, first, operator, second)` (type upper-cased). -/
def joinQ : Query → String → String → String → String → String → Query
  | .mk t a s j w g h o l off fu d c u fr, ty, tbl, f, op, sec =>
    .mk t a s (j ++ [⟨strToUpper ty, tbl, f, op, sec⟩]) w g h o l off fu d c u fr

/-- `select(...cols)` for plain string columns (non-empty arg list
replaces `_select`). -/
def selectCols : Query → List String → Query
  | q@(.mk ..), [] => q
  | .mk t a _ j w g h o l off fu d c u fr, cols => .mk t a cols j w g h o l off fu d c u fr

end Query

/-! ## Write-path statement compilers -/

/-- A compiled SQL statement together with its ordered bindings, the
`(sql, params)` pair handed to `DB.raw`. -/
structure Stmt where
  sql : String
  bindings : List Value

/-- The argument of `QueryBuilder.insert(values)`: the call sites pass
either a plain object or (in `BelongsToMany.attach`) an *array* of row
objects.  `Object.keys` of an array yields the index strings. -/
inductive JsVal where
  | obj (fields : List (String × Value))
  | arr (elems : List (List (String × Value)))

/-- `Object.keys(values)`. -/
def jsKeys : JsVal → List String
  | .obj fs => fs.map Prod.fst
  | .arr es => (List.range es.length).map toString

/-- `Object.values(values)` (array elements surface as object values). -/
def jsValues : JsVal → List Value
  | .obj fs => fs.map Prod.snd
  | .arr es => es.map Value.vobj

/-- `QueryBuilder.insert(values)`: `INSERT INTO tbl (keys) VALUES (?, …)`
with `Object.values(values)` as bindings. -/
def insertStmt (table : String) (values : JsVal) : Stmt :=
  let keys := jsKeys values
  { sql := "INSERT INTO " ++ escapeId table ++ " ("
      ++ strJoin ", " (keys.map escapeId)
      ++ ") VALUES (" ++ strJoin ", " (keys.map (fun _ => "?")) ++ ")"
    bindings := jsValues values }

/-- `QueryBuilder.update(values)`: `none` when the payload is empty (the
method returns 0 without touching the database), otherwise the `UPDATE`
statement with SET bindings followed by the gathered where bindings. -/
def updateStmt (q : Query) (values : List (String × Value)) :
    Except String (Option Stmt) :=
  if values.isEmpty then pure none
  else do
    let setClause := strJoin ", "
      (values.map (fun kv => escapeId kv.1 ++ " = ?"))
    let whereSql ← compileWhereOnly q
    pure (some
      { sql := "UPDATE " ++ escapeId q.table ++ " SET " ++ setClause ++ " " ++ whereSql
        bindings := values.map Prod.snd ++ gatherBindings q })

/-- `QueryBuilder.delete()`: `DELETE FROM tbl <wheres>` with the gathered
bindings. -/
def deleteStmt (q : Query) : Except String Stmt := do
  let whereSql ← compileWhereOnly q
  pure { sql := "DELETE FROM " ++ escapeId q.table ++ " " ++ whereSql
         bindings := gatherBindings q }

/-! ## Attribute maps (JavaScript objects holding entity attributes) -/

/-- An attribute map: a JavaScript object as an ordered association list
(keys unique, in insertion order). -/
abbrev AttrMap := List (String × Value)

/-- `obj[k]`: the value at `k`, or `undefined` when absent. -/
def attrGet (m : AttrMap) (k : String) : Value :=
  match m.find? (fun kv => kv.1 == k) with
  | some kv => kv.2
  | none => (.vundef)

/-- `k in obj`. -/
def attrHas (m : AttrMap) (k : String) : Bool :=
  m.any (fun kv => kv.1 == k)

/-- `obj[k] = v`: overwrite in place, or append a new key. -/
def attrSet (m : AttrMap) (k : String) (v : Value) : AttrMap :=
  if m.any (fun kv => kv.1 == k) then
    m.map (fun kv => if kv.1 == k then (k, v) else kv)
  else m ++ [(k, v)]

/-- `delete obj[k]`. -/
def attrRemove (m : AttrMap) (k : String) : AttrMap :=
  m.filter (fun kv => kv.1 != k)

/-- `{ ...a, ...b }`: spread-merge (keys of `b` overwrite, new keys append). -/
def attrMerge (a b : AttrMap) : AttrMap :=
  b.foldl (fun acc kv => attrSet acc kv.1 kv.2) a

/-! ## The `Model` class -/

/-- The delete behaviour of the six relation kinds (`Relation` subclasses
plus the standalone `MorphTo`). -/
inductive RelKind where
  | belongsTo | hasOne | hasMany | hasManyThrough
  | morphOne | morphMany | morphTo | morphToMany | morphedByMany
  | belongsToMany
deriving DecidableEq

/-- The method names defined on each relation class (own plus inherited),
read off the class bodies in the source.  Used to model the
`typeof related.delete === 'function'` test in `Model.delete`: no
relation class defines `delete`. -/
def relationMethods : RelKind → List String
  | .belongsTo => ["onDelete", "get", "eagerLoad"]
  | .hasOne => ["onDelete", "get", "eagerLoad"]
  | .hasMany => ["onDelete", "get", "eagerLoad"]
  | .hasManyThrough => ["onDelete", "get"]
  | .morphOne => ["onDelete", "get"]
  | .morphMany => ["onDelete", "get"]
  | .morphTo => ["get"]
  | .morphToMany => ["onDelete"]
  | .morphedByMany => ["onDelete"]
  | .belongsToMany =>
      ["onDelete", "withPivot", "withTimestamps", "orderByPivot", "get",
       "eagerLoad", "attach", "detach", "sync", "toggle", "_hydratePivot"]

/-- The metadata of one declared relation as produced by
`Model.getRelations` (a cached relation instance per relation method). -/
structure RelDescr where
  kind : RelKind
  deleteBehavior : Option String := none
  pivotTable : Option String := none
  foreignKey : Option String := none
  relatedKey : Option String := none

/-- Truthiness of an optional string field (`relMeta.pivotTable && …`). -/
def optTruthy : Option String → Bool
  | some s => !s.isEmpty
  | none => false

/-- The class-level (static) configuration of a `Model` subclass.
`relations` stands for the output of `getRelations()` (which discovers
the relation methods by invoking them on a dummy instance; we take the
resulting name → relation-instance table as given class data). -/
structure MClass where
  name : String
  table : String
  primaryKey : String := "id"
  timestamps : Bool := false
  softDeletes : Bool := false
  deletedAt : String := "deleted_at"
  columns : List String := []
  relations : List (String × RelDescr) := []

/-- The per-instance persistence state: `_attributes`, `_original`,
`_exists`. -/
structure MState where
  attrs : AttrMap
  original : AttrMap
  existsFlag : Bool

/-- The `Model` constructor `(attributes, fresh, data)`: keep only
defined attribute values, snapshot `_original = { ...attrs, ...data }`. -/
def mkModel (attributes : AttrMap) (fresh : Bool) (data : AttrMap) : MState :=
  let attrs := attributes.filter (fun kv => kv.2 != Value.vundef)
  { attrs := attrs, original := attrMerge attrs data, existsFlag := fresh }

/-- `Model.query({ withTrashed })`: a fresh builder on the class table;
when soft deletes are enabled and `withTrashed` is not requested, a scope
object `{ raw: escapeId(deletedAt) + ' IS NULL' }` is pushed into
`_wheres` — note it carries no `type` tag. -/
def modelQuery (cls : MClass) (withTrashed : Bool) : Query :=
  let qb := mkQuery cls.table
  if cls.softDeletes && !withTrashed then
    qb.pushWhere (.untyped (escapeId cls.deletedAt ++ " IS NULL"))
  else qb

/-- `Model.prototype.sanitize(attrs)`: keep good values; bad values are
kept as `null` only for keys listed in the (usually absent) static
`columns`; everything else is dropped. -/
def sanitizeM (cls : MClass) (attrs : AttrMap) : AttrMap :=
  attrs.filterMap (fun kv =>
    if !isBadValue kv.2 then some kv
    else if cls.columns.contains kv.1 then some (kv.1, Value.vnull)
    else none)

/-- The dirty-set computation inside `Model.save()`: attributes whose
current value strictly differs from the original, skipping bad values
and (when soft deletes are enabled) the deletion-timestamp column. -/
def dirtyOf (cls : MClass) (attrs orig : AttrMap) : AttrMap :=
  attrs.filter (fun kv =>
    !(Value.beq kv.2 (attrGet orig kv.1)) && !isBadValue kv.2
      && !(cls.softDeletes && kv.1 == cls.deletedAt))

/-- A validator as consumed through the external validator contract:
candidate attributes plus the uniqueness-ignore id, `true` = passes. -/
abbrev ValidatorFn := AttrMap → Value → Bool

/-- `Model.save()` on an existing entity (`_exists === true`): compute
the dirty set, return with no statement when it is empty, otherwise
stamp `updated_at` (timestamps), validate the merged view, and issue one
`UPDATE` restricted to the payload columns through
`this.constructor.query().where(pk, id).update(payload)`; afterwards
`_original := sanitize(_attributes)`.  (No lifecycle hooks are
registered on the modelled classes, so `trigger('updating')` is a
no-op.) -/
def saveExisting (cls : MClass) (validate : ValidatorFn) (now : Nat)
    (st : MState) : Except String (MState × List Stmt) := do
  let dirty := dirtyOf cls st.attrs st.original
  let payload := sanitizeM cls dirty
  if payload.isEmpty then pure (st, [])
  else do
    let payload := if cls.timestamps then attrSet payload "updated_at" (.vdate now) else payload
    let attrs := if cls.timestamps then attrSet st.attrs "updated_at" (.vdate now) else st.attrs
    let pk := cls.primaryKey
    if !validate (attrMerge st.original payload) (attrGet attrs pk) then
      throw "ValidationError"
    let id := attrGet attrs pk
    let qb := (modelQuery cls false).where2 pk id
    let stmtOpt ← updateStmt qb payload
    let st' : MState := { attrs := attrs, original := sanitizeM cls attrs, existsFlag := true }
    pure (st', match stmtOpt with | some s => [s] | none => [])

/-- `Model.saveNew(attrs)`: sanitize, validate, stamp timestamps
(`payload.created_at = payload.created_at || now`), drop a bad
deletion-timestamp value, insert, then adopt the payload (plus the
generated key when the payload has no primary key) as both `_attributes`
and `_original`. -/
def saveNew (cls : MClass) (validate : ValidatorFn) (now : Nat) (insertId : Value)
    (st : MState) (attrsArg : Option AttrMap) : Except String (MState × List Stmt) := do
  let payload := sanitizeM cls (attrsArg.getD st.attrs)
  if !validate payload .vundef then throw "ValidationError"
  let payload :=
    if cls.timestamps then
      let p1 := if valueTruthy (attrGet payload "created_at") then payload
                else attrSet payload "created_at" (.vdate now)
      if valueTruthy (attrGet p1 "updated_at") then p1
      else attrSet p1 "updated_at" (.vdate now)
    else payload
  let payload :=
    if cls.softDeletes && attrHas payload cls.deletedAt
        && isBadValue (attrGet payload cls.deletedAt) then
      attrRemove payload cls.deletedAt
    else payload
  let stmt := insertStmt cls.table (.obj payload)
  let payload :=
    if !(attrHas payload cls.primaryKey) && insertId != Value.vundef then
      attrSet payload cls.primaryKey insertId
    else payload
  pure ({ attrs := payload, original := payload, existsFlag := true }, [stmt])

/-- `Model.save()`: dispatch to `saveNew` for not-yet-persisted entities,
else the dirty-update path. -/
def save (cls : MClass) (validate : ValidatorFn) (now : Nat) (insertId : Value)
    (st : MState) : Except String (MState × List Stmt) :=
  if !st.existsFlag then saveNew cls validate now insertId st (some st.attrs)
  else saveExisting cls validate now st

/-- The value `await this[relName]()` evaluates to inside `Model.delete`:
the relation methods return relation *instances* (descriptors), not
fetched rows; such an instance is truthy, is not an `Array`, and has a
`delete` method only if its class defines one. -/
inductive LoadedRel where
  | relationInstance (kind : RelKind)

def jsIsArray : LoadedRel → Bool
  | .relationInstance _ => false

def jsHasDeleteMethod : LoadedRel → Bool
  | .relationInstance k => (relationMethods k).contains "delete"

/-- The relation walk of `Model.delete` on the hard-delete path: for each
discovered relation, load `related := this[relName]()` and apply the
configured behaviour (`relMeta.deleteBehavior || 'ignore'`):
`restrict` throws (the loaded relation instance is always truthy),
`detach` deletes pivot rows for pivot-shaped metadata (the related-id
list degenerates to `[undefined]` since relation classes have no static
`primaryKey`), `cascade` would call `related.delete()` but no relation
class defines `delete`, so it does nothing, and `ignore` does nothing. -/
def cascadeWalk (cls : MClass) (st : MState) :
    List (String × RelDescr) → Except String (List Stmt)
  | [] => pure []
  | (relName, rel) :: rest => do
    let related := LoadedRel.relationInstance rel.kind
    let behavior := match rel.deleteBehavior with
      | some b => if b.isEmpty then "ignore" else b
      | none => "ignore"
    let stmts ←
      if behavior == "restrict" then
        throw ("Cannot delete " ++ cls.name ++ ": related " ++ relName ++ " exists")
      else if behavior == "detach" then
        if optTruthy rel.pivotTable && optTruthy rel.foreignKey
            && optTruthy rel.relatedKey then do
          let parentId := attrGet st.attrs cls.primaryKey
          let relatedIds : List Value := [.vundef]
          let qb := ((mkQuery (rel.pivotTable.getD ""))
            |>.where2 (rel.foreignKey.getD "") parentId)
            |>.whereIn (rel.relatedKey.getD "") relatedIds
          let s ← deleteStmt qb
          pure [s]
        else pure []
      else if behavior == "cascade" then
        -- `if (Array.isArray(related)) … else if (typeof related.delete
        -- === 'function') await related.delete()`: both tests fail on a
        -- relation instance, so the cascade branch issues nothing.
        if jsIsArray related then pure []
        else if jsHasDeleteMethod related then pure []
        else pure []
      else pure []
    let tail ← cascadeWalk cls st rest
    pure (stmts ++ tail)

/-- `Model.delete()`: no-op on a non-existing entity; with soft deletes
enabled set the deletion-timestamp attribute and route through `save()`;
otherwise walk the relations (cascade resolver) and issue the physical
`DELETE … WHERE pk = ?`. -/
def deleteM (cls : MClass) (validate : ValidatorFn) (now : Nat)
    (st : MState) : Except String (MState × List Stmt) := do
  if !st.existsFlag then pure (st, [])
  else
    let pk := cls.primaryKey
    if cls.softDeletes then
      let st1 := { st with attrs := attrSet st.attrs cls.deletedAt (.vdate now) }
      saveExisting cls validate now st1
    else do
      let relStmts ← cascadeWalk cls st cls.relations
      let qb := (modelQuery cls false).where2 pk (attrGet st.attrs pk)
      let dstmt ← deleteStmt qb
      pure ({ st with existsFlag := false }, relStmts ++ [dstmt])

/-! ## Eager loading -/

/-- A fetched row. -/
abbrev Row := AttrMap

/-- A JavaScript `Map` keyed by values (SameValueZero keys, insertion
order). -/
abbrev VMap (α : Type) := List (Value × α)

def vmapGet {α} (m : VMap α) (k : Value) : Option α :=
  (m.find? (fun p => Value.beq p.1 k)).map Prod.snd

def vmapSet {α} (m : VMap α) (k : Value) (v : α) : VMap α :=
  if m.any (fun p => Value.beq p.1 k) then
    m.map (fun p => if Value.beq p.1 k then (k, v) else p)
  else m ++ [(k, v)]

/-- One step of the row-grouping loop
(`grouped.get(r[fk]).push(r)`; a missing key raises a `TypeError`). -/
def groupPushStep (fk : String) (m : VMap (List Row)) (r : Row) :
    Except String (VMap (List Row)) :=
  match vmapGet m (attrGet r fk) with
  | some l => pure (vmapSet m (attrGet r fk) (l ++ [r]))
  | none => throw "TypeError: cannot read properties of undefined"

/-- `HasMany.eagerLoad(parents, relName)`: one `whereIn` query for the
batch, a grouping map primed with `[]` per parent, rows pushed into their
group (a row whose key missed the map would raise a `TypeError` on
`.push`), then each parent is assigned its group.  The result pairs each
parent with the assigned value (`none` would mean `undefined`). -/
def hasManyEagerLoad (fk lk : String) (fetch : List Value → List Row)
    (parents : List Row) : Except String (Nat × List (Row × Option (List Row))) := do
  let parentIds := parents.map (fun p => attrGet p lk)
  let rows := fetch parentIds
  let grouped0 : VMap (List Row) :=
    parents.foldl (fun m p => vmapSet m (attrGet p lk) []) []
  let grouped ← rows.foldlM (groupPushStep fk) grouped0
  pure (1, parents.map (fun p => (p, vmapGet grouped (attrGet p lk))))

/-- `BelongsTo.eagerLoad(parents, relName)`: collect truthy foreign-key
values, one `whereIn` query, a row map keyed by the owner key, then each
parent is assigned its row or (`|| null`) null; `none` here is the
JavaScript `null`. -/
def belongsToEagerLoad (fkName ownerKey : String) (fetch : List Value → List Row)
    (parents : List Row) : Nat × List (Row × Option Row) :=
  let fkValues := (parents.map (fun p => attrGet p fkName)).filter valueTruthy
  let rows := fetch fkValues
  let m : VMap Row := rows.foldl (fun m r => vmapSet m (attrGet r ownerKey) r) []
  (1, parents.map (fun p => (p, vmapGet m (attrGet p fkName))))

/-- `QueryBuilder._eagerLoad(models)` specialised to one requested
relation: with no models it returns before calling the relation's
`eagerLoad` (zero additional queries); otherwise it dispatches to the
relation's `eagerLoad`, here a `HasMany`. -/
def eagerLoadBatchHasMany (fk lk : String) (fetch : List Value → List Row)
    (parents : List Row) : Except String (Nat × List (Row × Option (List Row))) :=
  if parents.isEmpty then pure (0, [])
  else hasManyEagerLoad fk lk fetch parents

/-- `QueryBuilder._eagerLoad(models)` specialised to one `BelongsTo`
relation. -/
def eagerLoadBatchBelongsTo (fkName ownerKey : String) (fetch : List Value → List Row)
    (parents : List Row) : Nat × List (Row × Option Row) :=
  if parents.isEmpty then (0, [])
  else belongsToEagerLoad fkName ownerKey fetch parents

/-! ## Many-to-many mutators -/

/-- The configuration of a `BelongsToMany` relation instance. -/
structure BtmRel where
  pivotTable : String
  foreignKey : String
  relatedKey : String
  parentPK : String
  withTimestamps : Bool := false

/-- The row objects `attach(ids, pivotData)` builds: one per id, with the
parent key under the foreign-key column, the id under the related-key
column, the extra pivot data spread in, and pivot timestamps when
enabled. -/
def attachRows (rel : BtmRel) (parentAttrs : AttrMap) (ids : List Value)
    (pivotData : AttrMap) (now : Nat) : List (List (String × Value)) :=
  ids.map (fun id =>
    let data := attrMerge
      [(rel.foreignKey, attrGet parentAttrs rel.parentPK), (rel.relatedKey, id)]
      pivotData
    if rel.withTimestamps then
      attrSet (attrSet data "created_at" (.vdate now)) "updated_at" (.vdate now)
    else data)

/-- `BelongsToMany.attach(ids, pivotData)`: build the row objects and pass
the *array* of them to `new QueryBuilder(pivotTable).insert(rows)`. -/
def attachStmt (rel : BtmRel) (parentAttrs : AttrMap) (ids : List Value)
    (pivotData : AttrMap) (now : Nat) : Stmt :=
  insertStmt rel.pivotTable (.arr (attachRows rel parentAttrs ids pivotData now))

/-! ## The operator allow-list of the `index.js` builder -/

/-- `VALID_OPERATORS` (index.js line 1115). -/
def VALID_OPERATORS : List String :=
  ["=", "<", "<=", ">", ">=", "<>", "!=", "LIKE", "ILIKE"]

/-- `QueryBuilder._normalizeOperator(operator)` of the index.js builder:
`const op = operator ? operator.toUpperCase() : '='` — a *falsy* operator
(missing, or the empty string) silently defaults to `'='`; a truthy one is
upper-cased and rejected if outside the allow-list; `ILIKE` is rewritten
to `LIKE` on MySQL. -/
def normalizeOperator (dialect : String) (operator : Option String) :
    Except String String := do
  let op := match operator with
    | some o => if o == "" then "=" else strToUpper o
    | none => "="
  if !VALID_OPERATORS.contains op then
    throw ("Invalid SQL operator: " ++ (match operator with | some o => o | none => "undefined"))
  if op == "ILIKE" && dialect == "mysql" then pure "LIKE"
  else pure op

/-! ## Concrete fixtures used by the claim theorems -/

/-- A soft-deleting, timestamped entity class (`Post` of the examples). -/
def postCls : MClass :=
  { name := "Post", table := "posts", timestamps := true, softDeletes := true }

/-- A persisted `Post` instance whose attributes equal its snapshot. -/
def postSt : MState := mkModel [("id", .vnum 1), ("title", .vstr "t")] true []

/-- A plain entity class without timestamps or soft deletes. -/
def userCls : MClass := { name := "User", table := "users" }

/-- A persisted `User` whose current `email` is the empty string while the
snapshot holds `"a@b.c"` (constructible through the public constructor's
third argument, which is spread into `_original`). -/
def userBlankEmail : MState :=
  mkModel [("id", .vnum 1), ("email", .vstr "")] true [("email", .vstr "a@b.c")]

/-- A `User` class declaring a `posts` has-many relation configured with
on-delete `cascade`. -/
def userClsCascade : MClass :=
  { name := "User", table := "users",
    relations := [("posts",
      { kind := .hasMany, deleteBehavior := some "cascade",
        foreignKey := some "user_id" })] }

/-- The `roles` many-to-many relation of a `User` (pivot `role_user`). -/
def rolesRel : BtmRel :=
  { pivotTable := "role_user", foreignKey := "user_id",
    relatedKey := "role_id", parentPK := "id" }

/-- A validator that always passes (the validator is an external
collaborator consumed through a pass/fail contract). -/
def okValidator : ValidatorFn := fun _ _ => true

end Nexium

namespace Nexium

/-! ## Binding-order instrumentation

To settle the binding-order-fidelity claim, the compiler is re-run in an
instrumented form that emits a token stream: plain text fragments plus
one `hole` token, carrying the structural literal, for every `?` the
real compiler prints.  Rendering the stream (holes as `?`) must
reproduce `_compileSelect`'s text, and the hole sequence is compared
with `_gatherBindings`. -/

/-- Number of `?` placeholders in a piece of SQL text. -/
def countQ (s : String) : Nat := s.data.count '?'

/-- A compiled-SQL token: literal text or a parameter hole carrying the
structural value bound at that position. -/
inductive Tok where
  | txt (s : String)
  | hole (v : Value)

/-- Render a token stream to the SQL text (`hole ↦ ?`). -/
def renderToks : List Tok → String
  | [] => ""
  | .txt s :: rest => s ++ renderToks rest
  | .hole _ :: rest => "?" ++ renderToks rest

/-- The values sitting in the holes, in emission order. -/
def holesOf : List Tok → List Value
  | [] => []
  | .txt _ :: rest => holesOf rest
  | .hole v :: rest => v :: holesOf rest

/-- All text fragments are free of the placeholder character. -/
def toksClean : List Tok → Bool
  | [] => true
  | .txt s :: rest => countQ s == 0 && toksClean rest
  | .hole _ :: rest => toksClean rest

/-- Split a character list at `?` into the fragments between
placeholders (`n` placeholders yield `n + 1` fragments). -/
def splitQChars : List Char → List (List Char)
  | [] => [[]]
  | c :: t =>
    if c == '?' then [] :: splitQChars t
    else match splitQChars t with
      | p :: ps => (c :: p) :: ps
      | [] => [[c]]

/-- The fragments of a raw SQL string between its placeholders. -/
def splitQParts (s : String) : List String := (splitQChars s.data).map String.mk

/-- Interleave raw-SQL fragments with their bindings:
`p₀ ? p₁ ? … pₙ`. -/
def interleaveToks : List String → List Value → List Tok
  | [], _ => []
  | p :: _, [] => [.txt p]
  | p :: ps, v :: vs => .txt p :: .hole v :: interleaveToks ps vs

/-- Join per-clause token lists with single spaces
(`parts.join(' ')`). -/
def joinToksWithSpace : List (List Tok) → List Tok
  | [] => []
  | [x] => x
  | x :: rest => x ++ [.txt " "] ++ joinToksWithSpace rest

/-- Prefix the leading text token (each clause's connector prefix). -/
def prependToFirst (pre : String) : List Tok → List Tok
  | .txt s :: rest => .txt (pre ++ s) :: rest
  | ts => .txt pre :: ts

/-- Strip the leading `WHERE` of a nested group at the token level. -/
def stripToksWhere : List Tok → List Tok
  | .txt s :: rest => .txt (stripWhereKeyword s) :: rest
  | ts => ts

/-- Intersperse hole tokens with `", "` (the `IN (?, ?, …)` list). -/
def holesCommaSep : List Value → List Tok
  | [] => []
  | [v] => [.hole v]
  | v :: vs => .hole v :: .txt ", " :: holesCommaSep vs

/-- The string starts with a non-whitespace character. -/
def headNonWs (s : String) : Bool :=
  match s.data with
  | [] => false
  | c :: _ => !c.isWhitespace

/-- The string starts with a visible non-placeholder character. -/
def headSolid (s : String) : Bool :=
  match s.data with
  | [] => false
  | c :: _ => !c.isWhitespace && c != '?'

/-- Re-join placeholder-split fragments with `?`. -/
def joinQChars : List (List Char) → List Char
  | [] => []
  | [p] => p
  | p :: ps => p ++ '?' :: joinQChars ps

mutual

/-- Instrumented `_compileSelect`: emits the same text with holes. -/
def compileSelectT : Query → Except String (List Tok)
  | .mk table al sel joins ws groups hs orders lim off fu dist cs us fromRaw => do
    let cteParts : List (List Tok) ←
      if cs.isEmpty then pure []
      else do
        let recPrefix :=
          if cs.any (fun c => match c with | .mk _ r _ => r) then "WITH RECURSIVE "
          else "WITH "
        let frags ← compileCteListT cs
        pure [prependToFirst recPrefix (joinCommaToks frags)]
    let selParts : List (List Tok) :=
      [[.txt "SELECT"]] ++ (if dist then [[.txt "DISTINCT"]] else [])
        ++ [[.txt (if sel.isEmpty then "*" else strJoin ", " sel)]]
    let fromPart : List (List Tok) :=
      match fromRaw with
      | some fr => [[.txt ("FROM " ++ fr)]]
      | none =>
        [[.txt ("FROM " ++ escapeId table
          ++ (match al with | some a => " AS " ++ escapeId a | none => ""))]]
    let joinParts : List (List Tok) := joins.map (fun j =>
      [.txt (if j.type == "CROSS" then "CROSS JOIN " ++ escapeId j.table
        else j.type ++ " JOIN " ++ escapeId j.table ++ " ON "
          ++ escapeId j.first ++ " " ++ j.operator ++ " " ++ escapeId j.second)])
    let whereToks ←
      if ws.isEmpty then pure []
      else do
        let parts ← compileWheresGoT 0 ws
        pure (joinToksWithSpace parts)
    let whereParts : List (List Tok) := if ws.isEmpty then [] else [whereToks]
    let groupParts : List (List Tok) :=
      if groups.isEmpty then []
      else [[.txt ("GROUP BY " ++ strJoin ", " (groups.map escapeId))]]
    let havingParts : List (List Tok) :=
      if hs.isEmpty then []
      else
        [joinToksWithSpace
          ((hs.enum).map (fun p =>
            [.txt ((if p.1 == 0 then "HAVING " else p.2.boolean ++ " ")
              ++ escapeId p.2.column ++ " " ++ p.2.operator ++ " "),
             .hole p.2.value]))]
    let orderParts : List (List Tok) :=
      if orders.isEmpty then []
      else [[.txt ("ORDER BY " ++ strJoin ", "
        (orders.map (fun o => escapeId o.1 ++ " " ++ o.2)))]]
    let limitParts : List (List Tok) :=
      match lim with | some n => [[.txt ("LIMIT " ++ toString n)]] | none => []
    let offsetParts : List (List Tok) :=
      match off with | some n => [[.txt ("OFFSET " ++ toString n)]] | none => []
    let fuParts : List (List Tok) := if fu then [[.txt "FOR UPDATE"]] else []
    let base := joinToksWithSpace
      (cteParts ++ selParts ++ fromPart ++ joinParts ++ whereParts
        ++ groupParts ++ havingParts ++ orderParts ++ limitParts ++ offsetParts ++ fuParts)
    wrapUnionsT base us

def compileCteListT : List Cte → Except String (List (List Tok))
  | [] => pure []
  | .mk name _ sub :: rest => do
    let inner : List Tok ←
      match sub with
      | .qb q => do
          let ts ← compileSelectT q
          pure ([.txt ("(" : String)] ++ ts ++ [.txt ")"])
      | .raw s => pure [.txt ("(" ++ s ++ ")")]
    let tail ← compileCteListT rest
    pure ((prependToFirst (escapeId name ++ " AS ") inner) :: tail)

def wrapUnionsT : List Tok → List UnionItem → Except String (List Tok)
  | ts, [] => pure ts
  | ts, .mk utype sub :: rest => do
    let other : List Tok ←
      match sub with
      | .qb q => compileSelectT q
      | .raw s => pure [.txt s]
    wrapUnionsT ([.txt "("] ++ ts ++ [.txt (") " ++ utype ++ " (")] ++ other ++ [.txt ")"]) rest

def compileWheresGoT (i : Nat) : List WhereNode → Except String (List (List Tok))
  | [] => pure []
  | w :: rest => do
    let pre := if i == 0 then "WHERE " else w.boolOf ++ " "
    let body ← compileWhereBodyT w
    let tail ← compileWheresGoT (i + 1) rest
    pure ((prependToFirst pre body) :: tail)

def compileWhereBodyT : WhereNode → Except String (List Tok)
  | .raw _ r bs => pure (interleaveToks (splitQParts r) bs)
  | .basic _ col op v _ => pure [.txt (escapeId col ++ " " ++ op ++ " "), .hole v]
  | .columns _ first op second =>
      pure [.txt (escapeId first ++ " " ++ op ++ " " ++ escapeId second)]
  | .nested _ (.mk _ _ _ _ ws _ _ _ _ _ _ _ _ _ _) _ => do
      let inner ←
        if ws.isEmpty then pure []
        else do
          let parts ← compileWheresGoT 0 ws
          pure (joinToksWithSpace parts)
      pure ([.txt "("] ++ stripToksWhere inner ++ [.txt ")"])
  | .inW _ col vals _ =>
      pure ([.txt (escapeId col ++ " IN (")] ++ holesCommaSep vals ++ [.txt ")"])
  | .notInW _ col vals _ =>
      pure ([.txt (escapeId col ++ " NOT IN (")] ++ holesCommaSep vals ++ [.txt ")"])
  | .nullW _ col neg =>
      pure [.txt (escapeId col ++ " IS " ++ (if neg then "NOT " else "") ++ "NULL")]
  | .between _ col lo hi neg _ =>
      pure [.txt (escapeId col ++ " " ++ (if neg then "NOT BETWEEN" else "BETWEEN") ++ " "),
            .hole lo, .txt " AND ", .hole hi]
  | .existsW _ q _ => do
      let sub ← compileSelectT q
      pure ([.txt "EXISTS ("] ++ sub ++ [.txt ")"])
  | .notExistsW _ q _ => do
      let sub ← compileSelectT q
      pure ([.txt "NOT EXISTS ("] ++ sub ++ [.txt ")"])
  | .rawExists _ r => pure [.txt ("EXISTS (" ++ r ++ ")")]
  | .rawNotExists _ r => pure [.txt ("NOT EXISTS (" ++ r ++ ")")]
  | .untyped _ => .error "Unknown where type: undefined"

/-- Join CTE fragments with `", "` at the token level. -/
def joinCommaToks : List (List Tok) → List Tok
  | [] => []
  | [x] => x
  | x :: rest => x ++ [.txt ", "] ++ joinCommaToks rest

end

mutual

/-- Well-formedness of a query descriptor for binding-order fidelity:
identifier/operator/connector fields carry no `?`, every stored
`bindings` field agrees with the node's structural literals (as the
builder methods establish), raw fragments carry exactly one `?` per
binding, nested sub-builders contribute bindings only through their
predicate lists, and clause-leading text starts with a visible
character (so the `WHERE`-prefix strip of nested groups stays inside
the first fragment). -/
def wfQuery : Query → Bool
  | .mk table al sel joins ws groups hs orders lim off _ _ cs us fromRaw =>
    countQ table == 0
      && (match al with | some a => countQ a == 0 | none => true)
      && sel.all (fun s => countQ s == 0)
      && joins.all (fun j => countQ j.type == 0 && countQ j.table == 0
          && countQ j.first == 0 && countQ j.operator == 0 && countQ j.second == 0)
      && wfWheres ws
      && groups.all (fun g => countQ g == 0)
      && hs.all (fun h => countQ h.column == 0 && countQ h.operator == 0
          && countQ h.boolean == 0 && h.bindings == [h.value])
      && orders.all (fun o => countQ o.1 == 0 && countQ o.2 == 0)
      && (match lim with | some n => countQ (toString n) == 0 | none => true)
      && (match off with | some n => countQ (toString n) == 0 | none => true)
      && wfCtes cs
      && wfUnions us
      && (match fromRaw with | some s => countQ s == 0 | none => true)

def wfWheres : List WhereNode → Bool
  | [] => true
  | w :: rest => wfWhere w && wfWheres rest

def wfWhere : WhereNode → Bool
  | .basic b col op v bs =>
      countQ b == 0 && countQ col == 0 && countQ op == 0
        && bs == [v] && headNonWs (escapeId col)
  | .raw b r bs =>
      countQ b == 0 && (splitQParts r).length == bs.length + 1 && headSolid r
  | .columns b f op sec =>
      countQ b == 0 && countQ f == 0 && countQ op == 0 && countQ sec == 0
        && headNonWs (escapeId f)
  | .nested b sub bs =>
      countQ b == 0 && wfQuery sub && sub.havings.isEmpty && sub.ctes.isEmpty
        && sub.unions.isEmpty && bs == gatherBindings sub
  | .inW b col vals bs =>
      countQ b == 0 && countQ col == 0 && bs == vals && headNonWs (escapeId col)
  | .notInW b col vals bs =>
      countQ b == 0 && countQ col == 0 && bs == vals && headNonWs (escapeId col)
  | .nullW b col _ =>
      countQ b == 0 && countQ col == 0 && headNonWs (escapeId col)
  | .between b col lo hi _ bs =>
      countQ b == 0 && countQ col == 0 && bs == [lo, hi] && headNonWs (escapeId col)
  | .existsW b sub bs => countQ b == 0 && wfQuery sub && bs == gatherBindings sub
  | .notExistsW b sub bs => countQ b == 0 && wfQuery sub && bs == gatherBindings sub
  | .rawExists b r => countQ b == 0 && countQ r == 0
  | .rawNotExists b r => countQ b == 0 && countQ r == 0
  | .untyped _ => false

def wfCtes : List Cte → Bool
  | [] => true
  | .mk name _ (.qb q) :: rest => countQ name == 0 && wfQuery q && wfCtes rest
  | .mk name _ (.raw s) :: rest => countQ name == 0 && countQ s == 0 && wfCtes rest

def wfUnions : List UnionItem → Bool
  | [] => true
  | .mk ty (.qb q) :: rest => countQ ty == 0 && wfQuery q && wfUnions rest
  | .mk ty (.raw s) :: rest => countQ ty == 0 && countQ s == 0 && wfUnions rest

end

end Nexium

namespace Nexium

/-! # Claim theorems -/

/-- **C9** — for every column (and table), `whereIn(col, [])` appends the
raw always-false predicate `0 = 1` and `whereNotIn(col, [])` the raw
always-true predicate `1 = 1`, both without bindings; on a fresh builder
they compile without error to `… WHERE 0 = 1` / `… WHERE 1 = 1` and
contribute no bindings. -/
theorem whereIn_empty_degenerates (q : Query) (col : String) :
    ((q.whereIn col []).wheres = q.wheres ++ [.raw "AND" "0 = 1" []]
      ∧ (q.whereNotIn col []).wheres = q.wheres ++ [.raw "AND" "1 = 1" []])
    ∧ (compileSelect ((mkQuery "users").whereIn col [])
        = .ok "SELECT * FROM `users` WHERE 0 = 1"
      ∧ gatherBindings ((mkQuery "users").whereIn col []) = [])
    ∧ (compileSelect ((mkQuery "users").whereNotIn col [])
        = .ok "SELECT * FROM `users` WHERE 1 = 1"
      ∧ gatherBindings ((mkQuery "users").whereNotIn col []) = []) := by
  refine ⟨⟨?_, ?_⟩, ⟨rfl, rfl⟩, ⟨rfl, rfl⟩⟩ <;> cases q <;> rfl

/-- **C10** — `orderBy` stores (and the compiler renders) direction
`'DESC'` exactly when the caller's direction upper-cases to `'DESC'` and
`'ASC'` in every other case, so the stored direction is always one of the
two tokens and a caller-supplied string never reaches the `ORDER BY`
clause verbatim. -/
theorem orderBy_direction_clamped (q : Query) (col dir : String) :
    (q.orderBy col dir).orders
      = q.orders ++ [(col, if strToUpper dir == "DESC" then "DESC" else "ASC")]
    ∧ ((if strToUpper dir == "DESC" then "DESC" else "ASC") = "DESC"
        ↔ strToUpper dir = "DESC")
    ∧ ((if strToUpper dir == "DESC" then "DESC" else "ASC") = "DESC"
        ∨ (if strToUpper dir == "DESC" then "DESC" else "ASC") = "ASC")
    ∧ compileSelect ((mkQuery "users").orderBy "name" dir)
        = .ok ("SELECT * FROM `users` ORDER BY `name` "
            ++ (if strToUpper dir == "DESC" then "DESC" else "ASC")) := by
  have e : (mkQuery "users").orderBy "name" dir
      = .mk "users" none ["*"] [] [] [] []
          [("name", if strToUpper dir == "DESC" then "DESC" else "ASC")]
          none none false false [] [] none := rfl
  have hq : (q.orderBy col dir).orders
      = q.orders ++ [(col, if strToUpper dir == "DESC" then "DESC" else "ASC")] := by
    cases q
    rfl
  rcases Bool.eq_false_or_eq_true (strToUpper dir == "DESC") with h | h
  · have heq : strToUpper dir = "DESC" := by simpa using h
    refine ⟨hq, ?_, ?_, ?_⟩
    · rw [h]; simp [heq]
    · rw [h]; simp
    · rw [e, h]; rfl
  · have hne : strToUpper dir ≠ "DESC" := by simpa using h
    refine ⟨hq, ?_, ?_, ?_⟩
    · rw [h]; simp [hne]
    · rw [h]; simp
    · rw [e, h]; rfl

end Nexium

namespace Nexium

/-- **C2 (counterexample)** — the builder accepts the unrecognized
operator `'FOO'` without any error and interpolates it verbatim into the
compiled SQL text: no allow-list validation happens in `where`. -/
theorem where_unknown_operator_passes_through :
    compileSelect ((mkQuery "users").where3 "name" "FOO" (.vstr "x"))
      = .ok "SELECT * FROM `users` WHERE `name` FOO ?"
    ∧ gatherBindings ((mkQuery "users").where3 "name" "FOO" (.vstr "x"))
      = [.vstr "x"] := ⟨rfl, rfl⟩

/-- **C2 (amended)** — operator handling as the code implements it: the
bundled-module builder stores and compiles any caller-supplied operator
verbatim (`where`/`orWhere` perform no validation), while the `index.js`
builder's `_normalizeOperator` rejects every *truthy* operator outside
`VALID_OPERATORS` with an `Invalid SQL operator` error — a falsy operator
(missing, or the empty string) bypasses the allow-list and silently
defaults to `'='`. -/
theorem operator_allowlist_only_in_indexjs (op : String)
    (hne : op ≠ "")
    (h : VALID_OPERATORS.contains (strToUpper op) = false) :
    normalizeOperator "mysql" (some op) = .error ("Invalid SQL operator: " ++ op)
    ∧ normalizeOperator "mysql" (some "") = .ok "="
    ∧ normalizeOperator "mysql" none = .ok "="
    ∧ ∀ (col : String) (v : Value),
        ((mkQuery "users").where3 col op v).wheres = [.basic "AND" col op v [v]]
        ∧ ((mkQuery "users").orWhere3 col op v).wheres = [.basic "OR" col op v [v]] := by
  refine ⟨?_, rfl, rfl, fun col v => ⟨rfl, rfl⟩⟩
  have hb : (op == "") = false := by simpa using hne
  unfold normalizeOperator
  simp only [hb, Bool.false_eq_true, if_false, h]
  rfl

/-- Witness for `operator_allowlist_only_in_indexjs` at `op = "FOO"`. -/
theorem operator_allowlist_only_in_indexjs_witness :
    ("FOO" ≠ "" ∧ VALID_OPERATORS.contains (strToUpper "FOO") = false)
    ∧ normalizeOperator "mysql" (some "FOO") = .error ("Invalid SQL operator: " ++ "FOO") :=
  ⟨⟨by decide, rfl⟩,
    (operator_allowlist_only_in_indexjs "FOO" (by decide) rfl).1⟩

/-- **C1** — soft delete does not behave as specified.  On a
soft-deleting class: (1) `delete()` sets the deletion-timestamp
attribute in memory and routes through `save()`, but the dirty diff
inside `save()` skips the deletion-timestamp column, so the save is a
no-op and *zero* statements are issued — the "deletion" is never
persisted; (2) a default-scope query does not compile to a query
excluding trashed rows — compilation *throws* `Unknown where type:
undefined`, because the scope pushes a where object without a `type`
tag; (3) only the `withTrashed` query compiles (to an unscoped
`SELECT`). -/
theorem softDelete_broken :
    deleteM postCls okValidator 1000 postSt
      = .ok ({ attrs := [("id", .vnum 1), ("title", .vstr "t"), ("deleted_at", .vdate 1000)],
               original := [("id", .vnum 1), ("title", .vstr "t")],
               existsFlag := true }, [])
    ∧ compileSelect (modelQuery postCls false) = .error "Unknown where type: undefined"
    ∧ compileSelect (modelQuery postCls true) = .ok "SELECT * FROM `posts`" :=
  ⟨rfl, rfl, rfl⟩

/-- **C6 (counterexample)** — an entity whose only difference from its
snapshot is the `email` attribute (current value `''`, snapshot
`'a@b.c'`) saves with *zero* `UPDATE` statements: the dirty scan drops
"bad" (empty-like) values, so the claim's "only email differs ⟹ UPDATE
naming email" fails. -/
theorem save_blank_email_issues_no_update :
    saveExisting userCls okValidator 5 userBlankEmail = .ok (userBlankEmail, [])
    ∧ attrGet userBlankEmail.attrs "email" = .vstr ""
    ∧ attrGet userBlankEmail.original "email" = .vstr "a@b.c" :=
  ⟨rfl, rfl, rfl⟩

/-- **C7** — hard-deleting a `User` whose `posts` relation is configured
with on-delete `cascade` issues *only* the parent's physical `DELETE`:
the cascade branch never loads or deletes related entities, because
`await this[relName]()` evaluates to the relation descriptor object
(which has no `delete` method and is not an array), so both guards of
the cascade branch fail.  No `SELECT` against `posts` and no child
`DELETE` appears in the effect list. -/
theorem cascade_delete_deletes_no_children :
    deleteM userClsCascade okValidator 0 (mkModel [("id", .vnum 1)] true [])
      = .ok ({ attrs := [("id", .vnum 1)], original := [("id", .vnum 1)],
               existsFlag := false },
             [{ sql := "DELETE FROM `users` WHERE `id` = ?", bindings := [.vnum 1] }])
    ∧ jsHasDeleteMethod (.relationInstance .hasMany) = false
    ∧ jsIsArray (.relationInstance .hasMany) = false :=
  ⟨rfl, rfl, rfl⟩

/-- **C8** — `attach([5])` on the `roles` relation of user 1 hands the
*array* of row objects to `QueryBuilder.insert`, whose `Object.keys`
then yields the array indices: the issued statement is
`INSERT INTO ``role_user`` (``0``) VALUES (?)` with the whole row object
as the single binding — not one pivot row per id with the foreign-key /
related-key columns the claim (and spec) describe.  With two ids the
columns are the indices `0`, `1`. -/
theorem attach_inserts_array_indices_not_pivot_columns :
    attachStmt rolesRel [("id", .vnum 1)] [.vnum 5] [] 0
      = { sql := "INSERT INTO `role_user` (`0`) VALUES (?)",
          bindings := [.vobj [("user_id", .vnum 1), ("role_id", .vnum 5)]] }
    ∧ attachStmt rolesRel [("id", .vnum 1)] [.vnum 5, .vnum 7] [] 0
      = { sql := "INSERT INTO `role_user` (`0`, `1`) VALUES (?, ?)",
          bindings := [.vobj [("user_id", .vnum 1), ("role_id", .vnum 5)],
                       .vobj [("user_id", .vnum 1), ("role_id", .vnum 7)]] } :=
  ⟨rfl, rfl⟩

/-- **C4 (counterexample)** — eager-loading over an empty batch
(`N = 0`) issues *zero* additional queries, not "exactly 1" as claimed:
`_eagerLoad` returns before invoking the relation's `eagerLoad` when
there is no first model. -/
theorem eagerLoad_empty_batch_issues_zero_queries :
    eagerLoadBatchHasMany "user_id" "id" (fun _ => []) [] = .ok (0, [])
    ∧ eagerLoadBatchBelongsTo "user_id" "id" (fun _ => []) [] = (0, [])
    ∧ (0 : Nat) ≠ 1 :=
  ⟨rfl, rfl, by decide⟩

end Nexium

namespace Nexium

/-- Attributes that all match their snapshot (or are empty-like)
produce an empty dirty set. -/
theorem dirtyOf_nil_of_clean (cls : MClass) (orig l : AttrMap)
    (h : ∀ kv ∈ l, (Value.beq kv.2 (attrGet orig kv.1) || isBadValue kv.2) = true) :
    dirtyOf cls l orig = [] := by
  unfold dirtyOf
  rw [List.filter_eq_nil_iff]
  intro kv hkv
  rcases Bool.or_eq_true_iff.1 (h kv hkv) with hb | hb <;> simp [hb]

/-- The dirty scan distributes over attribute-list concatenation. -/
theorem dirtyOf_append (cls : MClass) (orig l1 l2 : AttrMap) :
    dirtyOf cls (l1 ++ l2) orig = dirtyOf cls l1 orig ++ dirtyOf cls l2 orig := by
  unfold dirtyOf
  exact List.filter_append _ _

/-- **C6 (amended)** — `save()` and dirty tracking as implemented:
(1) when every current attribute equals its snapshot value (or is an
empty-like value), `save()` issues zero `UPDATE` statements;
(2) when only `email` differs and its new value is not empty-like, the
issued `UPDATE`'s SET clause names only `email` (plus `updated_at` when
timestamps are enabled); an `email` change *to* an empty-like value is
dropped from the dirty set and issues zero statements (see the
counterexample theorem). -/
theorem save_updates_only_dirty_columns
    (tsFlag : Bool) (validate : ValidatorFn) (insertId : Value) (now : Nat)
    (hval : ∀ m i, validate m i = true) :
    (∀ (cls : MClass) (st : MState),
        st.existsFlag = true →
        (∀ kv ∈ st.attrs,
          (Value.beq kv.2 (attrGet st.original kv.1) || isBadValue kv.2) = true) →
        save cls validate now insertId st = .ok (st, []))
    ∧ (∀ (orig pre post : AttrMap) (v : Value),
        (∀ kv ∈ pre ++ post,
            kv.1 ≠ "email"
              ∧ (Value.beq kv.2 (attrGet orig kv.1) || isBadValue kv.2) = true) →
        isBadValue v = false →
        Value.beq v (attrGet orig "email") = false →
        ∃ st' stmt,
          save { name := "User", table := "users", timestamps := tsFlag } validate now insertId
              { attrs := pre ++ [("email", v)] ++ post, original := orig, existsFlag := true }
            = .ok (st', [stmt])
          ∧ stmt.sql = (if tsFlag
              then "UPDATE `users` SET `email` = ?, `updated_at` = ? WHERE `id` = ?"
              else "UPDATE `users` SET `email` = ? WHERE `id` = ?")) := by
  constructor
  · intro cls st hex hall
    have hdirty : dirtyOf cls st.attrs st.original = [] := by
      unfold dirtyOf
      rw [List.filter_eq_nil_iff]
      intro kv hkv
      have h := hall kv hkv
      rcases Bool.or_eq_true_iff.1 h with hb | hb <;> simp [hb]
    unfold save
    rw [hex]
    unfold saveExisting
    rw [hdirty]
    rfl
  · intro orig pre post v hside hv hdiff
    have hdirty : dirtyOf { name := "User", table := "users", timestamps := tsFlag }
        (pre ++ [("email", v)] ++ post) orig = [("email", v)] := by
      rw [dirtyOf_append, dirtyOf_append,
        dirtyOf_nil_of_clean _ _ _ (fun kv hkv => (hside kv (List.mem_append.2 (Or.inl hkv))).2),
        dirtyOf_nil_of_clean _ _ _ (fun kv hkv => (hside kv (List.mem_append.2 (Or.inr hkv))).2)]
      simp [dirtyOf, hdiff, hv]
    unfold save saveExisting
    simp only [Bool.not_true, if_neg]
    rw [hdirty]
    have hsan : sanitizeM { name := "User", table := "users", timestamps := tsFlag }
        [("email", v)] = [("email", v)] := by
      unfold sanitizeM
      simp [hv]
    rw [hsan]
    cases tsFlag <;>
      simp only [Bool.false_eq_true, if_false, if_true, hval] <;>
      exact ⟨_, _, rfl, rfl⟩

/-- Witness for `save_updates_only_dirty_columns`: a concrete timestamped
save where only `email` changed. -/
theorem save_updates_only_dirty_columns_witness :
    ∃ st' stmt,
      save { name := "User", table := "users", timestamps := true } okValidator 9 .vundef
          { attrs := [("id", .vnum 1), ("email", .vstr "new@b.c")],
            original := [("id", .vnum 1), ("email", .vstr "a@b.c")], existsFlag := true }
        = .ok (st', [stmt])
      ∧ stmt.sql = "UPDATE `users` SET `email` = ?, `updated_at` = ? WHERE `id` = ?" := by
  have h := (save_updates_only_dirty_columns true okValidator .vundef 9
      (fun _ _ => rfl)).2 [("id", .vnum 1), ("email", .vstr "a@b.c")]
      [("id", .vnum 1)] [] (.vstr "new@b.c")
      (by intro kv hkv; simp at hkv; subst hkv; exact ⟨by decide, by decide⟩)
      (by decide) (by decide)
  simpa using h

end Nexium

namespace Nexium

/-- `Value.beq` computes the decidable equality test. -/
theorem Value.beq_eq_decide (a b : Value) : Value.beq a b = decide (a = b) := by
  by_cases h : a = b
  · simp [h, Value.beq_refl]
  · cases hb : Value.beq a b
    · simp [h]
    · exact absurd (Value.eq_of_beq a b hb) h

instance : LawfulBEq Value where
  eq_of_beq := Value.eq_of_beq _ _
  rfl := Value.beq_refl _

/-- `Value.beq` is the `==` of the `BEq Value` instance. -/
theorem Value.beq_eq_beqOp (a b : Value) : Value.beq a b = (a == b) := rfl

/-- Lookup distributes over map concatenation. -/
theorem vmapGet_append {α : Type} (l1 l2 : VMap α) (k : Value) :
    vmapGet (l1 ++ l2) k
      = match vmapGet l1 k with
        | some v => some v
        | none => vmapGet l2 k := by
  induction l1 with
  | nil => simp [vmapGet]
  | cons hd tl ih =>
    by_cases h : Value.beq hd.1 k = true
    · simp [vmapGet, List.find?, h]
    · simp only [List.cons_append]
      simp [vmapGet, List.find?, h] at ih ⊢
      exact ih

/-- A key nothing matches looks up to `none`. -/
theorem vmapGet_none_of_not_any {α : Type} (l : VMap α) (k : Value) :
    l.any (fun p => Value.beq p.1 k) = false → vmapGet l k = none := by
  induction l with
  | nil => intro _; rfl
  | cons hd tl ih =>
    intro h
    simp only [List.any_cons, Bool.or_eq_false_iff] at h
    have htl := ih h.2
    simp [vmapGet, List.find?, h.1] at htl ⊢
    exact htl

/-- The in-place-replacement pass of `vmapSet` leaves other keys alone. -/
theorem vmapGet_replace_ne {α : Type} (l : VMap α) (k k' : Value) (x : α)
    (hk : k ≠ k') :
    vmapGet (l.map (fun kv => if Value.beq kv.1 k then (k, x) else kv)) k'
      = vmapGet l k' := by
  induction l with
  | nil => rfl
  | cons hd tl ih =>
    by_cases h : Value.beq hd.1 k = true
    · have h1 : hd.1 = k := Value.eq_of_beq _ _ h
      have h2 : Value.beq k k' = false := by
        rw [Value.beq_eq_decide]; simp [hk]
      have h3 : Value.beq hd.1 k' = false := by rw [h1]; exact h2
      simp [vmapGet, List.find?, h, h2, h3] at ih ⊢
      exact ih
    · simp only [List.map_cons, if_neg h]
      by_cases h' : Value.beq hd.1 k' = true
      · simp [vmapGet, List.find?, h']
      · simp [vmapGet, List.find?, h'] at ih ⊢
        exact ih

/-- The in-place-replacement pass of `vmapSet` installs the new value at
the matched key. -/
theorem vmapGet_replace_eq {α : Type} (l : VMap α) (k : Value) (x : α) :
    l.any (fun p => Value.beq p.1 k) = true →
    vmapGet (l.map (fun kv => if Value.beq kv.1 k then (k, x) else kv)) k
      = some x := by
  induction l with
  | nil => intro h; simp at h
  | cons hd tl ih =>
    intro h
    by_cases hhd : Value.beq hd.1 k = true
    · simp [vmapGet, List.find?, hhd, Value.beq_refl]
    · simp only [List.any_cons, hhd, Bool.false_or] at h
      have htl := ih h
      simp only [List.map_cons, if_neg hhd]
      simp [vmapGet, List.find?, hhd] at htl ⊢
      exact htl

/-- Looking up after a `Map.set`: the set key reads back the new value,
other keys are untouched. -/
theorem vmapGet_set {α : Type} (m : VMap α) (k k' : Value) (x : α) :
    vmapGet (vmapSet m k x) k' = if k = k' then some x else vmapGet m k' := by
  unfold vmapSet
  by_cases hany : m.any (fun p => Value.beq p.1 k) = true
  · rw [if_pos hany]
    by_cases hk : k = k'
    · subst hk
      rw [if_pos rfl]
      exact vmapGet_replace_eq m k x hany
    · rw [if_neg hk]
      exact vmapGet_replace_ne m k k' x hk
  · rw [if_neg (by simpa using hany)]
    rw [vmapGet_append]
    by_cases hk : k = k'
    · subst hk
      rw [if_pos rfl, vmapGet_none_of_not_any m k (by simpa using hany)]
      simp [vmapGet, List.find?, Value.beq_refl]
    · rw [if_neg hk]
      cases hm : vmapGet m k' with
      | some v => simp
      | none =>
        have : Value.beq k k' = false := by rw [Value.beq_eq_decide]; simp [hk]
        simp [vmapGet, List.find?, this]

end Nexium


namespace Nexium

/-- Priming the grouping map: after `parents.forEach(p => grouped.set(p[lk], []))`
every parent key maps to `[]` and other keys are untouched. -/
theorem vmapGet_prime (lk : String) (parents : List Row) (m : VMap (List Row)) (k : Value) :
    vmapGet (parents.foldl (fun m p => vmapSet m (attrGet p lk) []) m) k
      = if parents.any (fun p => attrGet p lk == k) then some [] else vmapGet m k := by
  induction parents generalizing m with
  | nil => simp
  | cons p rest ih =>
    simp only [List.foldl_cons, List.any_cons]
    rw [ih]
    by_cases hpk : attrGet p lk = k
    · by_cases hr : rest.any (fun p => attrGet p lk == k) = true
      · simp [hr, hpk]
      · simp only [Bool.not_eq_true] at hr
        simp [hr, hpk, vmapGet_set]
    · by_cases hr : rest.any (fun p => attrGet p lk == k) = true
      · simp [hr, hpk]
      · simp only [Bool.not_eq_true] at hr
        simp [hr, hpk, vmapGet_set]

/-- Pushing fetched rows into the primed grouping map never fails when
every row key is present, and each key accumulates exactly its rows in
order. -/
theorem groupPush_spec (fk : String) (rows : List Row) :
    ∀ (m : VMap (List Row)),
      (∀ r ∈ rows, (vmapGet m (attrGet r fk)).isSome = true) →
      ∃ m', rows.foldlM (groupPushStep fk) m = .ok m'
        ∧ ∀ k, vmapGet m' k
            = (vmapGet m k).map (fun l => l ++ rows.filter (fun r => attrGet r fk == k)) := by
  induction rows with
  | nil =>
    intro m _
    refine ⟨m, rfl, fun k => ?_⟩
    cases vmapGet m k <;> simp
  | cons r rest ih =>
    intro m hm
    obtain ⟨l, hl⟩ := Option.isSome_iff_exists.1 (hm r (List.mem_cons_self r rest))
    have step : ∀ r' ∈ rest,
        (vmapGet (vmapSet m (attrGet r fk) (l ++ [r])) (attrGet r' fk)).isSome = true := by
      intro r' hr'
      rw [vmapGet_set]
      by_cases he : attrGet r fk = attrGet r' fk
      · simp [he]
      · simp only [if_neg he]
        exact hm r' (List.mem_cons_of_mem r hr')
    obtain ⟨m', hok, hchar⟩ := ih (vmapSet m (attrGet r fk) (l ++ [r])) step
    refine ⟨m', ?_, ?_⟩
    · simp only [List.foldlM_cons, groupPushStep, hl]
      exact hok
    · intro k
      rw [hchar k, vmapGet_set]
      by_cases he : attrGet r fk = k
      · have hbeq : (attrGet r fk == k) = true := by simp [he]
        rw [if_pos he, List.filter_cons, hbeq]
        rw [he] at hl
        simp [hl, List.append_assoc]
      · have hbeq : (attrGet r fk == k) = false := by simp [he]
        rw [if_neg he, List.filter_cons, hbeq]
        simp

/-- Building the `BelongsTo` row map: the last row with a given owner-key
value wins; keys with no row fall through. -/
theorem rowMap_last_wins (ok : String) (rows : List Row) :
    ∀ (m : VMap Row) (k : Value),
      vmapGet (rows.foldl (fun m r => vmapSet m (attrGet r ok) r) m) k
        = match (rows.filter (fun r => attrGet r ok == k)).getLast? with
          | some r => some r
          | none => vmapGet m k := by
  induction rows with
  | nil => intro m k; simp
  | cons r rest ih =>
    intro m k
    simp only [List.foldl_cons]
    rw [ih]
    by_cases he : attrGet r ok = k
    · have hbeq : (attrGet r ok == k) = true := by simp [he]
      rw [List.filter_cons, hbeq]
      cases hfl : (rest.filter (fun r => attrGet r ok == k)).getLast? with
      | some r' =>
        have : ((r :: rest.filter (fun r => attrGet r ok == k)).getLast?) = some r' := by
          cases hfilter : rest.filter (fun r => attrGet r ok == k) with
          | nil => rw [hfilter] at hfl; simp at hfl
          | cons a t =>
            rw [hfilter] at hfl
            rw [List.getLast?_cons_cons, hfl]
        simp only [hfl, if_true, this]
      | none =>
        have hnil : rest.filter (fun r => attrGet r ok == k) = [] := by
          cases hfilter : rest.filter (fun r => attrGet r ok == k) with
          | nil => rfl
          | cons a t => rw [hfilter] at hfl; simp [List.getLast?_cons] at hfl
        simp only [hfl, hnil, if_true, List.getLast?_singleton, vmapGet_set, if_pos he]
    · have hbeq : (attrGet r ok == k) = false := by simp [he]
      rw [List.filter_cons, hbeq]
      simp only [Bool.false_eq_true, if_false, vmapGet_set, if_neg he]

end Nexium

namespace Nexium

/-- **C4 (amended)** — for a batch of `N ≥ 1` parents, eager loading one
relation issues exactly 1 additional query (the count in the result
pair), and every parent is assigned: for the to-many relation each
parent gets `some` of exactly its matching rows (so `[]` when none
match, never `undefined`); for the to-one relation each parent gets the
last fetched row matching its foreign key, or null (`none`, assigned by
`|| null`) when none matches — never a missing key.  (For `N = 0` the
batch loader issues zero queries; see the counterexample theorem.) -/
theorem eagerLoad_single_query_and_defaults
    (fk lk fkName ownerKey : String) (fetch fetchB : List Value → List Row)
    (parents parentsB : List Row)
    (hne : parents ≠ []) (hneB : parentsB ≠ [])
    (hfetch : ∀ r ∈ fetch (parents.map (fun p => attrGet p lk)),
        ∃ p ∈ parents, attrGet r fk = attrGet p lk) :
    (eagerLoadBatchHasMany fk lk fetch parents
        = .ok (1, parents.map (fun p =>
            (p, some ((fetch (parents.map (fun p => attrGet p lk))).filter
                (fun r => attrGet r fk == attrGet p lk))))))
    ∧ (eagerLoadBatchBelongsTo fkName ownerKey fetchB parentsB
        = (1, parentsB.map (fun p =>
            (p, ((fetchB ((parentsB.map (fun p => attrGet p fkName)).filter valueTruthy)).filter
                (fun r => attrGet r ownerKey == attrGet p fkName)).getLast?)))) := by
  constructor
  · have hie : parents.isEmpty = false := by
      cases parents with
      | nil => exact absurd rfl hne
      | cons a l => rfl
    unfold eagerLoadBatchHasMany
    rw [hie]
    simp only [Bool.false_eq_true, if_false]
    unfold hasManyEagerLoad
    dsimp only
    have hpre : ∀ r ∈ fetch (parents.map (fun p => attrGet p lk)),
        (vmapGet (parents.foldl (fun m p => vmapSet m (attrGet p lk) [])
          ([] : VMap (List Row))) (attrGet r fk)).isSome = true := by
      intro r hr
      obtain ⟨p, hp, he⟩ := hfetch r hr
      rw [vmapGet_prime]
      have hany : parents.any (fun p' => attrGet p' lk == attrGet r fk) = true :=
        List.any_eq_true.2 ⟨p, hp, by simp [he]⟩
      simp [hany]
    obtain ⟨m', hok, hchar⟩ :=
      groupPush_spec fk (fetch (parents.map (fun p => attrGet p lk)))
        (parents.foldl (fun m p => vmapSet m (attrGet p lk) []) []) hpre
    simp only [hok]
    refine congrArg Except.ok (congrArg (Prod.mk 1) (List.map_congr_left fun p hp => ?_))
    refine congrArg (Prod.mk p) ?_
    rw [hchar, vmapGet_prime]
    have hany : parents.any (fun p' => attrGet p' lk == attrGet p lk) = true :=
      List.any_eq_true.2 ⟨p, hp, by simp⟩
    simp [hany]
  · have hie : parentsB.isEmpty = false := by
      cases parentsB with
      | nil => exact absurd rfl hneB
      | cons a l => rfl
    unfold eagerLoadBatchBelongsTo
    rw [hie]
    simp only [Bool.false_eq_true, if_false]
    unfold belongsToEagerLoad
    dsimp only
    refine congrArg (Prod.mk 1) (List.map_congr_left fun p _ => ?_)
    refine congrArg (Prod.mk p) ?_
    rw [rowMap_last_wins]
    cases ((fetchB ((parentsB.map (fun p => attrGet p fkName)).filter valueTruthy)).filter
        (fun r => attrGet r ownerKey == attrGet p fkName)).getLast? <;> rfl

/-- Witness for `eagerLoad_single_query_and_defaults`: two parents, one
matching row — one query, parent 1 gets its row, parent 2 gets `[]`; the
to-one side with no rows assigns null to its parent. -/
theorem eagerLoad_single_query_and_defaults_witness :
    eagerLoadBatchHasMany "user_id" "id" (fun _ => [[("user_id", .vnum 1)]])
        [[("id", .vnum 1)], [("id", .vnum 2)]]
      = .ok (1, [([("id", .vnum 1)], some [[("user_id", .vnum 1)]]),
                 ([("id", .vnum 2)], some [])])
    ∧ eagerLoadBatchBelongsTo "user_id" "id" (fun _ => []) [[("user_id", .vnum 7)]]
      = (1, [([("user_id", .vnum 7)], none)]) := by
  have h := eagerLoad_single_query_and_defaults "user_id" "id" "user_id" "id"
    (fun _ => [[("user_id", .vnum 1)]]) (fun _ => [])
    [[("id", .vnum 1)], [("id", .vnum 2)]] [[("user_id", .vnum 7)]]
    (by decide) (by decide) (by decide)
  exact ⟨h.1.trans (by rfl), h.2.trans (by rfl)⟩

end Nexium

namespace Nexium

/-! ### Token-stream utility lemmas -/

theorem String.data_append' (a b : String) : (a ++ b).data = a.data ++ b.data := rfl

theorem countQ_append (a b : String) : countQ (a ++ b) = countQ a + countQ b := by
  unfold countQ
  rw [String.data_append', List.count_append]

theorem renderToks_append (a b : List Tok) :
    renderToks (a ++ b) = renderToks a ++ renderToks b := by
  induction a with
  | nil => simp [renderToks]
  | cons t rest ih =>
    cases t <;> simp [renderToks, ih, String.append_assoc]

theorem holesOf_append (a b : List Tok) :
    holesOf (a ++ b) = holesOf a ++ holesOf b := by
  induction a with
  | nil => simp [holesOf]
  | cons t rest ih => cases t <;> simp [holesOf, ih]

theorem toksClean_append (a b : List Tok) :
    toksClean (a ++ b) = (toksClean a && toksClean b) := by
  induction a with
  | nil => simp [toksClean]
  | cons t rest ih => cases t <;> simp [toksClean, ih, Bool.and_assoc]

theorem renderToks_join (parts : List (List Tok)) :
    renderToks (joinToksWithSpace parts)
      = strJoin " " (parts.map renderToks) := by
  induction parts with
  | nil => rfl
  | cons x rest ih =>
    cases rest with
    | nil => rfl
    | cons y t =>
      show renderToks (x ++ [.txt " "] ++ joinToksWithSpace (y :: t)) = _
      rw [renderToks_append, renderToks_append, ih]
      show _ = renderToks x ++ " " ++ strJoin " " (renderToks y :: List.map renderToks t)
      simp [renderToks, String.append_assoc]

theorem holesOf_join (parts : List (List Tok)) :
    holesOf (joinToksWithSpace parts) = (parts.map holesOf).flatten := by
  induction parts with
  | nil => rfl
  | cons x rest ih =>
    cases rest with
    | nil => simp [joinToksWithSpace]
    | cons y t =>
      show holesOf (x ++ [.txt " "] ++ joinToksWithSpace (y :: t)) = _
      rw [holesOf_append, holesOf_append, ih]
      simp [holesOf]

theorem toksClean_join (parts : List (List Tok)) :
    toksClean (joinToksWithSpace parts) = parts.all toksClean := by
  induction parts with
  | nil => rfl
  | cons x rest ih =>
    cases rest with
    | nil => simp [joinToksWithSpace, List.all_cons]
    | cons y t =>
      show toksClean (x ++ [.txt " "] ++ joinToksWithSpace (y :: t)) = _
      rw [toksClean_append, toksClean_append, ih]
      simp [toksClean, countQ, Bool.and_assoc]

theorem renderToks_joinComma (parts : List (List Tok)) :
    renderToks (joinCommaToks parts)
      = strJoin ", " (parts.map renderToks) := by
  induction parts with
  | nil => rfl
  | cons x rest ih =>
    cases rest with
    | nil => rfl
    | cons y t =>
      show renderToks (x ++ [.txt ", "] ++ joinCommaToks (y :: t)) = _
      rw [renderToks_append, renderToks_append, ih]
      show _ = renderToks x ++ ", " ++ strJoin ", " (renderToks y :: List.map renderToks t)
      simp [renderToks, String.append_assoc]

theorem holesOf_joinComma (parts : List (List Tok)) :
    holesOf (joinCommaToks parts) = (parts.map holesOf).flatten := by
  induction parts with
  | nil => rfl
  | cons x rest ih =>
    cases rest with
    | nil => simp [joinCommaToks]
    | cons y t =>
      show holesOf (x ++ [.txt ", "] ++ joinCommaToks (y :: t)) = _
      rw [holesOf_append, holesOf_append, ih]
      simp [holesOf]

theorem toksClean_joinComma (parts : List (List Tok)) :
    toksClean (joinCommaToks parts) = parts.all toksClean := by
  induction parts with
  | nil => rfl
  | cons x rest ih =>
    cases rest with
    | nil => simp [joinCommaToks, List.all_cons]
    | cons y t =>
      show toksClean (x ++ [.txt ", "] ++ joinCommaToks (y :: t)) = _
      rw [toksClean_append, toksClean_append, ih]
      simp [toksClean, countQ, Bool.and_assoc]

theorem renderToks_prepend (pre : String) (ts : List Tok) :
    renderToks (prependToFirst pre ts) = pre ++ renderToks ts := by
  cases ts with
  | nil => simp [prependToFirst, renderToks]
  | cons t rest =>
    cases t <;> simp [prependToFirst, renderToks, String.append_assoc]

theorem holesOf_prepend (pre : String) (ts : List Tok) :
    holesOf (prependToFirst pre ts) = holesOf ts := by
  cases ts with
  | nil => simp [prependToFirst, holesOf]
  | cons t rest => cases t <;> simp [prependToFirst, holesOf]

theorem toksClean_prepend (pre : String) (ts : List Tok)
    (hp : countQ pre = 0) :
    toksClean (prependToFirst pre ts) = toksClean ts := by
  cases ts with
  | nil => simp [prependToFirst, toksClean, hp]
  | cons t rest =>
    cases t <;> simp [prependToFirst, toksClean, countQ_append, hp]

end Nexium

namespace Nexium

/-! ### Raw-fragment and strip lemmas -/

theorem splitQChars_ne_nil (l : List Char) : splitQChars l ≠ [] := by
  induction l with
  | nil => simp [splitQChars]
  | cons c t ih =>
    by_cases h : c == '?'
    · simp [splitQChars, h]
    · simp only [splitQChars, h, Bool.false_eq_true, if_false]
      cases hs : splitQChars t with
      | nil => simp
      | cons p ps => simp

theorem joinQChars_splitQChars (l : List Char) :
    joinQChars (splitQChars l) = l := by
  induction l with
  | nil => rfl
  | cons c t ih =>
    by_cases h : c == '?'
    · have hc : c = '?' := by simpa using h
      subst hc
      simp only [splitQChars, beq_self_eq_true, if_true]
      cases hs : splitQChars t with
      | nil => exact absurd hs (splitQChars_ne_nil t)
      | cons p ps =>
        rw [hs] at ih
        simp [joinQChars, ih]
    · simp only [splitQChars, h, Bool.false_eq_true, if_false]
      cases hs : splitQChars t with
      | nil => exact absurd hs (splitQChars_ne_nil t)
      | cons p ps =>
        rw [hs] at ih
        cases ps with
        | nil => simpa [joinQChars] using congrArg (c :: ·) ih
        | cons q qs => simpa [joinQChars] using congrArg (c :: ·) ih

theorem splitQChars_no_q (l : List Char) :
    ∀ p ∈ splitQChars l, '?' ∉ p := by
  induction l with
  | nil => intro p hp; simp [splitQChars] at hp; simp [hp]
  | cons c t ih =>
    intro p hp
    by_cases h : c == '?'
    · simp only [splitQChars, h, if_true] at hp
      rcases List.mem_cons.1 hp with h0 | h0
      · simp [h0]
      · exact ih p h0
    · simp only [splitQChars, h, Bool.false_eq_true, if_false] at hp
      cases hs : splitQChars t with
      | nil => exact absurd hs (splitQChars_ne_nil t)
      | cons q qs =>
        rw [hs] at hp ih
        rcases List.mem_cons.1 hp with h0 | h0
        · subst h0
          intro hmem
          rcases List.mem_cons.1 hmem with hc | hc
          · exact absurd hc.symm (by simpa using h)
          · exact ih q (List.mem_cons_self q qs) hc
        · exact ih p (List.mem_cons_of_mem q h0)

theorem interleave_render (ps : List (List Char)) :
    ∀ bs : List Value, ps.length = bs.length + 1 →
      renderToks (interleaveToks (ps.map String.mk) bs) = String.mk (joinQChars ps)
      ∧ holesOf (interleaveToks (ps.map String.mk) bs) = bs := by
  induction ps with
  | nil => intro bs h; simp at h
  | cons p rest ih =>
    intro bs h
    cases bs with
    | nil =>
      have hr : rest = [] := by
        have : rest.length = 0 := by simpa using h
        simpa [List.length_eq_zero] using this
      subst hr
      simp [interleaveToks, renderToks, holesOf, joinQChars]
    | cons v vs =>
      have hlen : rest.length = vs.length + 1 := by simpa using h
      obtain ⟨hre, hho⟩ := ih vs hlen
      have hrest : rest ≠ [] := by
        intro hc; rw [hc] at hlen; simp at hlen
      constructor
      · simp only [List.map_cons, interleaveToks, renderToks, hre]
        cases rest with
        | nil => exact absurd rfl hrest
        | cons q qs =>
          show String.mk p ++ ("?" ++ String.mk (joinQChars (q :: qs))) = _
          simp [joinQChars]
          cases qs <;> rfl
      · simp [interleaveToks, holesOf, hho]

theorem interleave_clean (ps : List (List Char)) (bs : List Value)
    (hq : ∀ p ∈ ps, '?' ∉ p) :
    toksClean (interleaveToks (ps.map String.mk) bs) = true := by
  induction ps generalizing bs with
  | nil => rfl
  | cons p rest ih =>
    have hp0 : countQ (String.mk p) = 0 := by
      simp only [countQ]
      exact List.count_eq_zero.2 (hq p (List.mem_cons_self p rest))
    cases bs with
    | nil => simp [interleaveToks, toksClean, hp0]
    | cons v vs =>
      simp [interleaveToks, toksClean, hp0,
        ih vs (fun q hqmem => hq q (List.mem_cons_of_mem p hqmem))]

theorem headNonWs_append (a b : String) (h : headNonWs a = true) :
    headNonWs (a ++ b) = true := by
  unfold headNonWs at h ⊢
  rw [String.data_append']
  cases hd : a.data with
  | nil => rw [hd] at h; simp at h
  | cons c t => rw [hd] at h; simpa using h

theorem headSolid_nonWs (s : String) (h : headSolid s = true) :
    headNonWs s = true := by
  unfold headSolid at h
  unfold headNonWs
  cases hd : s.data with
  | nil => rw [hd] at h; simp at h
  | cons c t =>
    rw [hd] at h
    simp only [Bool.and_eq_true] at h
    exact h.1

/-- Stripping `WHERE ` from a prefixed clause body recovers the body. -/
theorem stripWhere_of_head (x : String) (h : headNonWs x = true) :
    stripWhereKeyword ("WHERE " ++ x) = x := by
  unfold stripWhereKeyword
  have hpre : "where".data.isPrefixOf (strToLower ("WHERE " ++ x)).data = true := by
    show "where".data.isPrefixOf (("WHERE " ++ x).data.map Char.toLower) = true
    rw [String.data_append']
    rfl
  rw [if_pos hpre]
  show String.mk ((("WHERE " ++ x).data.drop 5).dropWhile Char.isWhitespace) = x
  rw [String.data_append']
  show String.mk ((' ' :: x.data).dropWhile Char.isWhitespace) = x
  rw [List.dropWhile_cons, if_pos (by decide)]
  unfold headNonWs at h
  cases hd : x.data with
  | nil => rw [hd] at h; simp at h
  | cons c t =>
    rw [hd] at h
    simp only [Bool.not_eq_true'] at h
    have hdr : List.dropWhile Char.isWhitespace (c :: t) = c :: t := by
      rw [List.dropWhile_cons, if_neg (by simp [h])]
    rw [hdr, ← hd]

end Nexium

namespace Nexium

/-! ### More fidelity helpers -/

theorem holesOf_strip (ts : List Tok) :
    holesOf (stripToksWhere ts) = holesOf ts := by
  cases ts with
  | nil => rfl
  | cons t rest => cases t <;> rfl

theorem countQ_zero_of_le (s t : String) (hsub : s.data.Sublist t.data)
    (h : countQ t = 0) : countQ s = 0 := by
  unfold countQ at h ⊢
  exact Nat.le_zero.1 (h ▸ hsub.count_le '?')

theorem countQ_stripWhere (s : String) (h : countQ s = 0) :
    countQ (stripWhereKeyword s) = 0 := by
  unfold stripWhereKeyword
  by_cases hp : "where".data.isPrefixOf (strToLower s).data = true
  · rw [if_pos hp]
    refine countQ_zero_of_le _ s ?_ h
    show ((s.data.drop 5).dropWhile Char.isWhitespace).Sublist s.data
    exact ((s.data.drop 5).dropWhile_sublist Char.isWhitespace).trans (s.data.drop_sublist 5)
  · rw [if_neg hp]
    exact h

theorem toksClean_strip (ts : List Tok) (h : toksClean ts = true) :
    toksClean (stripToksWhere ts) = true := by
  cases ts with
  | nil => rfl
  | cons t rest =>
    cases t with
    | txt s =>
      simp only [toksClean, Bool.and_eq_true, beq_iff_eq] at h
      simp only [stripToksWhere, toksClean, Bool.and_eq_true, beq_iff_eq]
      exact ⟨countQ_stripWhere s h.1, h.2⟩
    | hole v => exact h

theorem countQ_escapeId (s : String) (h : countQ s = 0) :
    countQ (escapeId s) = 0 := by
  unfold escapeId
  by_cases h1 : s == "*"
  · rw [if_pos h1]; rfl
  · rw [if_neg (by simpa using h1)]
    by_cases h2 : (s.data.any (fun c => c == ' ' || c == '\t' || c == '\n' || c == '\r')
        || s.data.contains '(' || s.data.contains ')' || containsAsKeyword s) = true
    · rw [if_pos h2]; exact h
    · rw [if_neg (by simpa using h2)]
      rw [countQ_append, countQ_append]
      have hmap : countQ ⟨(s.data.map (fun c => if c == '`' then ['`', '`'] else [c])).flatten⟩ = 0 := by
        unfold countQ at h ⊢
        rw [List.count_eq_zero] at h ⊢
        intro hmem
        rw [List.mem_flatten] at hmem
        obtain ⟨l, hl, hql⟩ := hmem
        rw [List.mem_map] at hl
        obtain ⟨c, hc, hcl⟩ := hl
        by_cases hbt : c == '`'
        · rw [if_pos hbt] at hcl
          rw [← hcl] at hql
          simp at hql
        · rw [if_neg hbt] at hcl
          rw [← hcl] at hql
          simp only [List.mem_singleton] at hql
          exact h (hql ▸ hc)
      have hbt : countQ "`" = 0 := rfl
      rw [hbt, hmap]

theorem countQ_strJoin (sep : String) (parts : List String)
    (hsep : countQ sep = 0) (h : ∀ p ∈ parts, countQ p = 0) :
    countQ (strJoin sep parts) = 0 := by
  induction parts with
  | nil => rfl
  | cons p rest ih =>
    cases rest with
    | nil => exact h p (List.mem_cons_self p [])
    | cons q t =>
      show countQ (p ++ sep ++ strJoin sep (q :: t)) = 0
      rw [countQ_append, countQ_append]
      rw [h p (List.mem_cons_self p (q :: t)), hsep,
        ih (fun x hx => h x (List.mem_cons_of_mem p hx))]

theorem renderToks_holesCommaSep (vals : List Value) :
    renderToks (holesCommaSep vals) = strJoin ", " (vals.map (fun _ => "?")) := by
  induction vals with
  | nil => rfl
  | cons v rest ih =>
    cases rest with
    | nil => rfl
    | cons w t =>
      show "?" ++ (", " ++ renderToks (holesCommaSep (w :: t))) = _
      rw [ih]
      show _ = "?" ++ ", " ++ strJoin ", " ((w :: t).map (fun _ => "?"))
      rw [String.append_assoc]

theorem holesOf_holesCommaSep (vals : List Value) :
    holesOf (holesCommaSep vals) = vals := by
  induction vals with
  | nil => rfl
  | cons v rest ih =>
    cases rest with
    | nil => rfl
    | cons w t =>
      show v :: holesOf (holesCommaSep (w :: t)) = v :: w :: t
      rw [ih]

theorem toksClean_holesCommaSep (vals : List Value) :
    toksClean (holesCommaSep vals) = true := by
  induction vals with
  | nil => rfl
  | cons v rest ih =>
    cases rest with
    | nil => rfl
    | cons w t =>
      show toksClean (.hole v :: .txt ", " :: holesCommaSep (w :: t)) = true
      simpa [toksClean, countQ] using ih

theorem having_bindings_flatten (hs : List Having)
    (h : ∀ x ∈ hs, x.bindings = [x.value]) :
    (hs.map Having.bindings).flatten = hs.map Having.value := by
  induction hs with
  | nil => rfl
  | cons x rest ih =>
    simp only [List.map_cons, List.flatten_cons, h x (List.mem_cons_self x rest)]
    rw [ih (fun y hy => h y (List.mem_cons_of_mem x hy))]
    rfl

theorem headSolid_split (r : String) (h : headSolid r = true) :
    ∃ c p ps, splitQChars r.data = (c :: p) :: ps ∧ c.isWhitespace = false := by
  unfold headSolid at h
  cases hd : r.data with
  | nil => rw [hd] at h; simp at h
  | cons c t =>
    rw [hd] at h
    simp only [Bool.and_eq_true, Bool.not_eq_true', bne_iff_ne, ne_eq] at h
    have hq : (c == '?') = false := by
      cases hcq : c == '?'
      · rfl
      · exact absurd (by simpa using hcq) h.2
    refine ⟨c, ?_⟩
    simp only [splitQChars, hq, Bool.false_eq_true, if_false]
    cases hs : splitQChars t with
    | nil => exact absurd hs (splitQChars_ne_nil t)
    | cons p ps => exact ⟨p, ps, rfl, h.1⟩

theorem joinToks_head (t : Tok) (l : List Tok) (pr : List (List Tok)) :
    ∃ rest, joinToksWithSpace ((t :: l) :: pr) = t :: rest := by
  cases pr with
  | nil => exact ⟨l, rfl⟩
  | cons p2 t2 =>
    refine ⟨l ++ ([.txt " "] ++ joinToksWithSpace (p2 :: t2)), ?_⟩
    show (t :: l) ++ [.txt " "] ++ joinToksWithSpace (p2 :: t2) = _
    simp

theorem strJoin_head (s : String) (rest : List String) :
    ∃ y, strJoin " " (s :: rest) = s ++ y := by
  cases rest with
  | nil => exact ⟨"", by simp [strJoin]⟩
  | cons q t => exact ⟨" " ++ strJoin " " (q :: t), by simp [strJoin, String.append_assoc]⟩

theorem append_prefixed_ne_empty (x y : String) :
    ((("WHERE " ++ x) ++ y) == "") = false := by
  have hne : (("WHERE " ++ x) ++ y) ≠ "" := by
    intro hc
    have := congrArg String.data hc
    rw [String.data_append', String.data_append'] at this
    simp at this
  simpa using hne

theorem strip_commute (ts : List Tok)
    (h : ts = [] ∨ ∃ s rest, ts = .txt ("WHERE " ++ s) :: rest ∧ headNonWs s = true) :
    renderToks (stripToksWhere ts) = stripWhereKeyword (renderToks ts) := by
  rcases h with h | ⟨s, rest, hts, hs⟩
  · subst h; rfl
  · subst hts
    show stripWhereKeyword ("WHERE " ++ s) ++ renderToks rest = _
    rw [stripWhere_of_head s hs]
    show _ = stripWhereKeyword (("WHERE " ++ s) ++ renderToks rest)
    rw [String.append_assoc,
      stripWhere_of_head (s ++ renderToks rest) (headNonWs_append s _ hs)]

end Nexium

namespace Nexium

/-! ### Fidelity output predicates

For each compiler entry point, the instrumented run agrees with the
plain `_compileSelect` text, and the emitted hole sequence equals the
`_gatherBindings` walk of the same structures. -/

/-- `_compileSelect` fidelity package for one query descriptor. -/
def SelectOut (q : Query) : Prop :=
  ∃ ts, compileSelectT q = .ok ts ∧ compileSelect q = .ok (renderToks ts)
    ∧ holesOf ts = gatherBindings q ∧ toksClean ts = true

/-- CTE-list fidelity package. -/
def CtesOut (cs : List Cte) : Prop :=
  ∃ tss, compileCteListT cs = .ok tss
    ∧ compileCteList cs = .ok (tss.map renderToks)
    ∧ (tss.map holesOf).flatten = gatherCtes cs
    ∧ tss.all toksClean = true

/-- Union-wrapping fidelity package around an already-compiled base. -/
def UnionsOut (ts : List Tok) (us : List UnionItem) : Prop :=
  ∃ ts2, wrapUnionsT ts us = .ok ts2
    ∧ wrapUnions (renderToks ts) us = .ok (renderToks ts2)
    ∧ holesOf ts2 = holesOf ts ++ gatherUnions us
    ∧ (toksClean ts = true → toksClean ts2 = true)

/-- Where-clause-list fidelity package (the head fact records that the
first clause of a `WHERE` group starts `WHERE <solid text>`, which the
nested-group strip relies on). -/
def WheresOut (i : Nat) (ws : List WhereNode) : Prop :=
  ∃ tss, compileWheresGoT i ws = .ok tss
    ∧ compileWheresGo i ws = .ok (tss.map renderToks)
    ∧ (tss.map holesOf).flatten = gatherWheres ws
    ∧ tss.all toksClean = true
    ∧ (i = 0 → ws ≠ [] →
        ∃ s r2 pr, tss = (Tok.txt ("WHERE " ++ s) :: r2) :: pr ∧ headNonWs s = true)

/-- Single-where-body fidelity package. -/
def BodyOut (w : WhereNode) : Prop :=
  ∃ ts, compileWhereBodyT w = .ok ts
    ∧ compileWhereBody w = .ok (renderToks ts)
    ∧ holesOf ts = w.bindingsOf ∧ toksClean ts = true
    ∧ ∃ s r2, ts = Tok.txt s :: r2 ∧ headNonWs s = true

/-- String extensionality through the character list. -/
theorem strEq (a b : String) (h : a.data = b.data) : a = b := by
  cases a with
  | mk l => cases b with
    | mk m => exact congrArg String.mk h

theorem countQ_render_of_clean (ts : List Tok) (h : toksClean ts = true) :
    countQ (renderToks ts) = (holesOf ts).length := by
  induction ts with
  | nil => rfl
  | cons t rest ih =>
    cases t with
    | txt s =>
      simp only [toksClean, Bool.and_eq_true, beq_iff_eq] at h
      show countQ (s ++ renderToks rest) = _
      rw [countQ_append, h.1, ih h.2]
      simp [holesOf]
    | hole v =>
      show countQ ("?" ++ renderToks rest) = (holesOf (.hole v :: rest)).length
      rw [countQ_append, ih h]
      simp [holesOf, countQ]
      omega

/-- The connector text of any well-formed where node is free of `?`. -/
theorem countQ_boolOf (w : WhereNode) (h : wfWhere w = true) :
    countQ w.boolOf = 0 := by
  cases w <;>
    simp only [wfWhere, Bool.and_eq_true, beq_iff_eq] at h <;>
    simp only [WhereNode.boolOf] <;>
    first
      | exact h.1.1.1.1.1
      | exact h.1.1.1.1
      | exact h.1.1.1
      | exact h.1.1
      | exact h.1
      | exact absurd h (by simp)

theorem flatten_singletons {α β : Type} (g : α → β) (l : List α) :
    (l.map (fun x => [g x])).flatten = l.map g := by
  induction l with
  | nil => rfl
  | cons x t ih => simp [ih]

theorem snd_mem_of_mem_enumFrom {α : Type} (l : List α) :
    ∀ (n : Nat) (p : Nat × α), p ∈ l.enumFrom n → p.2 ∈ l := by
  induction l with
  | nil => intro n p hp; simp [List.enumFrom] at hp
  | cons a t ih =>
    intro n p hp
    simp only [List.enumFrom, List.mem_cons] at hp
    rcases hp with h | h
    · rw [h]; exact List.mem_cons_self a t
    · exact List.mem_cons_of_mem a (ih (n + 1) p h)

theorem beq_empty_false_of_head (t : String) (c : Char) (l : List Char)
    (h : t.data = c :: l) : (t == "") = false := by
  have hne : t ≠ "" := by
    intro hc
    subst hc
    exact List.cons_ne_nil c l (Eq.symm h)
  simpa using hne

theorem renderToks_single (s : String) : renderToks [.txt s] = s := by
  apply strEq
  show (s ++ "").data = s.data
  rw [String.data_append']
  exact List.append_nil s.data

end Nexium

namespace Nexium

/-! ### Character-data of the literal fragments -/

theorem dEmpty : ("" : String).data = [] := rfl
theorem dSpace : (" " : String).data = [' '] := rfl
theorem dQ : ("?" : String).data = ['?'] := rfl
theorem dSpaceQ : (" ?" : String).data = [' ', '?'] := rfl
theorem dAndKw : (" AND " : String).data = [' ', 'A', 'N', 'D', ' '] := rfl
theorem dQAndQ : (" ? AND ?" : String).data
    = [' ', '?', ' ', 'A', 'N', 'D', ' ', '?'] := rfl
theorem dLP : ("(" : String).data = ['('] := rfl
theorem dRP : (")" : String).data = [')'] := rfl
theorem dRPSpace : (") " : String).data = [')', ' '] := rfl
theorem dSpaceLP : (" (" : String).data = [' ', '('] := rfl
theorem dWhereKw : ("WHERE " : String).data = ['W', 'H', 'E', 'R', 'E', ' '] := rfl
theorem dHereKw : ("HERE " : String).data = ['H', 'E', 'R', 'E', ' '] := rfl
theorem dExistsLP : ("EXISTS (" : String).data
    = ['E', 'X', 'I', 'S', 'T', 'S', ' ', '('] := rfl
theorem dNotExistsLP : ("NOT EXISTS (" : String).data
    = ['N', 'O', 'T', ' ', 'E', 'X', 'I', 'S', 'T', 'S', ' ', '('] := rfl

/-! ### Per-constructor where-body fidelity (non-recursive cases) -/

theorem cqRP : countQ ")" = 0 := rfl

theorem body_basic (b col op : String) (v : Value) (bs : List Value)
    (h : wfWhere (.basic b col op v bs) = true) : BodyOut (.basic b col op v bs) := by
  simp only [wfWhere, Bool.and_eq_true, beq_iff_eq] at h
  obtain ⟨⟨⟨⟨hb, hcol⟩, hop⟩, hbs⟩, hhead⟩ := h
  have hA : countQ (escapeId col ++ " " ++ op ++ " ") = 0 := by
    rw [countQ_append, countQ_append, countQ_append, countQ_escapeId col hcol, hop]
    rfl
  refine ⟨[.txt (escapeId col ++ " " ++ op ++ " "), .hole v], rfl, ?_, ?_, ?_,
    escapeId col ++ " " ++ op ++ " ", [.hole v], rfl,
    headNonWs_append _ _ (headNonWs_append _ _ (headNonWs_append _ _ hhead))⟩
  · exact congrArg Except.ok (by
      apply strEq
      simp [renderToks, String.data_append', dSpace, dQ, dSpaceQ, dEmpty])
  · simp [holesOf, WhereNode.bindingsOf, hbs]
  · simp [toksClean, hA]

theorem body_raw (b r : String) (bs : List Value)
    (h : wfWhere (.raw b r bs) = true) : BodyOut (.raw b r bs) := by
  simp only [wfWhere, Bool.and_eq_true, beq_iff_eq] at h
  obtain ⟨⟨hb, hlen⟩, hsolid⟩ := h
  have hlen' : (splitQChars r.data).length = bs.length + 1 := by
    simpa [splitQParts] using hlen
  obtain ⟨hre, hho⟩ := interleave_render (splitQChars r.data) bs hlen'
  have hmk : String.mk (joinQChars (splitQChars r.data)) = r := by
    rw [joinQChars_splitQChars]
  obtain ⟨c, p, ps, hsplit, hcws⟩ := headSolid_split r hsolid
  refine ⟨interleaveToks ((splitQChars r.data).map String.mk) bs, rfl, ?_, ?_, ?_, ?_⟩
  · exact congrArg Except.ok (hre.trans hmk).symm
  · simpa [WhereNode.bindingsOf] using hho
  · exact interleave_clean (splitQChars r.data) bs (splitQChars_no_q r.data)
  · rw [hsplit]
    cases bs with
    | nil =>
      exact ⟨String.mk (c :: p), [], rfl, by simp [headNonWs, hcws]⟩
    | cons v vs =>
      exact ⟨String.mk (c :: p), .hole v :: interleaveToks (ps.map String.mk) vs, rfl,
        by simp [headNonWs, hcws]⟩

theorem body_columns (b f op sec : String)
    (h : wfWhere (.columns b f op sec) = true) : BodyOut (.columns b f op sec) := by
  simp only [wfWhere, Bool.and_eq_true, beq_iff_eq] at h
  obtain ⟨⟨⟨⟨hb, hf⟩, hop⟩, hsec⟩, hhead⟩ := h
  have hA : countQ (escapeId f ++ " " ++ op ++ " " ++ escapeId sec) = 0 := by
    rw [countQ_append, countQ_append, countQ_append, countQ_append,
      countQ_escapeId f hf, countQ_escapeId sec hsec, hop]
    rfl
  refine ⟨[.txt (escapeId f ++ " " ++ op ++ " " ++ escapeId sec)], rfl,
    congrArg Except.ok (renderToks_single _).symm, rfl, ?_,
    escapeId f ++ " " ++ op ++ " " ++ escapeId sec, [], rfl,
    headNonWs_append _ _ (headNonWs_append _ _ (headNonWs_append _ _
      (headNonWs_append _ _ hhead)))⟩
  simp [toksClean, hA]

theorem body_inW (b col : String) (vals bs : List Value)
    (h : wfWhere (.inW b col vals bs) = true) : BodyOut (.inW b col vals bs) := by
  simp only [wfWhere, Bool.and_eq_true, beq_iff_eq] at h
  obtain ⟨⟨⟨hb, hcol⟩, hbs⟩, hhead⟩ := h
  have hA : countQ (escapeId col ++ " IN (") = 0 := by
    rw [countQ_append, countQ_escapeId col hcol]
    rfl
  refine ⟨[Tok.txt (escapeId col ++ " IN (")] ++ holesCommaSep vals ++ [Tok.txt ")"],
    rfl, ?_, ?_, ?_,
    escapeId col ++ " IN (", holesCommaSep vals ++ [Tok.txt ")"], rfl,
    headNonWs_append _ _ hhead⟩
  · refine congrArg Except.ok ?_
    rw [renderToks_append, renderToks_append, renderToks_single, renderToks_single,
      renderToks_holesCommaSep]
  · rw [holesOf_append, holesOf_append, holesOf_holesCommaSep]
    simp [holesOf, WhereNode.bindingsOf, hbs]
  · rw [toksClean_append, toksClean_append, toksClean_holesCommaSep]
    simp [toksClean, hA, cqRP]

theorem body_notInW (b col : String) (vals bs : List Value)
    (h : wfWhere (.notInW b col vals bs) = true) : BodyOut (.notInW b col vals bs) := by
  simp only [wfWhere, Bool.and_eq_true, beq_iff_eq] at h
  obtain ⟨⟨⟨hb, hcol⟩, hbs⟩, hhead⟩ := h
  have hA : countQ (escapeId col ++ " NOT IN (") = 0 := by
    rw [countQ_append, countQ_escapeId col hcol]
    rfl
  refine ⟨[Tok.txt (escapeId col ++ " NOT IN (")] ++ holesCommaSep vals ++ [Tok.txt ")"],
    rfl, ?_, ?_, ?_,
    escapeId col ++ " NOT IN (", holesCommaSep vals ++ [Tok.txt ")"], rfl,
    headNonWs_append _ _ hhead⟩
  · refine congrArg Except.ok ?_
    rw [renderToks_append, renderToks_append, renderToks_single, renderToks_single,
      renderToks_holesCommaSep]
  · rw [holesOf_append, holesOf_append, holesOf_holesCommaSep]
    simp [holesOf, WhereNode.bindingsOf, hbs]
  · rw [toksClean_append, toksClean_append, toksClean_holesCommaSep]
    simp [toksClean, hA, cqRP]

theorem body_nullW (b col : String) (neg : Bool)
    (h : wfWhere (.nullW b col neg) = true) : BodyOut (.nullW b col neg) := by
  simp only [wfWhere, Bool.and_eq_true, beq_iff_eq] at h
  obtain ⟨⟨hb, hcol⟩, hhead⟩ := h
  have hA : countQ (escapeId col ++ " IS " ++ (if neg then "NOT " else "") ++ "NULL") = 0 := by
    rw [countQ_append, countQ_append, countQ_append, countQ_escapeId col hcol]
    cases neg <;> rfl
  refine ⟨[.txt (escapeId col ++ " IS " ++ (if neg then "NOT " else "") ++ "NULL")], rfl,
    congrArg Except.ok (renderToks_single _).symm, rfl, ?_,
    escapeId col ++ " IS " ++ (if neg then "NOT " else "") ++ "NULL", [], rfl,
    headNonWs_append _ _ (headNonWs_append _ _ (headNonWs_append _ _ hhead))⟩
  simp [toksClean, hA]

theorem body_between (b col : String) (lo hi : Value) (neg : Bool) (bs : List Value)
    (h : wfWhere (.between b col lo hi neg bs) = true) :
    BodyOut (.between b col lo hi neg bs) := by
  simp only [wfWhere, Bool.and_eq_true, beq_iff_eq] at h
  obtain ⟨⟨⟨hb, hcol⟩, hbs⟩, hhead⟩ := h
  have hA : countQ (escapeId col ++ " "
      ++ (if neg then "NOT BETWEEN" else "BETWEEN") ++ " ") = 0 := by
    rw [countQ_append, countQ_append, countQ_append, countQ_escapeId col hcol]
    cases neg <;> rfl
  have hkw : List.count '?' (if neg = true then "NOT BETWEEN" else "BETWEEN").data = 0 := by
    cases neg <;> rfl
  refine ⟨[.txt (escapeId col ++ " " ++ (if neg then "NOT BETWEEN" else "BETWEEN") ++ " "),
      .hole lo, .txt " AND ", .hole hi], rfl, ?_, ?_, ?_,
    escapeId col ++ " " ++ (if neg then "NOT BETWEEN" else "BETWEEN") ++ " ",
    [.hole lo, .txt " AND ", .hole hi], rfl,
    headNonWs_append _ _ (headNonWs_append _ _ (headNonWs_append _ _ hhead))⟩
  · exact congrArg Except.ok (by
      apply strEq
      simp [renderToks, String.data_append', dSpace, dQ, dQAndQ, dAndKw, dEmpty])
  · simp [holesOf, WhereNode.bindingsOf, hbs]
  · simp [toksClean, hA, countQ, dAndKw, String.data_append', hkw,
      countQ_escapeId col hcol, List.count_append]
    simpa [countQ] using countQ_escapeId col hcol

theorem body_rawExists (b r : String)
    (h : wfWhere (.rawExists b r) = true) : BodyOut (.rawExists b r) := by
  simp only [wfWhere, Bool.and_eq_true, beq_iff_eq] at h
  obtain ⟨hb, hr⟩ := h
  have hA : countQ ("EXISTS (" ++ r ++ ")") = 0 := by
    rw [countQ_append, countQ_append, hr]
    rfl
  refine ⟨[.txt ("EXISTS (" ++ r ++ ")")], rfl,
    congrArg Except.ok (renderToks_single _).symm, rfl, ?_,
    "EXISTS (" ++ r ++ ")", [], rfl,
    headNonWs_append _ _ (headNonWs_append _ _ (by decide))⟩
  simp [toksClean, hA]

theorem body_rawNotExists (b r : String)
    (h : wfWhere (.rawNotExists b r) = true) : BodyOut (.rawNotExists b r) := by
  simp only [wfWhere, Bool.and_eq_true, beq_iff_eq] at h
  obtain ⟨hb, hr⟩ := h
  have hA : countQ ("NOT EXISTS (" ++ r ++ ")") = 0 := by
    rw [countQ_append, countQ_append, hr]
    rfl
  refine ⟨[.txt ("NOT EXISTS (" ++ r ++ ")")], rfl,
    congrArg Except.ok (renderToks_single _).symm, rfl, ?_,
    "NOT EXISTS (" ++ r ++ ")", [], rfl,
    headNonWs_append _ _ (headNonWs_append _ _ (by decide))⟩
  simp [toksClean, hA]

end Nexium

namespace Nexium

/-! ### Assembly lemmas for the recursive fidelity cases -/

theorem wheres_cons (i : Nat) (w : WhereNode) (rest : List WhereNode)
    (hb : countQ w.boolOf = 0)
    (hB : BodyOut w) (hR : WheresOut (i + 1) rest) : WheresOut i (w :: rest) := by
  obtain ⟨tb, hbT, hbS, hbH, hbC, s0, r0, hshape, hhd⟩ := hB
  obtain ⟨tssR, hrT, hrS, hrH, hrC, _⟩ := hR
  have hpre : countQ (if i == 0 then "WHERE " else w.boolOf ++ " ") = 0 := by
    split
    · rfl
    · rw [countQ_append, hb]; rfl
  refine ⟨prependToFirst (if i == 0 then "WHERE " else w.boolOf ++ " ") tb :: tssR,
    ?_, ?_, ?_, ?_, ?_⟩
  · simp only [compileWheresGoT]
    rw [hbT, hrT]
    rfl
  · simp only [compileWheresGo]
    rw [hbS, hrS]
    have hmap : (prependToFirst (if i == 0 then "WHERE " else w.boolOf ++ " ") tb
        :: tssR).map renderToks
        = ((if i == 0 then "WHERE " else w.boolOf ++ " ") ++ renderToks tb)
          :: tssR.map renderToks := by
      simp [renderToks_prepend]
    rw [hmap]
    rfl
  · simp only [List.map_cons, List.flatten_cons, holesOf_prepend]
    rw [hbH, hrH]
    rfl
  · show (prependToFirst (if i == 0 then "WHERE " else w.boolOf ++ " ") tb
        :: tssR).all toksClean = true
    rw [List.all_cons, toksClean_prepend _ _ hpre, hbC, hrC]
    rfl
  · intro hi hne
    subst hi
    refine ⟨s0, r0, tssR, ?_, hhd⟩
    rw [hshape]
    rfl

theorem body_existsW (b : String) (q : Query) (bs : List Value)
    (hbs : bs = gatherBindings q) (hS : SelectOut q) : BodyOut (.existsW b q bs) := by
  obtain ⟨tsQ, hT, hSq, hH, hC⟩ := hS
  refine ⟨[Tok.txt "EXISTS ("] ++ tsQ ++ [Tok.txt ")"], ?_, ?_, ?_, ?_,
    "EXISTS (", tsQ ++ [Tok.txt ")"], rfl, by decide⟩
  · simp only [compileWhereBodyT]
    rw [hT]
    rfl
  · simp only [compileWhereBody]
    rw [hSq]
    rw [renderToks_append, renderToks_append, renderToks_single, renderToks_single]
    rfl
  · rw [holesOf_append, holesOf_append, hH]
    simp [holesOf, WhereNode.bindingsOf, hbs]
  · rw [toksClean_append, toksClean_append]
    simp [toksClean, hC]
    exact ⟨rfl, rfl⟩

theorem body_notExistsW (b : String) (q : Query) (bs : List Value)
    (hbs : bs = gatherBindings q) (hS : SelectOut q) : BodyOut (.notExistsW b q bs) := by
  obtain ⟨tsQ, hT, hSq, hH, hC⟩ := hS
  refine ⟨[Tok.txt "NOT EXISTS ("] ++ tsQ ++ [Tok.txt ")"], ?_, ?_, ?_, ?_,
    "NOT EXISTS (", tsQ ++ [Tok.txt ")"], rfl, by decide⟩
  · simp only [compileWhereBodyT]
    rw [hT]
    rfl
  · simp only [compileWhereBody]
    rw [hSq]
    rw [renderToks_append, renderToks_append, renderToks_single, renderToks_single]
    rfl
  · rw [holesOf_append, holesOf_append, hH]
    simp [holesOf, WhereNode.bindingsOf, hbs]
  · rw [toksClean_append, toksClean_append]
    simp [toksClean, hC]
    exact ⟨rfl, rfl⟩

theorem body_nested (b t : String) (a : Option String) (s : List String) (j : List Join)
    (ws : List WhereNode) (g : List String) (o : List (String × String))
    (l o2 : Option Int) (f d : Bool) (fr : Option String) (bs : List Value)
    (hbs : bs = gatherWheres ws)
    (hW : WheresOut 0 ws) :
    BodyOut (.nested b (.mk t a s j ws g [] o l o2 f d [] [] fr) bs) := by
  obtain ⟨tssW, hT, hS, hH, hC, hHd⟩ := hW
  cases ws with
  | nil =>
    refine ⟨[Tok.txt "(", Tok.txt ")"], ?_, ?_, ?_, ?_, "(", [Tok.txt ")"], rfl, by decide⟩
    · rfl
    · rfl
    · simp only [gatherWheres] at hbs
      simp [holesOf, WhereNode.bindingsOf, hbs]
    · rfl
  | cons w0 wr =>
    obtain ⟨s0, r2, pr, htss, hs0⟩ := hHd rfl (List.cons_ne_nil w0 wr)
    have hinner : ∃ restJ, joinToksWithSpace tssW = Tok.txt ("WHERE " ++ s0) :: restJ := by
      rw [htss]
      exact joinToks_head (Tok.txt ("WHERE " ++ s0)) r2 pr
    obtain ⟨restJ, hinner⟩ := hinner
    refine ⟨[Tok.txt "("] ++ stripToksWhere (joinToksWithSpace tssW) ++ [Tok.txt ")"],
      ?_, ?_, ?_, ?_, "(", stripToksWhere (joinToksWithSpace tssW) ++ [Tok.txt ")"],
      rfl, by decide⟩
    · simp only [compileWhereBodyT]
      rw [hT]
      rfl
    · simp only [compileWhereBody]
      rw [hS]
      rw [renderToks_append, renderToks_append, renderToks_single, renderToks_single]
      rw [strip_commute _ (Or.inr ⟨s0, restJ, hinner, hs0⟩), renderToks_join]
      rfl
    · rw [holesOf_append, holesOf_append, holesOf_strip, holesOf_join, hH]
      simp [holesOf, WhereNode.bindingsOf, hbs]
    · rw [toksClean_append, toksClean_append]
      have hcs : toksClean (stripToksWhere (joinToksWithSpace tssW)) = true := by
        apply toksClean_strip
        rw [toksClean_join]
        exact hC
      simp [toksClean, hcs]
      exact ⟨rfl, rfl⟩

theorem cte_cons_qb (name : String) (r : Bool) (q : Query) (rest : List Cte)
    (hn : countQ name = 0) (hS : SelectOut q) (hR : CtesOut rest) :
    CtesOut (.mk name r (.qb q) :: rest) := by
  obtain ⟨tsQ, hqT, hqS, hqH, hqC⟩ := hS
  obtain ⟨tssR, hrT, hrS, hrH, hrC⟩ := hR
  have hpre : countQ (escapeId name ++ " AS ") = 0 := by
    rw [countQ_append, countQ_escapeId name hn]; rfl
  refine ⟨prependToFirst (escapeId name ++ " AS ")
      ([Tok.txt "("] ++ tsQ ++ [Tok.txt ")"]) :: tssR, ?_, ?_, ?_, ?_⟩
  · simp only [compileCteListT]
    rw [hqT, hrT]
    rfl
  · simp only [compileCteList]
    rw [hqS, hrS]
    have hmap : (prependToFirst (escapeId name ++ " AS ")
        ([Tok.txt "("] ++ tsQ ++ [Tok.txt ")"]) :: tssR).map renderToks
        = (escapeId name ++ " AS " ++ ("(" ++ renderToks tsQ ++ ")"))
          :: tssR.map renderToks := by
      simp only [List.map_cons, renderToks_prepend]
      rw [renderToks_append, renderToks_append, renderToks_single, renderToks_single]
    rw [hmap]
    rfl
  · simp only [List.map_cons, List.flatten_cons, holesOf_prepend]
    rw [holesOf_append, holesOf_append, hqH, hrH]
    simp [holesOf, gatherCtes]
  · simp only [List.all_cons, toksClean_prepend _ _ hpre]
    rw [toksClean_append, toksClean_append]
    simp [toksClean, hqC, hrC]
    exact ⟨rfl, rfl⟩

theorem cte_cons_raw (name : String) (r : Bool) (s2 : String) (rest : List Cte)
    (hn : countQ name = 0) (hs2 : countQ s2 = 0) (hR : CtesOut rest) :
    CtesOut (.mk name r (.raw s2) :: rest) := by
  obtain ⟨tssR, hrT, hrS, hrH, hrC⟩ := hR
  have hpre : countQ (escapeId name ++ " AS ") = 0 := by
    rw [countQ_append, countQ_escapeId name hn]; rfl
  have hin : countQ ("(" ++ s2 ++ ")") = 0 := by
    rw [countQ_append, countQ_append, hs2]; rfl
  refine ⟨prependToFirst (escapeId name ++ " AS ")
      [Tok.txt ("(" ++ s2 ++ ")")] :: tssR, ?_, ?_, ?_, ?_⟩
  · simp only [compileCteListT]
    rw [hrT]
    rfl
  · simp only [compileCteList]
    rw [hrS]
    have hmap : (prependToFirst (escapeId name ++ " AS ")
        [Tok.txt ("(" ++ s2 ++ ")")] :: tssR).map renderToks
        = (escapeId name ++ " AS " ++ ("(" ++ s2 ++ ")")) :: tssR.map renderToks := by
      simp only [List.map_cons, renderToks_prepend, renderToks_single]
    rw [hmap]
    rfl
  · simp only [List.map_cons, List.flatten_cons, holesOf_prepend]
    rw [hrH]
    simp [holesOf, gatherCtes]
  · simp only [List.all_cons, toksClean_prepend _ _ hpre]
    simp [toksClean, hin, hrC]

theorem union_cons_qb (ty : String) (q : Query) (rest : List UnionItem) (ts : List Tok)
    (hty : countQ ty = 0) (hS : SelectOut q)
    (hR : ∀ ts2, UnionsOut ts2 rest) : UnionsOut ts (.mk ty (.qb q) :: rest) := by
  obtain ⟨tsQ, hqT, hqS, hqH, hqC⟩ := hS
  obtain ⟨tsR, hrT, hrS, hrH, hrC⟩ :=
    hR ([Tok.txt "("] ++ ts ++ [Tok.txt (") " ++ ty ++ " (")] ++ tsQ ++ [Tok.txt ")"])
  refine ⟨tsR, ?_, ?_, ?_, ?_⟩
  · simp only [wrapUnionsT]
    rw [hqT]
    exact hrT
  · simp only [wrapUnions]
    rw [hqS]
    have heq : ("(" ++ renderToks ts ++ ") " ++ ty ++ " (" ++ renderToks tsQ ++ ")")
        = renderToks ([Tok.txt "("] ++ ts ++ [Tok.txt (") " ++ ty ++ " (")]
            ++ tsQ ++ [Tok.txt ")"]) := by
      rw [renderToks_append, renderToks_append, renderToks_append, renderToks_append,
        renderToks_single, renderToks_single, renderToks_single]
      apply strEq
      simp [String.data_append']
    show wrapUnions ("(" ++ renderToks ts ++ ") " ++ ty ++ " ("
        ++ renderToks tsQ ++ ")") rest = _
    rw [heq]
    exact hrS
  · rw [hrH, holesOf_append, holesOf_append, holesOf_append, holesOf_append, hqH]
    simp [holesOf, gatherUnions, List.append_assoc]
  · intro hts
    apply hrC
    rw [toksClean_append, toksClean_append, toksClean_append, toksClean_append]
    have hmid : countQ (") " ++ ty ++ " (") = 0 := by
      rw [countQ_append, countQ_append, hty]; rfl
    simp [toksClean, hts, hqC, hmid]
    exact ⟨rfl, rfl⟩

theorem union_cons_raw (ty s2 : String) (rest : List UnionItem) (ts : List Tok)
    (hty : countQ ty = 0) (hs2 : countQ s2 = 0)
    (hR : ∀ ts2, UnionsOut ts2 rest) : UnionsOut ts (.mk ty (.raw s2) :: rest) := by
  obtain ⟨tsR, hrT, hrS, hrH, hrC⟩ :=
    hR ([Tok.txt "("] ++ ts ++ [Tok.txt (") " ++ ty ++ " (")] ++ [Tok.txt s2] ++ [Tok.txt ")"])
  refine ⟨tsR, ?_, ?_, ?_, ?_⟩
  · simp only [wrapUnionsT]
    exact hrT
  · simp only [wrapUnions]
    have heq : ("(" ++ renderToks ts ++ ") " ++ ty ++ " (" ++ s2 ++ ")")
        = renderToks ([Tok.txt "("] ++ ts ++ [Tok.txt (") " ++ ty ++ " (")]
            ++ [Tok.txt s2] ++ [Tok.txt ")"]) := by
      rw [renderToks_append, renderToks_append, renderToks_append, renderToks_append,
        renderToks_single, renderToks_single, renderToks_single, renderToks_single]
      apply strEq
      simp [String.data_append']
    show wrapUnions ("(" ++ renderToks ts ++ ") " ++ ty ++ " (" ++ s2 ++ ")") rest = _
    rw [heq]
    exact hrS
  · rw [hrH, holesOf_append, holesOf_append, holesOf_append, holesOf_append]
    simp [holesOf, gatherUnions, List.append_assoc]
  · intro hts
    apply hrC
    rw [toksClean_append, toksClean_append, toksClean_append, toksClean_append]
    have hmid : countQ (") " ++ ty ++ " (") = 0 := by
      rw [countQ_append, countQ_append, hty]; rfl
    simp [toksClean, hts, hmid, hs2]
    exact ⟨rfl, rfl⟩

end Nexium

namespace Nexium

/-! ### Select-assembly helpers -/

theorem except_bind_ok {α β : Type} (a : α) (f : α → Except String β) :
    ((Except.ok a : Except String α) >>= f) = f a := rfl

theorem except_pure_ok {α : Type} (a : α) :
    (pure a : Except String α) = Except.ok a := rfl

theorem renderToks_pair (s : String) (v : Value) :
    renderToks [.txt s, .hole v] = s ++ "?" := by
  apply strEq
  simp [renderToks, String.data_append', dQ, dEmpty]

theorem holesOf_pair (s : String) (v : Value) :
    holesOf [.txt s, .hole v] = [v] := rfl

theorem holesOf_single (s : String) : holesOf [.txt s] = [] := rfl

theorem txtMap_holes {β : Type} (g : β → String) (l : List β) :
    ((l.map (fun j => [Tok.txt (g j)])).map holesOf).flatten = [] := by
  induction l with
  | nil => rfl
  | cons x t ih => simp [holesOf, ih]

theorem txtMap_clean {β : Type} (g : β → String) (l : List β)
    (h : ∀ j ∈ l, countQ (g j) = 0) :
    (l.map (fun j => [Tok.txt (g j)])).all toksClean = true := by
  induction l with
  | nil => rfl
  | cons x t ih =>
    simp only [List.map_cons, List.all_cons, Bool.and_eq_true]
    refine ⟨?_, ih (fun j hj => h j (List.mem_cons_of_mem x hj))⟩
    simp [toksClean, h x (List.mem_cons_self x t)]

theorem pairMap_clean {β : Type} (g : β → String) (v : β → Value) (l : List β)
    (h : ∀ j ∈ l, countQ (g j) = 0) :
    (l.map (fun j => [Tok.txt (g j), Tok.hole (v j)])).all toksClean = true := by
  induction l with
  | nil => rfl
  | cons x t ih =>
    simp only [List.map_cons, List.all_cons, Bool.and_eq_true]
    refine ⟨?_, ih (fun j hj => h j (List.mem_cons_of_mem x hj))⟩
    simp [toksClean, h x (List.mem_cons_self x t)]

theorem wfQuery_sub (table : String) (al : Option String) (sel : List String)
    (joins : List Join) (ws : List WhereNode) (groups : List String) (hs : List Having)
    (orders : List (String × String)) (lim off : Option Int) (fu dist : Bool)
    (cs : List Cte) (us : List UnionItem) (fromRaw : Option String)
    (h : wfQuery (.mk table al sel joins ws groups hs orders lim off fu dist
        cs us fromRaw) = true) :
    wfCtes cs = true ∧ wfWheres ws = true ∧ wfUnions us = true := by
  simp only [wfQuery, Bool.and_eq_true] at h
  exact ⟨h.1.1.2, h.1.1.1.1.1.1.1.1.2, h.1.2⟩

end Nexium

namespace Nexium

theorem isEmpty_eq_nil {α : Type} (l : List α) (h : l.isEmpty = true) : l = [] := by
  cases l
  · rfl
  · simp [List.isEmpty] at h

theorem ne_nil_of_isEmpty_false {α : Type} (l : List α) (h : l.isEmpty = false) :
    l ≠ [] := by
  cases l
  · simp [List.isEmpty] at h
  · exact List.cons_ne_nil _ _

theorem enum_map_value (hs : List Having) :
    hs.enum.map (fun p => p.2.value) = hs.map Having.value := by
  rw [show (fun p : Nat × Having => p.2.value) = (Having.value ∘ Prod.snd) from rfl,
    ← List.map_map, List.enum_map_snd]

theorem hav_fold (x : String) : (x ++ " ") ++ "?" = x ++ " ?" := by
  apply strEq
  simp [String.data_append', dSpace, dQ, dSpaceQ]

theorem flatten_const_nil {α β : Type} (l : List β) :
    (l.map (fun _ => ([] : List α))).flatten = [] := by
  induction l with
  | nil => rfl
  | cons x t ih => simp [ih]

theorem enumFrom_hole_flatten (n : Nat) (hs : List Having) :
    ((hs.enumFrom n).map (fun p => [p.2.value])).flatten = hs.map Having.value := by
  induction hs generalizing n with
  | nil => rfl
  | cons x t ih => simp [List.enumFrom, ih]

theorem enumFrom_map_value (n : Nat) (hs : List Having) :
    (hs.enumFrom n).map (fun p => p.2.value) = hs.map Having.value := by
  induction hs generalizing n with
  | nil => rfl
  | cons x t ih => simp [List.enumFrom, ih]

end Nexium

namespace Nexium

/-- `WITH` / `WITH RECURSIVE` prefix choice (`_compileSelect`). -/
def recPrefixOf (cs : List Cte) : String :=
  if cs.any (fun c => match c with | .mk _ r _ => r) then "WITH RECURSIVE "
  else "WITH "

/-- The FROM clause segment of the instrumented compile. -/
def fromSegT (fromRaw : Option String) (table : String) (al : Option String) :
    List (List Tok) :=
  match fromRaw with
  | some fr => [[Tok.txt ("FROM " ++ fr)]]
  | none =>
    [[Tok.txt ("FROM " ++ escapeId table
      ++ (match al with | some a => " AS " ++ escapeId a | none => ""))]]

/-- The LIMIT clause segment of the instrumented compile. -/
def limSegT (lim : Option Int) : List (List Tok) :=
  match lim with | some n => [[Tok.txt ("LIMIT " ++ toString n)]] | none => []

/-- The OFFSET clause segment of the instrumented compile. -/
def offSegT (off : Option Int) : List (List Tok) :=
  match off with | some n => [[Tok.txt ("OFFSET " ++ toString n)]] | none => []

/-- The alias suffix of the FROM clause. -/
def alSuffix (al : Option String) : String :=
  match al with | some a => " AS " ++ escapeId a | none => ""

set_option maxHeartbeats 1000000 in
/-- The compiled-select pipeline, before union wrapping, agrees between
the instrumented and the plain compiler, with holes = CTE bindings ++
where bindings ++ having bindings. -/
theorem select_assemble
    (table : String) (al : Option String) (sel : List String) (joins : List Join)
    (ws : List WhereNode) (groups : List String) (hs : List Having)
    (orders : List (String × String)) (lim off : Option Int) (fu dist : Bool)
    (cs : List Cte) (us : List UnionItem) (fromRaw : Option String)
    (hwf : wfQuery (.mk table al sel joins ws groups hs orders lim off fu dist
        cs us fromRaw) = true)
    (tssC : List (List Tok)) (tssW : List (List Tok))
    (hcT : compileCteListT cs = .ok tssC)
    (hcS : compileCteList cs = .ok (tssC.map renderToks))
    (hcH : (tssC.map holesOf).flatten = gatherCtes cs)
    (hcC : tssC.all toksClean = true)
    (hwT : compileWheresGoT 0 ws = .ok tssW)
    (hwS : compileWheresGo 0 ws = .ok (tssW.map renderToks))
    (hwH : (tssW.map holesOf).flatten = gatherWheres ws)
    (hwC : tssW.all toksClean = true)
    (hwHead : ws ≠ [] → ∃ s r2 pr, tssW = (Tok.txt ("WHERE " ++ s) :: r2) :: pr
        ∧ headNonWs s = true) :
    ∃ base,
      compileSelectT (.mk table al sel joins ws groups hs orders lim off fu dist
          cs us fromRaw) = wrapUnionsT base us
      ∧ compileSelect (.mk table al sel joins ws groups hs orders lim off fu dist
          cs us fromRaw) = wrapUnions (renderToks base) us
      ∧ holesOf base
        = gatherCtes cs ++ gatherWheres ws ++ (hs.map Having.bindings).flatten
      ∧ toksClean base = true := by
  simp only [wfQuery, Bool.and_eq_true] at hwf
  obtain ⟨⟨⟨⟨⟨⟨⟨⟨⟨⟨⟨⟨h1, h2⟩, h3⟩, h4⟩, h5⟩, h6⟩, h7⟩, h8⟩, h9⟩, h10⟩, h11⟩, h12⟩, h13⟩ := hwf
  replace h1 : countQ table = 0 := by simpa using h1
  replace h3 : ∀ x ∈ sel, countQ x = 0 := by
    simpa [List.all_eq_true] using h3
  replace h6 : ∀ x ∈ groups, countQ x = 0 := by
    simpa [List.all_eq_true] using h6
  refine ⟨joinToksWithSpace (
      (if cs.isEmpty then [] else
        [prependToFirst (recPrefixOf cs) (joinCommaToks tssC)])
      ++ ([[Tok.txt "SELECT"]] ++ (if dist then [[Tok.txt "DISTINCT"]] else [])
          ++ [[Tok.txt (if sel.isEmpty then "*" else strJoin ", " sel)]])
      ++ fromSegT fromRaw table al
      ++ joins.map (fun j =>
          [Tok.txt (if j.type == "CROSS" then "CROSS JOIN " ++ escapeId j.table
            else j.type ++ " JOIN " ++ escapeId j.table ++ " ON "
              ++ escapeId j.first ++ " " ++ j.operator ++ " " ++ escapeId j.second)])
      ++ (if ws.isEmpty then [] else [joinToksWithSpace tssW])
      ++ (if groups.isEmpty then []
          else [[Tok.txt ("GROUP BY " ++ strJoin ", " (groups.map escapeId))]])
      ++ (if hs.isEmpty then []
          else
            [joinToksWithSpace
              ((hs.enum).map (fun p =>
                [Tok.txt ((if p.1 == 0 then "HAVING " else p.2.boolean ++ " ")
                  ++ escapeId p.2.column ++ " " ++ p.2.operator ++ " "),
                 Tok.hole p.2.value]))])
      ++ (if orders.isEmpty then []
          else [[Tok.txt ("ORDER BY " ++ strJoin ", "
            (orders.map (fun o => escapeId o.1 ++ " " ++ o.2)))]])
      ++ limSegT lim ++ offSegT off
      ++ (if fu then [[Tok.txt "FOR UPDATE"]] else [])), ?_, ?_, ?_, ?_⟩
  · simp only [compileSelectT, recPrefixOf, fromSegT, limSegT, offSegT]
    rw [hcT, hwT]
    cases cs <;> cases ws <;> simp [except_bind_ok, except_pure_ok]
  · simp only [compileSelect]
    rw [hcS, hwS]
    cases ws with
    | nil =>
      cases cs <;> cases fromRaw <;> cases lim <;> cases off <;>
        simp [recPrefixOf, fromSegT, limSegT, offSegT, renderToks_join,
          List.map_append, apply_ite (List.map renderToks), renderToks_single,
          renderToks_prepend, renderToks_joinComma, List.map_map,
          Function.comp_def, renderToks_pair, hav_fold, except_bind_ok,
          except_pure_ok]
    | cons w0 wr =>
      have hne : (strJoin " " (tssW.map renderToks) == "") = false := by
        obtain ⟨s0, r2, pr, htss, _⟩ := hwHead (List.cons_ne_nil w0 wr)
        rw [htss]
        simp only [List.map_cons]
        obtain ⟨y, hy⟩ := strJoin_head (renderToks (Tok.txt ("WHERE " ++ s0) :: r2))
          (pr.map renderToks)
        rw [hy]
        refine beq_empty_false_of_head _ 'W'
          (("HERE " ++ s0).data ++ (renderToks r2).data ++ y.data) ?_
        show ((("WHERE " ++ s0) ++ renderToks r2) ++ y).data = _
        simp [String.data_append', dWhereKw, dHereKw]
      have hneP : strJoin " " (tssW.map renderToks) ≠ "" := by
        simpa using hne
      cases cs <;> cases fromRaw <;> cases lim <;> cases off <;>
        simp [hne, hneP, recPrefixOf, fromSegT, limSegT, offSegT, renderToks_join,
          List.map_append, apply_ite (List.map renderToks), renderToks_single,
          renderToks_prepend, renderToks_joinComma, List.map_map,
          Function.comp_def, renderToks_pair, hav_fold, except_bind_ok,
          except_pure_ok]
  · rw [holesOf_join]
    have hhv : (hs.map Having.bindings).flatten = hs.map Having.value := by
      apply having_bindings_flatten
      intro x hx
      have h7a := by simpa [List.all_eq_true, Bool.and_eq_true, beq_iff_eq] using h7
      exact (h7a x hx).2
    rw [hhv]
    cases cs <;> cases ws <;> cases hs <;> cases fromRaw <;> cases lim <;> cases off <;>
      simp [fromSegT, limSegT, offSegT, List.map_append, List.flatten_append,
        apply_ite (List.map holesOf), apply_ite (List.flatten (α := Value)),
        holesOf_single, holesOf_prepend, holesOf_joinComma, holesOf_join,
        txtMap_holes, List.map_map, Function.comp_def, holesOf_pair,
        flatten_singletons, enum_map_value, enumFrom_hole_flatten,
        enumFrom_map_value, flatten_const_nil, List.enum, hcH, hwH, holesOf,
        gatherCtes, gatherWheres]
  · rw [toksClean_join]
    have hsel : countQ (if sel.isEmpty then "*" else strJoin ", " sel) = 0 := by
      split
      · rfl
      · exact countQ_strJoin ", " sel rfl h3
    have c2a : ([[Tok.txt "SELECT"]] : List (List Tok)).all toksClean = true := rfl
    have c2b : ((if dist then [[Tok.txt "DISTINCT"]] else [])
        : List (List Tok)).all toksClean = true := by
      cases dist <;> rfl
    have c2c : ([[Tok.txt (if sel.isEmpty then "*" else strJoin ", " sel)]]
        : List (List Tok)).all toksClean = true := by
      have hx : (countQ (if sel.isEmpty then "*" else strJoin ", " sel) == 0) = true := by
        rw [hsel]
        rfl
      show ((countQ (if sel.isEmpty then "*" else strJoin ", " sel) == 0 && true)
        && true) = true
      rw [hx]
      rfl
    have c3 : (fromSegT fromRaw table al).all toksClean = true := by
      cases fromRaw with
      | some fr =>
        have : countQ fr = 0 := by simpa using h13
        have hbig : countQ ("FROM " ++ fr) = 0 := by
          rw [countQ_append, this]
          rfl
        simp [fromSegT, toksClean, hbig]
      | none =>
        have hal : countQ (alSuffix al) = 0 := by
          cases al with
          | some a =>
            have ha : countQ a = 0 := by simpa using h2
            show countQ (" AS " ++ escapeId a) = 0
            rw [countQ_append, countQ_escapeId a ha]
            rfl
          | none => rfl
        have hbig : countQ ("FROM " ++ escapeId table ++ alSuffix al) = 0 := by
          rw [countQ_append, countQ_append, countQ_escapeId table h1, hal]
          rfl
        show ([[Tok.txt ("FROM " ++ escapeId table ++ alSuffix al)]]
          : List (List Tok)).all toksClean = true
        simp [toksClean, hbig]
    have c4 : (joins.map (fun j =>
        [Tok.txt (if j.type == "CROSS" then "CROSS JOIN " ++ escapeId j.table
          else j.type ++ " JOIN " ++ escapeId j.table ++ " ON "
            ++ escapeId j.first ++ " " ++ j.operator ++ " " ++ escapeId j.second)])
        ).all toksClean = true := by
      apply txtMap_clean
      intro j hj
      have hj4 := by simpa [List.all_eq_true, Bool.and_eq_true, beq_iff_eq] using h4
      obtain ⟨⟨⟨⟨ht, htab⟩, hf⟩, hop⟩, hsec⟩ := hj4 j hj
      split <;>
        simp [countQ_append, countQ_escapeId _ htab, countQ_escapeId _ hf,
          countQ_escapeId _ hsec, ht, hop] <;> decide
    have c6 : ((if groups.isEmpty then []
        else [[Tok.txt ("GROUP BY " ++ strJoin ", " (groups.map escapeId))]])
        : List (List Tok)).all toksClean = true := by
      split
      · rfl
      · have : countQ (strJoin ", " (groups.map escapeId)) = 0 := by
          refine countQ_strJoin ", " (groups.map escapeId) rfl ?_
          intro p hp
          obtain ⟨g, hg, hge⟩ := List.mem_map.1 hp
          rw [← hge]
          exact countQ_escapeId g (h6 g hg)
        simp [toksClean, countQ_append, this]
        rfl
    have c7 : ((if hs.isEmpty then []
        else
          [joinToksWithSpace
            ((hs.enum).map (fun p =>
              [Tok.txt ((if p.1 == 0 then "HAVING " else p.2.boolean ++ " ")
                ++ escapeId p.2.column ++ " " ++ p.2.operator ++ " "),
               Tok.hole p.2.value]))]) : List (List Tok)).all toksClean = true := by
      split
      · rfl
      · have h7a := by simpa [List.all_eq_true, Bool.and_eq_true, beq_iff_eq] using h7
        simp only [List.all_cons, List.all_nil, Bool.and_true, toksClean_join]
        apply pairMap_clean
          (fun p : Nat × Having => (if p.1 == 0 then "HAVING " else p.2.boolean ++ " ")
            ++ escapeId p.2.column ++ " " ++ p.2.operator ++ " ")
          (fun p : Nat × Having => p.2.value)
        intro p hp
        obtain ⟨⟨⟨hcol, hop⟩, hbool⟩, _⟩ := h7a p.2 (snd_mem_of_mem_enumFrom hs 0 p hp)
        have hpre : countQ (if p.1 == 0 then "HAVING " else p.2.boolean ++ " ") = 0 := by
          split
          · rfl
          · rw [countQ_append, hbool]
            rfl
        rw [countQ_append, countQ_append, countQ_append, countQ_append,
          hpre, countQ_escapeId _ hcol, hop]
        rfl
    have c8 : ((if orders.isEmpty then []
        else [[Tok.txt ("ORDER BY " ++ strJoin ", "
          (orders.map (fun o => escapeId o.1 ++ " " ++ o.2)))]])
        : List (List Tok)).all toksClean = true := by
      split
      · rfl
      · have h8a := by simpa [List.all_eq_true, Bool.and_eq_true, beq_iff_eq] using h8
        have : countQ (strJoin ", "
            (orders.map (fun o => escapeId o.1 ++ " " ++ o.2))) = 0 := by
          refine countQ_strJoin ", "
            (orders.map (fun o => escapeId o.1 ++ " " ++ o.2)) rfl ?_
          intro p hp
          obtain ⟨o, ho, hoe⟩ := List.mem_map.1 hp
          obtain ⟨ho1, ho2⟩ := h8a o.1 o.2 ho
          rw [← hoe, countQ_append, countQ_append, countQ_escapeId _ ho1, ho2]
          rfl
        simp [toksClean, countQ_append, this]
        rfl
    have c9 : (limSegT lim).all toksClean = true := by
      cases lim with
      | some n =>
        have : countQ (toString n) = 0 := by simpa using h9
        simp [limSegT, toksClean, countQ_append, this]
        rfl
      | none => rfl
    have c10 : (offSegT off).all toksClean = true := by
      cases off with
      | some n =>
        have : countQ (toString n) = 0 := by simpa using h10
        simp [offSegT, toksClean, countQ_append, this]
        rfl
      | none => rfl
    have c1 : ((if cs.isEmpty then [] else
        [prependToFirst (recPrefixOf cs) (joinCommaToks tssC)])
        : List (List Tok)).all toksClean = true := by
      split
      · rfl
      · have hrp : countQ (recPrefixOf cs) = 0 := by
          unfold recPrefixOf
          split <;> rfl
        simp [toksClean_prepend _ _ hrp, toksClean_joinComma, hcC]
    have c5 : ((if ws.isEmpty then [] else [joinToksWithSpace tssW])
        : List (List Tok)).all toksClean = true := by
      split
      · rfl
      · simp [toksClean_join, hwC]
    have c11 : ((if fu then [[Tok.txt "FOR UPDATE"]] else [])
        : List (List Tok)).all toksClean = true := by
      cases fu <;> rfl
    simp only [List.all_append]
    rw [c1, c2a, c2b, c2c, c3, c4, c5, c6, c7, c8, c9, c10, c11]
    rfl

end Nexium

namespace Nexium

mutual

/-- Instrumented/plain compile agreement for whole query descriptors. -/
theorem fid_select : ∀ (q : Query), wfQuery q = true → SelectOut q
  | .mk table al sel joins ws groups hs orders lim off fu dist cs us fromRaw, hwf => by
    obtain ⟨hc, hw, hu⟩ :=
      wfQuery_sub table al sel joins ws groups hs orders lim off fu dist cs us fromRaw hwf
    obtain ⟨tssC, hcT, hcS, hcH, hcC⟩ := fid_ctes cs hc
    obtain ⟨tssW, hwT, hwS, hwH, hwC, hwHd⟩ := fid_wheres ws hw 0
    obtain ⟨base, hbT, hbS, hbH, hbC⟩ :=
      select_assemble table al sel joins ws groups hs orders lim off fu dist cs us
        fromRaw hwf tssC tssW hcT hcS hcH hcC hwT hwS hwH hwC
        (fun hne => hwHd rfl hne)
    obtain ⟨ts2, huT, huS, huH, huC⟩ := fid_unions us hu base
    refine ⟨ts2, ?_, ?_, ?_, huC hbC⟩
    · rw [hbT]
      exact huT
    · rw [hbS]
      exact huS
    · rw [huH, hbH]
      rfl

theorem fid_ctes : ∀ (cs : List Cte), wfCtes cs = true → CtesOut cs
  | [], _ => ⟨[], rfl, rfl, rfl, rfl⟩
  | .mk name r (.qb q) :: rest, hwf => by
    have h3 : countQ name = 0 ∧ wfQuery q = true ∧ wfCtes rest = true := by
      simpa [wfCtes, Bool.and_eq_true, beq_iff_eq, and_assoc] using hwf
    exact cte_cons_qb name r q rest h3.1 (fid_select q h3.2.1) (fid_ctes rest h3.2.2)
  | .mk name r (.raw s2) :: rest, hwf => by
    have h3 : countQ name = 0 ∧ countQ s2 = 0 ∧ wfCtes rest = true := by
      simpa [wfCtes, Bool.and_eq_true, beq_iff_eq, and_assoc] using hwf
    exact cte_cons_raw name r s2 rest h3.1 h3.2.1 (fid_ctes rest h3.2.2)

theorem fid_unions : ∀ (us : List UnionItem), wfUnions us = true → ∀ ts, UnionsOut ts us
  | [], _, ts => ⟨ts, rfl, rfl, (List.append_nil _).symm, fun h => h⟩
  | .mk ty (.qb q) :: rest, hwf, ts => by
    have h3 : countQ ty = 0 ∧ wfQuery q = true ∧ wfUnions rest = true := by
      simpa [wfUnions, Bool.and_eq_true, beq_iff_eq, and_assoc] using hwf
    exact union_cons_qb ty q rest ts h3.1 (fid_select q h3.2.1)
      (fun ts2 => fid_unions rest h3.2.2 ts2)
  | .mk ty (.raw s2) :: rest, hwf, ts => by
    have h3 : countQ ty = 0 ∧ countQ s2 = 0 ∧ wfUnions rest = true := by
      simpa [wfUnions, Bool.and_eq_true, beq_iff_eq, and_assoc] using hwf
    exact union_cons_raw ty s2 rest ts h3.1 h3.2.1
      (fun ts2 => fid_unions rest h3.2.2 ts2)

theorem fid_wheres : ∀ (ws : List WhereNode), wfWheres ws = true → ∀ i, WheresOut i ws
  | [], _, i => ⟨[], rfl, rfl, rfl, rfl, fun _ hne => absurd rfl hne⟩
  | w :: rest, hwf, i => by
    have h3 : wfWhere w = true ∧ wfWheres rest = true := by
      simpa [wfWheres, Bool.and_eq_true] using hwf
    exact wheres_cons i w rest (countQ_boolOf w h3.1) (fid_body w h3.1)
      (fid_wheres rest h3.2 (i + 1))

theorem fid_body : ∀ (w : WhereNode), wfWhere w = true → BodyOut w
  | .basic b col op v bs, h => body_basic b col op v bs h
  | .raw b r bs, h => body_raw b r bs h
  | .columns b f op sec, h => body_columns b f op sec h
  | .nested b (.mk t a s2 j ws g hv o l o2 f d c u fr) bs, h => by
    simp only [wfWhere, Bool.and_eq_true, beq_iff_eq] at h
    obtain ⟨⟨⟨⟨⟨hb, hq⟩, hhv⟩, hc⟩, hu⟩, hbs⟩ := h
    have hv0 : hv = [] := isEmpty_eq_nil hv hhv
    have hc0 : c = [] := isEmpty_eq_nil c hc
    have hu0 : u = [] := isEmpty_eq_nil u hu
    subst hv0 hc0 hu0
    have hws := (wfQuery_sub t a s2 j ws g [] o l o2 f d [] [] fr hq).2.1
    have hbs2 : bs = gatherWheres ws := by
      simpa [gatherBindings, gatherCtes, gatherUnions] using hbs
    exact body_nested b t a s2 j ws g o l o2 f d fr bs hbs2 (fid_wheres ws hws 0)
  | .inW b col vals bs, h => body_inW b col vals bs h
  | .notInW b col vals bs, h => body_notInW b col vals bs h
  | .nullW b col neg, h => body_nullW b col neg h
  | .between b col lo hi neg bs, h => body_between b col lo hi neg bs h
  | .existsW b q bs, h => by
    simp only [wfWhere, Bool.and_eq_true, beq_iff_eq] at h
    exact body_existsW b q bs h.2 (fid_select q h.1.2)
  | .notExistsW b q bs, h => by
    simp only [wfWhere, Bool.and_eq_true, beq_iff_eq] at h
    exact body_notExistsW b q bs h.2 (fid_select q h.1.2)
  | .rawExists b r, h => body_rawExists b r h
  | .rawNotExists b r, h => body_rawNotExists b r h
  | .untyped x, h => by simp [wfWhere] at h

end

end Nexium

namespace Nexium

/-- C3 (amended): for every well-formed query descriptor — one whose
`bindings` fields agree with the structural literals that the builder
methods store, whose raw fragments carry exactly one `?` per binding and
start with a solid character, and whose nested sub-builders contribute
bindings only through their predicate lists — `_compileSelect` succeeds,
the number of `?` placeholders in the compiled SQL equals the length of
`_gatherBindings`, and the instrumented compile shows that the values
sitting at those placeholder positions are exactly `_gatherBindings` in
order (CTEs, then WHERE predicates in declaration order, then HAVING,
then unions).  Without the nested-sub-builder restriction the claim is
false: see the counterexample, where a nested group carrying a HAVING
binding gathers two bindings but emits one placeholder. -/
theorem binding_order_fidelity (q : Query) (h : wfQuery q = true) :
    ∃ sql, compileSelect q = .ok sql
      ∧ countQ sql = (gatherBindings q).length
      ∧ ∃ ts, compileSelectT q = .ok ts ∧ renderToks ts = sql
          ∧ holesOf ts = gatherBindings q ∧ toksClean ts = true := by
  obtain ⟨ts, hT, hS, hH, hC⟩ := fid_select q h
  exact ⟨renderToks ts, hS, by rw [countQ_render_of_clean ts hC, hH], ts, hT, rfl, hH, hC⟩

/-- Witness: `users.where('age','>',21).whereIn('role_id',[1,2])` is
well-formed; its compiled SQL carries one `?` per gathered binding and
the instrumented holes replay `[21, 1, 2]`. -/
theorem binding_order_fidelity_witness :
    wfQuery (((mkQuery "users").where3 "age" ">" (.vnum 21)).whereIn "role_id"
      [.vnum 1, .vnum 2]) = true
    ∧ ∃ sql, compileSelect (((mkQuery "users").where3 "age" ">" (.vnum 21)).whereIn
          "role_id" [.vnum 1, .vnum 2]) = .ok sql
        ∧ countQ sql = (gatherBindings (((mkQuery "users").where3 "age" ">"
            (.vnum 21)).whereIn "role_id" [.vnum 1, .vnum 2])).length
        ∧ ∃ ts, compileSelectT (((mkQuery "users").where3 "age" ">"
              (.vnum 21)).whereIn "role_id" [.vnum 1, .vnum 2]) = .ok ts
            ∧ renderToks ts = sql
            ∧ holesOf ts = gatherBindings (((mkQuery "users").where3 "age" ">"
                (.vnum 21)).whereIn "role_id" [.vnum 1, .vnum 2])
            ∧ toksClean ts = true :=
  ⟨by decide, binding_order_fidelity _ (by decide)⟩

/-- Counterexample to the frozen C3: a nested sub-builder with a HAVING
clause.  `whereNested` stores the sub-builder's full `_gatherBindings`
(`[1, 2]`, including the HAVING binding `2`) as the node's bindings, but
`_compileWheres`'s `nested` branch compiles only the sub-builder's WHERE
clauses, so the SQL text contains a single `?`: positional substitution
would shift every later parameter by one. -/
theorem nested_having_binding_mismatch :
    compileSelect ((mkQuery "users").whereNested
        (((mkQuery "t").where3 "a" "=" (.vnum 1)).having3 "h" "=" (.vnum 2)))
      = .ok "SELECT * FROM `users` WHERE (`a` = ?)"
    ∧ countQ "SELECT * FROM `users` WHERE (`a` = ?)" = 1
    ∧ (gatherBindings ((mkQuery "users").whereNested
        (((mkQuery "t").where3 "a" "=" (.vnum 1)).having3 "h" "=" (.vnum 2)))).length
      = 2 := by
  refine ⟨by rfl, by decide, by decide⟩

end Nexium

namespace Nexium

/-! ## Heap model for `_clone()` aliasing (C5)

JavaScript builders are mutable objects; `where`-nodes of type
`nested`/`exists`/`notExists` and CTE/union entries hold object
references to sub-builders.  The heap model makes those references
explicit: builders live in an append-only allocation list and
sub-builders are referenced by index.  Mutating a builder is replacing
the heap entry at its index; `materializeB` reads the pure `Query`
descriptor back out of the heap (fuel-bounded, since reference chains
are data, not structure). -/

/-- A builder reference (JS object identity). -/
abbrev BId := Nat

/-- A where node as stored on a mutable builder: sub-builders by
reference (`query:` field), everything else by value. -/
inductive HWhere where
  | basic (b col op : String) (v : Value) (bs : List Value)
  | raw (b r : String) (bs : List Value)
  | columns (b first op second : String)
  | nested (b : String) (sub : BId) (bs : List Value)
  | inW (b col : String) (vals : List Value) (bs : List Value)
  | notInW (b col : String) (vals : List Value) (bs : List Value)
  | nullW (b col : String) (neg : Bool)
  | between (b col : String) (lo hi : Value) (neg : Bool) (bs : List Value)
  | existsW (b : String) (sub : BId) (bs : List Value)
  | notExistsW (b : String) (sub : BId) (bs : List Value)
  | rawExists (b r : String)
  | rawNotExists (b r : String)
  | untyped (raw : String)

/-- A CTE/union sub-query by reference or raw text. -/
inductive HSubQ where
  | qb (b : BId)
  | raw (s : String)

inductive HCte where
  | mk (name : String) (r : Bool) (sub : HSubQ)

inductive HUnion where
  | mk (ty : String) (sub : HSubQ)

/-- The mutable state of one `QueryBuilder` object. -/
structure HBuilder where
  table : String
  tableAlias : Option String := none
  select : List String := ["*"]
  joins : List Join := []
  wheres : List HWhere := []
  groups : List String := []
  havings : List Having := []
  orders : List (String × String) := []
  limitOpt : Option Int := none
  offsetOpt : Option Int := none
  forUpdateFlag : Bool := false
  distinctFlag : Bool := false
  ctes : List HCte := []
  unions : List HUnion := []
  fromRaw : Option String := none

/-- `new QueryBuilder(table, modelClass)`. -/
def mkHBuilder (table : String) : HBuilder := { table := table }

/-- The allocation store. -/
abbrev Heap := List HBuilder

def heapGet (h : Heap) (b : BId) : Option HBuilder := h.get? b

/-- The stored `bindings` array of a heap where node. -/
def HWhere.hBindingsOf : HWhere → List Value
  | .basic _ _ _ _ bs => bs
  | .raw _ _ bs => bs
  | .columns .. => []
  | .nested _ _ bs => bs
  | .inW _ _ _ bs => bs
  | .notInW _ _ _ bs => bs
  | .nullW .. => []
  | .between _ _ _ _ _ bs => bs
  | .existsW _ _ bs => bs
  | .notExistsW _ _ bs => bs
  | .rawExists .. => []
  | .rawNotExists .. => []
  | .untyped _ => []

/-- `_gatherBindings()` of a builder whose `_ctes` and `_unions` are
empty — exactly the shape every builder constructed by
`_rehydrateWheres`/`_rehydrateCTEs`/`_rehydrateUnions` has: where-node
bindings in order, then having bindings. -/
def hGatherShallow (qb : HBuilder) : List Value :=
  (qb.wheres.map HWhere.hBindingsOf).flatten
    ++ (qb.havings.map Having.bindings).flatten

/-- Builder references reachable in one step from a where node. -/
def refsOfW : HWhere → List BId
  | .nested _ sub _ => [sub]
  | .existsW _ sub _ => [sub]
  | .notExistsW _ sub _ => [sub]
  | _ => []

def refsOfC : HCte → List BId
  | .mk _ _ (.qb b) => [b]
  | .mk _ _ (.raw _) => []

def refsOfU : HUnion → List BId
  | .mk _ (.qb b) => [b]
  | .mk _ (.raw _) => []

/-- Builder references reachable in one step from a builder. -/
def refsOf (hb : HBuilder) : List BId :=
  (hb.wheres.map refsOfW).flatten ++ (hb.ctes.map refsOfC).flatten
    ++ (hb.unions.map refsOfU).flatten

/-- Every reference in the heap points at an allocated builder. -/
def closedHeap (h : Heap) : Bool :=
  h.all (fun hb => (refsOf hb).all (fun r => r < h.length))

mutual

/-- Read the pure query descriptor out of the heap (`fuel` bounds the
reference-chain depth; all functions fail on exhausted fuel). -/
def materializeB : Nat → Heap → BId → Option Query
  | 0, _, _ => none
  | fuel + 1, h, b => do
    let hb ← heapGet h b
    let ws ← hb.wheres.mapM (materializeW fuel h)
    let cs ← hb.ctes.mapM (fun c =>
      match c with
      | .mk name r (.qb sub) => do
          let q ← materializeB fuel h sub
          pure (Cte.mk name r (.qb q))
      | .mk name r (.raw s) => pure (Cte.mk name r (.raw s)))
    let us ← hb.unions.mapM (fun u =>
      match u with
      | .mk ty (.qb sub) => do
          let q ← materializeB fuel h sub
          pure (UnionItem.mk ty (.qb q))
      | .mk ty (.raw s) => pure (UnionItem.mk ty (.raw s)))
    pure (Query.mk hb.table hb.tableAlias hb.select hb.joins ws hb.groups
      hb.havings hb.orders hb.limitOpt hb.offsetOpt hb.forUpdateFlag
      hb.distinctFlag cs us hb.fromRaw)

def materializeW : Nat → Heap → HWhere → Option WhereNode
  | 0, _, _ => none
  | fuel + 1, h, w =>
    match w with
    | .basic b col op v bs => pure (.basic b col op v bs)
    | .raw b r bs => pure (.raw b r bs)
    | .columns b f op sec => pure (.columns b f op sec)
    | .nested b sub bs => do
        let q ← materializeB fuel h sub
        pure (.nested b q bs)
    | .inW b col vals bs => pure (.inW b col vals bs)
    | .notInW b col vals bs => pure (.notInW b col vals bs)
    | .nullW b col neg => pure (.nullW b col neg)
    | .between b col lo hi neg bs => pure (.between b col lo hi neg bs)
    | .existsW b sub bs => do
        let q ← materializeB fuel h sub
        pure (.existsW b q bs)
    | .notExistsW b sub bs => do
        let q ← materializeB fuel h sub
        pure (.notExistsW b q bs)
    | .rawExists b r => pure (.rawExists b r)
    | .rawNotExists b r => pure (.rawNotExists b r)
    | .untyped s => pure (.untyped s)

end

mutual

/-- `_rehydrateWheres(ws)` of the cloning builder (whose table is
`selfTable`): nested/exists/notExists nodes get freshly allocated
sub-builders with recursively rehydrated predicate lists and
recomputed bindings; plain nodes are deep-copied values. -/
def rehydrateWs : Nat → String → Heap → List HWhere →
    Option (Heap × List HWhere)
  | 0, _, _, _ => none
  | _ + 1, _, h, [] => some (h, [])
  | fuel + 1, t, h, w :: rest => do
    let (h1, w') ← rehydrateW fuel t h w
    let (h2, rest') ← rehydrateWs fuel t h1 rest
    some (h2, w' :: rest')

def rehydrateW : Nat → String → Heap → HWhere → Option (Heap × HWhere)
  | 0, _, _, _ => none
  | fuel + 1, t, h, w =>
    match w with
    | .nested b sub bs => do
        let subB ← heapGet h sub
        let (h1, ws') ← rehydrateWs fuel t h subB.wheres
        let qb : HBuilder := { mkHBuilder t with
          wheres := ws', joins := subB.joins, groups := subB.groups,
          havings := subB.havings, orders := subB.orders,
          limitOpt := subB.limitOpt, offsetOpt := subB.offsetOpt,
          forUpdateFlag := subB.forUpdateFlag, select := subB.select }
        some (h1 ++ [qb], .nested b h1.length (hGatherShallow qb))
    | .existsW b sub bs => do
        let subB ← heapGet h sub
        let (h1, ws') ← rehydrateWs fuel t h subB.wheres
        let qb : HBuilder := { mkHBuilder subB.table with
          wheres := ws', select := subB.select }
        some (h1 ++ [qb], .existsW b h1.length (hGatherShallow qb))
    | .notExistsW b sub bs => do
        let subB ← heapGet h sub
        let (h1, ws') ← rehydrateWs fuel t h subB.wheres
        let qb : HBuilder := { mkHBuilder subB.table with
          wheres := ws', select := subB.select }
        some (h1 ++ [qb], .notExistsW b h1.length (hGatherShallow qb))
    | plain => some (h, plain)

end

/-- One CTE entry of `_rehydrateCTEs`: a referenced sub-builder is
reallocated with rehydrated predicates and copied select list. -/
def rehydrateCteItem (fuel : Nat) (t : String) (h : Heap) :
    HCte → Option (Heap × HCte)
  | .mk name r (.qb sub) => do
      let subB ← heapGet h sub
      let (h0, ws') ← rehydrateWs fuel t h subB.wheres
      let qb : HBuilder := { mkHBuilder subB.table with
        wheres := ws', select := subB.select }
      some (h0 ++ [qb], HCte.mk name r (.qb h0.length))
  | .mk name r (.raw s) => some (h, HCte.mk name r (.raw s))

/-- `_rehydrateCTEs(ctes)`. -/
def rehydrateCs : Nat → String → Heap → List HCte → Option (Heap × List HCte)
  | 0, _, _, _ => none
  | _ + 1, _, h, [] => some (h, [])
  | fuel + 1, t, h, c :: rest => do
    let (h1, c') ← rehydrateCteItem fuel t h c
    let (h2, rest') ← rehydrateCs fuel t h1 rest
    some (h2, c' :: rest')

/-- One union entry of `_rehydrateUnions`. -/
def rehydrateUnionItem (fuel : Nat) (t : String) (h : Heap) :
    HUnion → Option (Heap × HUnion)
  | .mk ty (.qb sub) => do
      let subB ← heapGet h sub
      let (h0, ws') ← rehydrateWs fuel t h subB.wheres
      let qb : HBuilder := { mkHBuilder subB.table with
        wheres := ws', select := subB.select }
      some (h0 ++ [qb], HUnion.mk ty (.qb h0.length))
  | .mk ty (.raw s) => some (h, HUnion.mk ty (.raw s))

/-- `_rehydrateUnions(unions)`. -/
def rehydrateUs : Nat → String → Heap → List HUnion →
    Option (Heap × List HUnion)
  | 0, _, _, _ => none
  | _ + 1, _, h, [] => some (h, [])
  | fuel + 1, t, h, u :: rest => do
    let (h1, u') ← rehydrateUnionItem fuel t h u
    let (h2, rest') ← rehydrateUs fuel t h1 rest
    some (h2, u' :: rest')

/-- `_clone()`: a fresh builder with all scalar/array fields copied by
value and every sub-builder reachable through wheres/CTEs/unions
reallocated. -/
def cloneH : Nat → Heap → BId → Option (Heap × BId)
  | 0, _, _ => none
  | fuel + 1, h, b => do
    let src ← heapGet h b
    let (h1, ws') ← rehydrateWs fuel src.table h src.wheres
    let (h2, cs') ← rehydrateCs fuel src.table h1 src.ctes
    let (h3, us') ← rehydrateUs fuel src.table h2 src.unions
    let c : HBuilder := { mkHBuilder src.table with
      tableAlias := src.tableAlias,
      select := src.select, joins := src.joins, wheres := ws',
      groups := src.groups, havings := src.havings, orders := src.orders,
      limitOpt := src.limitOpt, offsetOpt := src.offsetOpt,
      forUpdateFlag := src.forUpdateFlag, distinctFlag := src.distinctFlag,
      ctes := cs', unions := us', fromRaw := src.fromRaw }
    some (h3 ++ [c], h3.length)

end Nexium

namespace Nexium

/-! ### Heap frame lemmas -/

theorem hset_append_right {α : Type} (l1 l2 : List α) (i : Nat) (x : α)
    (h : l1.length ≤ i) : (l1 ++ l2).set i x = l1 ++ l2.set (i - l1.length) x := by
  induction l1 generalizing i with
  | nil => simp
  | cons a t ih =>
    cases i with
    | zero => simp at h
    | succ n =>
      show a :: (t ++ l2).set n x = _
      rw [ih n (by simpa using h)]
      simp [Nat.succ_sub_succ]

theorem heapGet_append_left (h ext : Heap) (b : BId) (hb : b < h.length) :
    heapGet (h ++ ext) b = heapGet h b := by
  show (h ++ ext).get? b = h.get? b
  simp only [List.get?_eq_getElem?]
  exact List.getElem?_append_left hb

theorem opt_bind_some {α β : Type} (a : α) (f : α → Option β) :
    ((some a : Option α) >>= f) = f a := rfl

theorem mapM_congr_opt {α β : Type} (f g : α → Option β) (l : List α)
    (h : ∀ x ∈ l, f x = g x) : l.mapM f = l.mapM g := by
  induction l with
  | nil => rfl
  | cons a t ih =>
    rw [List.mapM_cons, List.mapM_cons, h a (List.mem_cons_self a t),
      ih (fun x hx => h x (List.mem_cons_of_mem a hx))]

theorem all_of_flatten_map {α β : Type} (f : α → List β) (p : β → Bool) (l : List α)
    (h : ((l.map f).flatten.all p) = true) :
    ∀ x ∈ l, (f x).all p = true := by
  induction l with
  | nil => intro x hx; simp at hx
  | cons a t ih =>
    simp only [List.map_cons, List.flatten_cons, List.all_append,
      Bool.and_eq_true] at h
    intro x hx
    rcases List.mem_cons.1 hx with h0 | h0
    · rw [h0]; exact h.1
    · exact ih h.2 x h0

theorem refs_of_heapGet (h : Heap) (b : BId) (hb : HBuilder)
    (hcl : closedHeap h = true) (hg : heapGet h b = some hb) :
    (refsOf hb).all (fun r => r < h.length) = true := by
  have hmem : hb ∈ h := by
    have hg2 : h[b]? = some hb := by
      simpa [heapGet, List.get?_eq_getElem?] using hg
    exact List.mem_iff_getElem?.2 ⟨b, hg2⟩
  simp only [List.all_eq_true]
  intro r hr
  have hall : ∀ x ∈ h, ∀ r2 ∈ refsOf x, r2 < h.length := by
    simpa [closedHeap, List.all_eq_true] using hcl
  simpa using hall hb hmem r hr

end Nexium

namespace Nexium

theorem opt_bind_congr2 {α β : Type} {x y : Option α} {f g : α → Option β}
    (hxy : x = y) (hfg : ∀ a, y = some a → f a = g a) : (x >>= f) = (y >>= g) := by
  subst hxy
  cases hx : x with
  | none => rfl
  | some a => exact hfg a hx

mutual

/-- Materialization of a builder allocated below `h.length` in a closed
heap ignores everything past `h.length`. -/
theorem matB_agree : ∀ (fuel : Nat) (h ext1 ext2 : Heap), closedHeap h = true →
    ∀ b, b < h.length →
      materializeB fuel (h ++ ext1) b = materializeB fuel (h ++ ext2) b
  | 0, _, _, _, _, _, _ => rfl
  | fuel + 1, h, ext1, ext2, hcl, b, hblt => by
    simp only [materializeB]
    refine opt_bind_congr2
      ((heapGet_append_left h ext1 b hblt).trans
        (heapGet_append_left h ext2 b hblt).symm) ?_
    intro hb hg
    have hg0 : heapGet h b = some hb :=
      (heapGet_append_left h ext2 b hblt).symm.trans hg
    have hrefs := refs_of_heapGet h b hb hcl hg0
    simp only [refsOf, List.all_append, Bool.and_eq_true] at hrefs
    obtain ⟨⟨hrw, hrc⟩, hru⟩ := hrefs
    have hWs : hb.wheres.mapM (materializeW fuel (h ++ ext1))
        = hb.wheres.mapM (materializeW fuel (h ++ ext2)) := by
      apply mapM_congr_opt
      intro w hw
      exact matW_agree fuel h ext1 ext2 hcl w
        (all_of_flatten_map refsOfW _ hb.wheres hrw w hw)
    refine opt_bind_congr2 hWs ?_
    intro ws _
    have hCs : hb.ctes.mapM (fun c =>
          match c with
          | HCte.mk name r (.qb sub) => do
              let q ← materializeB fuel (h ++ ext1) sub
              pure (Cte.mk name r (.qb q))
          | HCte.mk name r (.raw s) => pure (Cte.mk name r (.raw s)))
        = hb.ctes.mapM (fun c =>
          match c with
          | HCte.mk name r (.qb sub) => do
              let q ← materializeB fuel (h ++ ext2) sub
              pure (Cte.mk name r (.qb q))
          | HCte.mk name r (.raw s) => pure (Cte.mk name r (.raw s))) := by
      apply mapM_congr_opt
      intro c hc
      match c with
      | HCte.mk name r (.qb sub) =>
        have hsub : sub < h.length := by
          have := all_of_flatten_map refsOfC _ hb.ctes hrc _ hc
          simpa [refsOfC] using this
        show (do
            let q ← materializeB fuel (h ++ ext1) sub
            pure (Cte.mk name r (.qb q)))
          = (do
            let q ← materializeB fuel (h ++ ext2) sub
            pure (Cte.mk name r (.qb q)))
        rw [matB_agree fuel h ext1 ext2 hcl sub hsub]
      | HCte.mk name r (.raw s) => rfl
    refine opt_bind_congr2 hCs ?_
    intro cs _
    have hUs : hb.unions.mapM (fun u =>
          match u with
          | HUnion.mk ty (.qb sub) => do
              let q ← materializeB fuel (h ++ ext1) sub
              pure (UnionItem.mk ty (.qb q))
          | HUnion.mk ty (.raw s) => pure (UnionItem.mk ty (.raw s)))
        = hb.unions.mapM (fun u =>
          match u with
          | HUnion.mk ty (.qb sub) => do
              let q ← materializeB fuel (h ++ ext2) sub
              pure (UnionItem.mk ty (.qb q))
          | HUnion.mk ty (.raw s) => pure (UnionItem.mk ty (.raw s))) := by
      apply mapM_congr_opt
      intro u hu
      match u with
      | HUnion.mk ty (.qb sub) =>
        have hsub : sub < h.length := by
          have := all_of_flatten_map refsOfU _ hb.unions hru _ hu
          simpa [refsOfU] using this
        show (do
            let q ← materializeB fuel (h ++ ext1) sub
            pure (UnionItem.mk ty (.qb q)))
          = (do
            let q ← materializeB fuel (h ++ ext2) sub
            pure (UnionItem.mk ty (.qb q)))
        rw [matB_agree fuel h ext1 ext2 hcl sub hsub]
      | HUnion.mk ty (.raw s) => rfl
    refine opt_bind_congr2 hUs ?_
    intro us _
    rfl

theorem matW_agree : ∀ (fuel : Nat) (h ext1 ext2 : Heap), closedHeap h = true →
    ∀ w, (refsOfW w).all (fun r => r < h.length) = true →
      materializeW fuel (h ++ ext1) w = materializeW fuel (h ++ ext2) w
  | 0, _, _, _, _, _, _ => rfl
  | fuel + 1, h, ext1, ext2, hcl, w, hr => by
    cases w with
    | nested b sub bs =>
      have hsub : sub < h.length := by simpa [refsOfW] using hr
      simp only [materializeW]
      rw [matB_agree fuel h ext1 ext2 hcl sub hsub]
    | existsW b sub bs =>
      have hsub : sub < h.length := by simpa [refsOfW] using hr
      simp only [materializeW]
      rw [matB_agree fuel h ext1 ext2 hcl sub hsub]
    | notExistsW b sub bs =>
      have hsub : sub < h.length := by simpa [refsOfW] using hr
      simp only [materializeW]
      rw [matB_agree fuel h ext1 ext2 hcl sub hsub]
    | basic b col op v bs => rfl
    | raw b r bs => rfl
    | columns b f op sec => rfl
    | inW b col vals bs => rfl
    | notInW b col vals bs => rfl
    | nullW b col neg => rfl
    | between b col lo hi neg bs => rfl
    | rawExists b r => rfl
    | rawNotExists b r => rfl
    | untyped s => rfl

end

end Nexium

namespace Nexium

mutual

/-- `_rehydrateWheres` only allocates: the output heap extends the input. -/
theorem rehydrateWs_ext : ∀ (fuel : Nat) (t : String) (h : Heap) (ws : List HWhere)
    (h2 : Heap) (ws2 : List HWhere),
    rehydrateWs fuel t h ws = some (h2, ws2) → ∃ ext, h2 = h ++ ext
  | 0, _, _, _, _, _, hyp => by simp [rehydrateWs] at hyp
  | fuel + 1, t, h, [], h2, ws2, hyp => by
    simp only [rehydrateWs, Option.some.injEq, Prod.mk.injEq] at hyp
    exact ⟨[], by rw [← hyp.1, List.append_nil]⟩
  | fuel + 1, t, h, w :: rest, h2, ws2, hyp => by
    simp only [rehydrateWs] at hyp
    cases hw : rehydrateW fuel t h w with
    | none => rw [hw] at hyp; simp at hyp
    | some p =>
      obtain ⟨h1, w2⟩ := p
      rw [hw] at hyp
      simp only [opt_bind_some] at hyp
      cases hrest : rehydrateWs fuel t h1 rest with
      | none => rw [hrest] at hyp; simp at hyp
      | some q =>
        obtain ⟨hh2, rest2⟩ := q
        rw [hrest] at hyp
        simp only [opt_bind_some, Option.some.injEq, Prod.mk.injEq] at hyp
        obtain ⟨e1, he1⟩ := rehydrateW_ext fuel t h w h1 w2 hw
        obtain ⟨e2, he2⟩ := rehydrateWs_ext fuel t h1 rest hh2 rest2 hrest
        exact ⟨e1 ++ e2, by rw [← hyp.1, he2, he1, List.append_assoc]⟩

theorem rehydrateW_ext : ∀ (fuel : Nat) (t : String) (h : Heap) (w : HWhere)
    (h2 : Heap) (w2 : HWhere),
    rehydrateW fuel t h w = some (h2, w2) → ∃ ext, h2 = h ++ ext
  | 0, _, _, _, _, _, hyp => by simp [rehydrateW] at hyp
  | fuel + 1, t, h, w, h2, w2, hyp => by
    cases w with
    | nested b sub bs =>
      simp only [rehydrateW] at hyp
      cases hgb : heapGet h sub with
      | none => rw [hgb] at hyp; simp at hyp
      | some subB =>
        rw [hgb] at hyp
        simp only [opt_bind_some] at hyp
        cases hws : rehydrateWs fuel t h subB.wheres with
        | none => rw [hws] at hyp; simp at hyp
        | some p =>
          obtain ⟨h1, ws2⟩ := p
          rw [hws] at hyp
          simp only [opt_bind_some, Option.some.injEq, Prod.mk.injEq] at hyp
          obtain ⟨e1, he1⟩ := rehydrateWs_ext fuel t h subB.wheres h1 ws2 hws
          refine ⟨e1 ++ [{ mkHBuilder t with
            wheres := ws2, joins := subB.joins, groups := subB.groups,
            havings := subB.havings, orders := subB.orders,
            limitOpt := subB.limitOpt, offsetOpt := subB.offsetOpt,
            forUpdateFlag := subB.forUpdateFlag, select := subB.select }], ?_⟩
          rw [← hyp.1, he1, List.append_assoc]
    | existsW b sub bs =>
      simp only [rehydrateW] at hyp
      cases hgb : heapGet h sub with
      | none => rw [hgb] at hyp; simp at hyp
      | some subB =>
        rw [hgb] at hyp
        simp only [opt_bind_some] at hyp
        cases hws : rehydrateWs fuel t h subB.wheres with
        | none => rw [hws] at hyp; simp at hyp
        | some p =>
          obtain ⟨h1, ws2⟩ := p
          rw [hws] at hyp
          simp only [opt_bind_some, Option.some.injEq, Prod.mk.injEq] at hyp
          obtain ⟨e1, he1⟩ := rehydrateWs_ext fuel t h subB.wheres h1 ws2 hws
          refine ⟨e1 ++ [{ mkHBuilder subB.table with
            wheres := ws2, select := subB.select }], ?_⟩
          rw [← hyp.1, he1, List.append_assoc]
    | notExistsW b sub bs =>
      simp only [rehydrateW] at hyp
      cases hgb : heapGet h sub with
      | none => rw [hgb] at hyp; simp at hyp
      | some subB =>
        rw [hgb] at hyp
        simp only [opt_bind_some] at hyp
        cases hws : rehydrateWs fuel t h subB.wheres with
        | none => rw [hws] at hyp; simp at hyp
        | some p =>
          obtain ⟨h1, ws2⟩ := p
          rw [hws] at hyp
          simp only [opt_bind_some, Option.some.injEq, Prod.mk.injEq] at hyp
          obtain ⟨e1, he1⟩ := rehydrateWs_ext fuel t h subB.wheres h1 ws2 hws
          refine ⟨e1 ++ [{ mkHBuilder subB.table with
            wheres := ws2, select := subB.select }], ?_⟩
          rw [← hyp.1, he1, List.append_assoc]
    | basic b col op v bs =>
      simp only [rehydrateW, Option.some.injEq, Prod.mk.injEq] at hyp
      exact ⟨[], by rw [← hyp.1, List.append_nil]⟩
    | raw b r bs =>
      simp only [rehydrateW, Option.some.injEq, Prod.mk.injEq] at hyp
      exact ⟨[], by rw [← hyp.1, List.append_nil]⟩
    | columns b f op sec =>
      simp only [rehydrateW, Option.some.injEq, Prod.mk.injEq] at hyp
      exact ⟨[], by rw [← hyp.1, List.append_nil]⟩
    | inW b col vals bs =>
      simp only [rehydrateW, Option.some.injEq, Prod.mk.injEq] at hyp
      exact ⟨[], by rw [← hyp.1, List.append_nil]⟩
    | notInW b col vals bs =>
      simp only [rehydrateW, Option.some.injEq, Prod.mk.injEq] at hyp
      exact ⟨[], by rw [← hyp.1, List.append_nil]⟩
    | nullW b col neg =>
      simp only [rehydrateW, Option.some.injEq, Prod.mk.injEq] at hyp
      exact ⟨[], by rw [← hyp.1, List.append_nil]⟩
    | between b col lo hi neg bs =>
      simp only [rehydrateW, Option.some.injEq, Prod.mk.injEq] at hyp
      exact ⟨[], by rw [← hyp.1, List.append_nil]⟩
    | rawExists b r =>
      simp only [rehydrateW, Option.some.injEq, Prod.mk.injEq] at hyp
      exact ⟨[], by rw [← hyp.1, List.append_nil]⟩
    | rawNotExists b r =>
      simp only [rehydrateW, Option.some.injEq, Prod.mk.injEq] at hyp
      exact ⟨[], by rw [← hyp.1, List.append_nil]⟩
    | untyped s =>
      simp only [rehydrateW, Option.some.injEq, Prod.mk.injEq] at hyp
      exact ⟨[], by rw [← hyp.1, List.append_nil]⟩

end

end Nexium

namespace Nexium

/-- One rehydrated CTE entry only allocates. -/
theorem rehydrateCteItem_ext (fuel : Nat) (t : String) (h : Heap) (c : HCte)
    (h2 : Heap) (c2 : HCte)
    (hyp : rehydrateCteItem fuel t h c = some (h2, c2)) : ∃ ext, h2 = h ++ ext := by
  cases c with
  | mk name r sq =>
    cases sq with
    | raw s2 =>
      simp only [rehydrateCteItem, Option.some.injEq, Prod.mk.injEq] at hyp
      exact ⟨[], by rw [← hyp.1, List.append_nil]⟩
    | qb sub =>
      simp only [rehydrateCteItem] at hyp
      cases hgb : heapGet h sub with
      | none => rw [hgb] at hyp; simp at hyp
      | some subB =>
        rw [hgb] at hyp
        simp only [opt_bind_some] at hyp
        cases hws : rehydrateWs fuel t h subB.wheres with
        | none => rw [hws] at hyp; simp at hyp
        | some p =>
          obtain ⟨h0, ws2⟩ := p
          rw [hws] at hyp
          simp only [opt_bind_some, Option.some.injEq, Prod.mk.injEq] at hyp
          obtain ⟨e1, he1⟩ := rehydrateWs_ext fuel t h subB.wheres h0 ws2 hws
          refine ⟨e1 ++ [{ mkHBuilder subB.table with
            wheres := ws2, select := subB.select }], ?_⟩
          rw [← hyp.1, he1, List.append_assoc]

/-- `_rehydrateCTEs` only allocates. -/
theorem rehydrateCs_ext : ∀ (fuel : Nat) (t : String) (h : Heap) (cs : List HCte)
    (h2 : Heap) (cs2 : List HCte),
    rehydrateCs fuel t h cs = some (h2, cs2) → ∃ ext, h2 = h ++ ext
  | 0, _, _, _, _, _, hyp => by simp [rehydrateCs] at hyp
  | fuel + 1, t, h, [], h2, cs2, hyp => by
    simp only [rehydrateCs, Option.some.injEq, Prod.mk.injEq] at hyp
    exact ⟨[], by rw [← hyp.1, List.append_nil]⟩
  | fuel + 1, t, h, c :: rest, h2, cs2, hyp => by
    simp only [rehydrateCs] at hyp
    cases hc : rehydrateCteItem fuel t h c with
    | none => rw [hc] at hyp; simp at hyp
    | some p =>
      obtain ⟨h1, c2⟩ := p
      rw [hc] at hyp
      simp only [opt_bind_some] at hyp
      cases hrest : rehydrateCs fuel t h1 rest with
      | none => rw [hrest] at hyp; simp at hyp
      | some q =>
        obtain ⟨hh2, rest2⟩ := q
        rw [hrest] at hyp
        simp only [opt_bind_some, Option.some.injEq, Prod.mk.injEq] at hyp
        obtain ⟨e1, he1⟩ := rehydrateCteItem_ext fuel t h c h1 c2 hc
        obtain ⟨e2, he2⟩ := rehydrateCs_ext fuel t h1 rest hh2 rest2 hrest
        exact ⟨e1 ++ e2, by rw [← hyp.1, he2, he1, List.append_assoc]⟩

/-- One rehydrated union entry only allocates. -/
theorem rehydrateUnionItem_ext (fuel : Nat) (t : String) (h : Heap) (u : HUnion)
    (h2 : Heap) (u2 : HUnion)
    (hyp : rehydrateUnionItem fuel t h u = some (h2, u2)) : ∃ ext, h2 = h ++ ext := by
  cases u with
  | mk ty sq =>
    cases sq with
    | raw s2 =>
      simp only [rehydrateUnionItem, Option.some.injEq, Prod.mk.injEq] at hyp
      exact ⟨[], by rw [← hyp.1, List.append_nil]⟩
    | qb sub =>
      simp only [rehydrateUnionItem] at hyp
      cases hgb : heapGet h sub with
      | none => rw [hgb] at hyp; simp at hyp
      | some subB =>
        rw [hgb] at hyp
        simp only [opt_bind_some] at hyp
        cases hws : rehydrateWs fuel t h subB.wheres with
        | none => rw [hws] at hyp; simp at hyp
        | some p =>
          obtain ⟨h0, ws2⟩ := p
          rw [hws] at hyp
          simp only [opt_bind_some, Option.some.injEq, Prod.mk.injEq] at hyp
          obtain ⟨e1, he1⟩ := rehydrateWs_ext fuel t h subB.wheres h0 ws2 hws
          refine ⟨e1 ++ [{ mkHBuilder subB.table with
            wheres := ws2, select := subB.select }], ?_⟩
          rw [← hyp.1, he1, List.append_assoc]

/-- `_rehydrateUnions` only allocates. -/
theorem rehydrateUs_ext : ∀ (fuel : Nat) (t : String) (h : Heap) (us : List HUnion)
    (h2 : Heap) (us2 : List HUnion),
    rehydrateUs fuel t h us = some (h2, us2) → ∃ ext, h2 = h ++ ext
  | 0, _, _, _, _, _, hyp => by simp [rehydrateUs] at hyp
  | fuel + 1, t, h, [], h2, us2, hyp => by
    simp only [rehydrateUs, Option.some.injEq, Prod.mk.injEq] at hyp
    exact ⟨[], by rw [← hyp.1, List.append_nil]⟩
  | fuel + 1, t, h, u :: rest, h2, us2, hyp => by
    simp only [rehydrateUs] at hyp
    cases hu : rehydrateUnionItem fuel t h u with
    | none => rw [hu] at hyp; simp at hyp
    | some p =>
      obtain ⟨h1, u2⟩ := p
      rw [hu] at hyp
      simp only [opt_bind_some] at hyp
      cases hrest : rehydrateUs fuel t h1 rest with
      | none => rw [hrest] at hyp; simp at hyp
      | some q =>
        obtain ⟨hh2, rest2⟩ := q
        rw [hrest] at hyp
        simp only [opt_bind_some, Option.some.injEq, Prod.mk.injEq] at hyp
        obtain ⟨e1, he1⟩ := rehydrateUnionItem_ext fuel t h u h1 u2 hu
        obtain ⟨e2, he2⟩ := rehydrateUs_ext fuel t h1 rest hh2 rest2 hrest
        exact ⟨e1 ++ e2, by rw [← hyp.1, he2, he1, List.append_assoc]⟩

/-- `_clone()` only allocates: every id it touches is fresh. -/
theorem cloneH_ext (fuel : Nat) (h : Heap) (b : BId) (h2 : Heap) (b2 : BId)
    (hyp : cloneH fuel h b = some (h2, b2)) : ∃ ext, h2 = h ++ ext := by
  cases fuel with
  | zero => simp [cloneH] at hyp
  | succ fuel =>
    simp only [cloneH] at hyp
    cases hg : heapGet h b with
    | none => rw [hg] at hyp; simp at hyp
    | some src =>
      rw [hg] at hyp
      simp only [opt_bind_some] at hyp
      cases hws : rehydrateWs fuel src.table h src.wheres with
      | none => rw [hws] at hyp; simp at hyp
      | some p1 =>
        obtain ⟨h1, ws'⟩ := p1
        rw [hws] at hyp
        simp only [opt_bind_some] at hyp
        cases hcs : rehydrateCs fuel src.table h1 src.ctes with
        | none => rw [hcs] at hyp; simp at hyp
        | some p2 =>
          obtain ⟨hh2, cs'⟩ := p2
          rw [hcs] at hyp
          simp only [opt_bind_some] at hyp
          cases hus : rehydrateUs fuel src.table hh2 src.unions with
          | none => rw [hus] at hyp; simp at hyp
          | some p3 =>
            obtain ⟨h3, us'⟩ := p3
            rw [hus] at hyp
            simp only [opt_bind_some, Option.some.injEq, Prod.mk.injEq] at hyp
            obtain ⟨e1, he1⟩ := rehydrateWs_ext fuel src.table h src.wheres h1 ws' hws
            obtain ⟨e2, he2⟩ := rehydrateCs_ext fuel src.table h1 src.ctes hh2 cs' hcs
            obtain ⟨e3, he3⟩ := rehydrateUs_ext fuel src.table hh2 src.unions h3 us' hus
            refine ⟨e1 ++ (e2 ++ (e3 ++ [{ mkHBuilder src.table with
              tableAlias := src.tableAlias,
              select := src.select, joins := src.joins, wheres := ws',
              groups := src.groups, havings := src.havings, orders := src.orders,
              limitOpt := src.limitOpt, offsetOpt := src.offsetOpt,
              forUpdateFlag := src.forUpdateFlag, distinctFlag := src.distinctFlag,
              ctes := cs', unions := us', fromRaw := src.fromRaw }])), ?_⟩
            rw [← hyp.1, he3, he2, he1]
            simp [List.append_assoc]

end Nexium

namespace Nexium

/-- Source heap for the clone witness: builder 0 is a sub-builder with
one basic predicate; builder 1 (`users`, limit 10) references it through
a nested where group. -/
def hpSrc : Heap :=
  [{ mkHBuilder "t" with
      wheres := [.basic "AND" "a" "=" (.vnum 1) [.vnum 1]] },
   { mkHBuilder "users" with
      wheres := [.nested "AND" 0 [.vnum 1]], limitOpt := some 10 }]

/-- The heap after `cloneH 5 hpSrc 1`: the original two builders
untouched, a fresh rehydrated sub-builder at 2 and the clone at 3. -/
def hpClone : Heap :=
  [{ mkHBuilder "t" with
      wheres := [.basic "AND" "a" "=" (.vnum 1) [.vnum 1]] },
   { mkHBuilder "users" with
      wheres := [.nested "AND" 0 [.vnum 1]], limitOpt := some 10 },
   { mkHBuilder "users" with
      wheres := [.basic "AND" "a" "=" (.vnum 1) [.vnum 1]] },
   { mkHBuilder "users" with
      wheres := [.nested "AND" 2 [.vnum 1]], limitOpt := some 10 }]

/-- A replacement builder simulating a mutation of the clone
(different limit and an extra predicate). -/
def hpMut : HBuilder :=
  { mkHBuilder "users" with
      wheres := [.nested "AND" 2 [.vnum 1],
        .basic "AND" "x" "=" (.vnum 7) [.vnum 7]],
      limitOpt := some 99 }

/-- C5: `_clone()` returns a structurally independent copy.  The clone
and every sub-builder it reaches are freshly allocated (`cloneH` only
appends to the heap), so replacing any builder at an id allocated by the
clone — in particular overwriting the clone's limit, offset or predicate
list, at any nesting depth — leaves the source builder's materialized
state, compiled SQL and gathered bindings unchanged. -/
theorem clone_mutation_independent
    (h : Heap) (b : BId) (hcl : closedHeap h = true) (hb : b < h.length)
    (fuelC : Nat) (h2 : Heap) (b2 : BId)
    (hclone : cloneH fuelC h b = some (h2, b2))
    (i : BId) (hi : h.length ≤ i) (x : HBuilder) (fuelM : Nat) :
    materializeB fuelM (h2.set i x) b = materializeB fuelM h b
    ∧ (materializeB fuelM (h2.set i x) b).map compileSelect
      = (materializeB fuelM h b).map compileSelect
    ∧ (materializeB fuelM (h2.set i x) b).map gatherBindings
      = (materializeB fuelM h b).map gatherBindings := by
  obtain ⟨ext, hext⟩ := cloneH_ext fuelC h b h2 b2 hclone
  subst hext
  rw [hset_append_right h ext i x hi]
  have h1 := matB_agree fuelM h (ext.set (i - h.length) x) [] hcl b hb
  rw [List.append_nil] at h1
  exact ⟨h1, congrArg (Option.map compileSelect) h1,
    congrArg (Option.map gatherBindings) h1⟩

/-- Witness: cloning builder 1 of `hpSrc` allocates ids 2 and 3;
overwriting the clone (id 3) with a mutated builder leaves builder 1's
materialization, SQL and bindings untouched. -/
theorem clone_mutation_independent_witness :
    closedHeap hpSrc = true
    ∧ 1 < hpSrc.length
    ∧ cloneH 5 hpSrc 1 = some (hpClone, 3)
    ∧ (materializeB 5 (hpClone.set 3 hpMut) 1 = materializeB 5 hpSrc 1
       ∧ (materializeB 5 (hpClone.set 3 hpMut) 1).map compileSelect
         = (materializeB 5 hpSrc 1).map compileSelect
       ∧ (materializeB 5 (hpClone.set 3 hpMut) 1).map gatherBindings
         = (materializeB 5 hpSrc 1).map gatherBindings) :=
  ⟨rfl, by decide, rfl,
    clone_mutation_independent hpSrc 1 rfl (by decide) 5 hpClone 3 rfl 3
      (by decide) hpMut 5⟩

end Nexium
